import Mathlib

/-!
# fmt.h : an incremental, allocation-free string formatter

A shallow embedding of `src/fmt.h` (and of the adapters of `src/fmt_check.c`). The array macros
of `src/dynamic_array.h` are embedded in a part of their own, further down.

Modelling conventions.

* A `char` is a `Char` (only code points below 256 occur as bytes); a pointer into a
  NUL-terminated string is the list of bytes from the pointer on, and reading at the end of
  the list yields the terminator (`peek`).
* `size_t` quantities count bytes of objects held in memory and are natural numbers; `int`
  fields are integers; where the source converts between them the conversion is explicit
  (`toSizeT`, `toS32`).
* What `arg.data` points to is described by the 64-bit little-endian word stored there
  (`FmtStorage.word`) and, for a string pointer, by the bytes of the string it points to.
* A failed `assert`, a null dereference and an exhausted loop budget are faults (`Fault`);
  every function that can reach one returns `Except Fault`.
* `format_output.text` is held by value: the bytes that the pointer designates. `text_buf`
  is the content of the scratch buffer that a placeholder finds; what is rendered into it is
  carried by `format_output.text`, and no byte behind `text_size` is ever read.
* The custom-type hook `fmt_custom_arg` is a parameter (`FmtHook`); plain `char` is signed.
-/

namespace Fmt

/-- The ways a run of the C code can go wrong instead of returning. -/
inductive Fault where
  | assertion
  | fuel
  | nullDeref
  deriving DecidableEq

def FMT_SHOW_BUF_MAX : Nat := 64

def FMT_MAX_ARGS : Nat := 9

inductive FmtPadMode where
  | FmtPadLeft
  | FmtPadRight
  | FmtPadCustomPos
  | FmtPadManual
  deriving DecidableEq

/-- The storage `arg.data` points to: the 64-bit word found there and, when that word is
used as a `char *`, the bytes of the string it addresses (up to its terminator, or to the
end of the list). -/
structure FmtStorage where
  word : Nat
  str : List Char
  deriving DecidableEq

/-- A captured argument; `data = none` is the null pointer of the sentinel `FMT_ARG_END`. -/
structure FmtArg where
  data : Option FmtStorage
  type : Int
  deriving DecidableEq

structure FmtSpec where
  min_len : Nat
  custom_start : List Char
  custom_len : Nat
  pad_mode : FmtPadMode
  pad_byte : Char
  format : Char
  deriving DecidableEq

structure FmtFormatOutput where
  text : List Char
  text_size : Nat
  pad_pos : Nat
  pad_size : Int
  pad_mode : FmtPadMode
  pad_byte : Char
  deriving DecidableEq

inductive FmtAction where
  | FmtActionParsing
  | FmtActionFormatting
  | FmtActionDone
  deriving DecidableEq

structure FmtState where
  args : List FmtArg
  arg_count : Int
  fmt_at_init : List Char
  fmt : List Char
  userdata : Nat
  size : Nat
  next_arg_ix : Int
  action : FmtAction
  format_output : FmtFormatOutput
  text_buf : List Char
  deriving DecidableEq

/-- The type of `fmt_custom_arg`: the result is the returned flag and the output descriptor
as the hook left it. -/
abbrev FmtHook : Type := FmtArg → FmtSpec → Nat → FmtFormatOutput → Bool × FmtFormatOutput

/-- The default `fmt_custom_arg` (built when `FMT_CUSTOM_TYPES` is not defined). -/
def fmt_custom_arg : FmtHook := fun _ _ _ format_output => (false, format_output)

def FmtArgFirstBuiltin : Int := 30000
def FmtArgUnknown : Int := 30001
def FmtArgS64 : Int := 30002
def FmtArgS32 : Int := 30003
def FmtArgS16 : Int := 30004
def FmtArgS8 : Int := 30005
def FmtArgU64 : Int := 30006
def FmtArgU32 : Int := 30007
def FmtArgU16 : Int := 30008
def FmtArgU8 : Int := 30009
def FmtArgChar : Int := 30010
def FmtArgBool : Int := 30011
def FmtArgCharPtr : Int := 30012
def FmtArgVoidPtr : Int := 30013

/-- The sentinel `FMT_ARG_END`. -/
def FMT_ARG_END : FmtArg := { data := none, type := 0 }

/-- `(char)-1 < 0`: plain `char` is signed (the x86-64 ABI the demo is built for). -/
def FMT__CHAR_IS_SIGNED : Bool := true

/-- `*p` for a pointer into a NUL-terminated string. -/
def peek (p : List Char) : Char := p.headD '\x00'

/-- C `strlen`. -/
def strlen : List Char → Nat
  | [] => 0
  | c :: cs => if c = '\x00' then 0 else strlen cs + 1

/-- Conversion of an `int` to `size_t`. -/
def toSizeT (i : Int) : Nat := (i % 2 ^ 64).toNat

/-- Conversion of a size to `int` (two's complement, 32 bits). -/
def toS32 (n : Nat) : Int :=
  if n % 2 ^ 32 < 2 ^ 31 then (n % 2 ^ 32 : Nat) else (n % 2 ^ 32 : Nat) - 2 ^ 32

/-- Reading a signed integer of `bits` bits from the stored word. -/
def readSigned (bits : Nat) (w : Nat) : Int :=
  if w % 2 ^ bits < 2 ^ (bits - 1) then (w % 2 ^ bits : Nat) else (w % 2 ^ bits : Nat) - 2 ^ bits

/-- Reading an unsigned integer of `bits` bits from the stored word. -/
def readUnsigned (bits : Nat) (w : Nat) : Nat := w % 2 ^ bits

/-- Conversion of an `int64_t` to `uint64_t`. -/
def toU64 (v : Int) : Nat := (v % 2 ^ 64).toNat

/-- Conversion to `char`, as a byte. -/
def toByte (v : Nat) : Char := Char.ofNat (v % 256)

/-! ## Integer rendering

Each `show_*` function returns the bytes it stores at `buf[0 .. len)` together with `len`.
The second loop stores at `buf[index]` for `index = len - 1` down to `0`, which is consing
onto the bytes stored so far. The loops run at most `FMT_SHOW_BUF_MAX` times. -/

/-- The loop `for (m = n; m != 0; m /= 10) len++` on an `int64_t`. -/
def count_S64_dec : Nat → Int → Nat → Nat
  | 0, _, len => len
  | k + 1, m, len => if m = 0 then len else count_S64_dec k (m.tdiv 10) (len + 1)

/-- The loop storing the decimal digits of an `int64_t`, last digit first. -/
def fill_S64_dec (negative : Bool) : Nat → Int → List Char → List Char
  | 0, _, acc => acc
  | k + 1, m, acc =>
    if m = 0 then acc
    else
      let digit := m.tmod 10
      fill_S64_dec negative k (m.tdiv 10)
        (Char.ofNat ((if negative then -digit else digit) + 48).toNat :: acc)

def show_S64_dec (n : Int) : List Char × Nat :=
  if n = 0 then (['0'], 1)
  else
    let len := count_S64_dec FMT_SHOW_BUF_MAX n 0
    let negative := decide (n < 0)
    let digits := fill_S64_dec negative FMT_SHOW_BUF_MAX n []
    if negative then ('-' :: digits, len + 1) else (digits, len)

/-- The loop `for (m = n; m != 0; m /= base) len++` on a `uint64_t`. -/
def count_U64 (base : Nat) : Nat → Nat → Nat → Nat
  | 0, _, len => len
  | k + 1, m, len => if m = 0 then len else count_U64 base k (m / base) (len + 1)

/-- The loop storing `digit (m % base)` for the digits of a `uint64_t`, last digit first. -/
def fill_U64 (base : Nat) (digit : Nat → Char) : Nat → Nat → List Char → List Char
  | 0, _, acc => acc
  | k + 1, m, acc =>
    if m = 0 then acc else fill_U64 base digit k (m / base) (digit (m % base) :: acc)

/-- The character `d + '0'`. -/
def dec_digit (d : Nat) : Char := Char.ofNat (d + 48)

def show_U64_dec (n : Nat) : List Char × Nat :=
  if n = 0 then (['0'], 1)
  else (fill_U64 10 dec_digit FMT_SHOW_BUF_MAX n [], count_U64 10 FMT_SHOW_BUF_MAX n 0)

/-- The character `"0123456789abcdef"[d]`. -/
def hex_digit (d : Nat) : Char := "0123456789abcdef".toList.getD d '\x00'

def show_U64_hex (n : Nat) : List Char × Nat :=
  if n = 0 then (['0'], 1)
  else (fill_U64 16 hex_digit FMT_SHOW_BUF_MAX n [], count_U64 16 FMT_SHOW_BUF_MAX n 0)

/-- The loop `for (m = n; m != 0; m >>= 1) len++`. -/
def count_U64_bin : Nat → Nat → Nat → Nat
  | 0, _, len => len
  | k + 1, m, len => if m = 0 then len else count_U64_bin k (m >>> 1) (len + 1)

/-- The loop storing `'0' + (m & 1)`, last digit first. -/
def fill_U64_bin : Nat → Nat → List Char → List Char
  | 0, _, acc => acc
  | k + 1, m, acc =>
    if m = 0 then acc else fill_U64_bin k (m >>> 1) (Char.ofNat (48 + (m &&& 1)) :: acc)

def show_U64_bin (n : Nat) : List Char × Nat :=
  if n = 0 then (['0'], 1)
  else (fill_U64_bin FMT_SHOW_BUF_MAX n [], count_U64_bin FMT_SHOW_BUF_MAX n 0)

/-! ## Initialisation and reset -/

/-- The capture loop of `fmt_init`: the array slots it stores and the resulting `arg_count`.
The first argument is the number of slots left; reading past the end of the variadic pack
reads the sentinel. -/
def fmt_init_args : Nat → List FmtArg → List FmtArg × Int
  | 0, _ => ([], 0)
  | _ + 1, [] => ([FMT_ARG_END], 0)
  | k + 1, a :: va =>
    if a.data.isNone then ([a], 0)
    else ((a :: (fmt_init_args k va).1), (fmt_init_args k va).2 + 1)

/-- The function `fmt_init`; `state` is the memory the caller passes in, of which the
fields that the source does not assign keep their contents. -/
def fmt_init (state : FmtState) (fmt : List Char) (va : List FmtArg) : FmtState :=
  { state with
    args := (fmt_init_args FMT_MAX_ARGS va).1
    arg_count := (fmt_init_args FMT_MAX_ARGS va).2
    fmt_at_init := fmt
    fmt := fmt
    userdata := 0
    size := 0
    next_arg_ix := 0
    action := FmtAction.FmtActionParsing }

def fmt_reset (state : FmtState) : FmtState :=
  { state with
    next_arg_ix := 0
    fmt := state.fmt_at_init
    action := FmtAction.FmtActionParsing }

/-! ## Placeholder parsing -/

/-- The local variables of `fmt_parse_argspec`. -/
structure ArgspecVars where
  fmt : List Char
  done : Bool
  invalid : Bool
  arg_ix : Int
  spec : FmtSpec
  deriving DecidableEq

/-- The first `switch`: an optional argument index. -/
def argspec_index (v : ArgspecVars) : Except Fault ArgspecVars :=
  if v.done then .ok v
  else if peek v.fmt = '\x7b' then .error Fault.assertion
  else if '0' ≤ peek v.fmt ∧ peek v.fmt ≤ '8' then
    .ok { v with arg_ix := ((peek v.fmt).toNat : Int) - 48, fmt := v.fmt.tail }
  else if peek v.fmt = '\x7d' then .ok { v with done := true, fmt := v.fmt.tail }
  else if peek v.fmt = ':' ∨ peek v.fmt = '|' then .ok v
  else .ok { v with done := true, invalid := true }

/-- The flag `-` of the second `switch`. -/
def argspec_minus (v : ArgspecVars) : ArgspecVars :=
  if peek v.fmt = '-' then
    { v with spec := { v.spec with pad_mode := FmtPadMode.FmtPadRight }, fmt := v.fmt.tail }
  else v

/-- The flag `0` of the second `switch`. -/
def argspec_zero (v : ArgspecVars) : ArgspecVars :=
  if peek v.fmt = '0' then
    { v with spec := { v.spec with pad_byte := '0' }, fmt := v.fmt.tail }
  else v

/-- The one or two width digits of the second `switch`. -/
def argspec_width (v : ArgspecVars) : ArgspecVars :=
  if (peek v.fmt).isDigit then
    let v1 : ArgspecVars :=
      { v with spec := { v.spec with min_len := (peek v.fmt).toNat - 48 }, fmt := v.fmt.tail }
    if (peek v1.fmt).isDigit then
      { v1 with
        spec := { v1.spec with min_len := 10 * v1.spec.min_len + (peek v1.fmt).toNat - 48 }
        fmt := v1.fmt.tail }
    else v1
  else v

/-- The mode character of the second `switch`. -/
def argspec_mode (v : ArgspecVars) : ArgspecVars :=
  if peek v.fmt = 'x' ∨ peek v.fmt = 'b' ∨ peek v.fmt = 'c' ∨ peek v.fmt = 'p' then
    { v with spec := { v.spec with format := peek v.fmt }, fmt := v.fmt.tail }
  else v

/-- The second `switch`: the part after `:`. -/
def argspec_format (v : ArgspecVars) : ArgspecVars :=
  if v.done then v
  else if peek v.fmt = ':' then
    argspec_mode (argspec_width (argspec_zero (argspec_minus { v with fmt := v.fmt.tail })))
  else if peek v.fmt = '\x7d' then { v with done := true, fmt := v.fmt.tail }
  else if peek v.fmt = '|' then v
  else { v with done := true, invalid := true }

/-- The loop `while (*fmt && *fmt != '}') { fmt++; spec.custom_len++; }`. -/
def argspec_scan_custom : List Char → Nat → List Char × Nat
  | [], n => ([], n)
  | c :: cs, n =>
    if c ≠ '\x00' ∧ c ≠ '\x7d' then argspec_scan_custom cs (n + 1) else (c :: cs, n)

/-- The third `switch`: the custom payload after `|`. -/
def argspec_custom (v : ArgspecVars) : ArgspecVars :=
  if v.done then v
  else if peek v.fmt = '|' then
    { v with
      spec :=
        { v.spec with
          custom_start := v.fmt.tail
          custom_len := (argspec_scan_custom v.fmt.tail v.spec.custom_len).2 }
      fmt := (argspec_scan_custom v.fmt.tail v.spec.custom_len).1 }
  else if peek v.fmt = '\x7d' then { v with done := true, fmt := v.fmt.tail }
  else { v with done := true, invalid := true }

/-- The fourth `switch`: the closing brace. -/
def argspec_close (v : ArgspecVars) : ArgspecVars :=
  if v.done then v
  else if peek v.fmt = '\x7d' then { v with done := true, fmt := v.fmt.tail }
  else { v with done := true, invalid := true }

/-- What `fmt_parse_argspec` hands back: its return value and its three out-parameters. -/
structure ArgspecResult where
  success : Bool
  fmt : List Char
  arg_ix : Int
  spec : FmtSpec
  deriving DecidableEq

/-- The function `fmt_parse_argspec`; `fmt_ptr` points at the opening brace. -/
def fmt_parse_argspec (fmt_ptr : List Char) : Except Fault ArgspecResult :=
  match argspec_index
      { fmt := fmt_ptr.tail, done := false, invalid := false, arg_ix := -1,
        spec :=
          { min_len := 0, custom_start := [], custom_len := 0,
            pad_mode := FmtPadMode.FmtPadLeft, pad_byte := ' ', format := '\x00' } } with
  | .error e => .error e
  | .ok v1 =>
    let v := argspec_close (argspec_custom (argspec_format v1))
    if v.done then
      .ok { success := !v.invalid, fmt := v.fmt, arg_ix := v.arg_ix, spec := v.spec }
    else .error Fault.assertion

/-! ## Rendering one argument -/

/-- The value of `*(char *)arg.data` as an integer. -/
def readChar (w : Nat) : Int :=
  if FMT__CHAR_IS_SIGNED then readSigned 8 w else (readUnsigned 8 w : Nat)

/-- The rendering of an integer `val` whose conversion to `uint64_t` is `uval`; `dec` is the
decimal rendering that the case uses. -/
def fmt_format_int (format : Char) (dec : List Char × Nat) (uval : Nat)
    (format_output : FmtFormatOutput) : Except Fault FmtFormatOutput :=
  if format = '\x00' then .ok { format_output with text := dec.1, text_size := dec.2 }
  else if format = 'x' then
    .ok { format_output with text := (show_U64_hex uval).1, text_size := (show_U64_hex uval).2 }
  else if format = 'b' then
    .ok { format_output with text := (show_U64_bin uval).1, text_size := (show_U64_bin uval).2 }
  else if format = 'c' then .ok { format_output with text := [toByte uval], text_size := 1 }
  else .error Fault.assertion

/-- The value of `*(void **)arg.data` (and of `*(char **)arg.data`) as an integer. -/
def fmt_arg_ptr (data : FmtStorage) : Nat := readUnsigned 64 data.word

/-- The string `val ? "true" : "false"` of the boolean case. -/
def fmt_arg_bool (data : FmtStorage) : List Char :=
  if data.word % 256 ≠ 0 then "true".toList else "false".toList

/-- The value `val` of the signed integer case: the read selected by the type tag. -/
def fmt_arg_S64 (type : Int) (data : FmtStorage) : Int :=
  if type = FmtArgS64 then readSigned 64 data.word
  else if type = FmtArgS32 then readSigned 32 data.word
  else if type = FmtArgS16 then readSigned 16 data.word
  else if type = FmtArgS8 then readSigned 8 data.word
  else readChar data.word

/-- The value `val` of the unsigned integer case: the read selected by the type tag. -/
def fmt_arg_U64 (type : Int) (data : FmtStorage) : Nat :=
  if type = FmtArgU64 then readUnsigned 64 data.word
  else if type = FmtArgU32 then readUnsigned 32 data.word
  else if type = FmtArgU16 then readUnsigned 16 data.word
  else if type = FmtArgU8 then readUnsigned 8 data.word
  else toU64 (readChar data.word)

/-- The first half of `fmt_format_arg`: the text of the argument. -/
def fmt_format_text (hook : FmtHook) (arg : FmtArg) (data : FmtStorage) (spec : FmtSpec)
    (userdata : Nat) (format_output : FmtFormatOutput) : Except Fault FmtFormatOutput :=
  if spec.format = 'p' ∨ arg.type = FmtArgVoidPtr then
    if fmt_arg_ptr data = 0 then
      .ok
        { format_output with
          text := "(nil)".toList
          text_size := strlen "(nil)".toList
          pad_byte := if format_output.pad_byte = '0' then ' ' else format_output.pad_byte }
    else if format_output.pad_byte = '0' then
      .ok
        { format_output with
          text := '0' :: 'x' :: (show_U64_hex (fmt_arg_ptr data)).1
          text_size := 2 + (show_U64_hex (fmt_arg_ptr data)).2
          pad_pos := 2
          pad_mode := FmtPadMode.FmtPadCustomPos }
    else
      .ok
        { format_output with
          text := '0' :: 'x' :: (show_U64_hex (fmt_arg_ptr data)).1
          text_size := 2 + (show_U64_hex (fmt_arg_ptr data)).2 }
  else if arg.type = FmtArgS64 ∨ arg.type = FmtArgS32 ∨ arg.type = FmtArgS16 ∨
      arg.type = FmtArgS8 ∨
      arg.type = (if FMT__CHAR_IS_SIGNED then FmtArgChar else FmtArgFirstBuiltin) then
    fmt_format_int spec.format (show_S64_dec (fmt_arg_S64 arg.type data))
      (toU64 (fmt_arg_S64 arg.type data)) format_output
  else if arg.type = FmtArgU64 ∨ arg.type = FmtArgU32 ∨ arg.type = FmtArgU16 ∨
      arg.type = FmtArgU8 ∨
      arg.type = (if FMT__CHAR_IS_SIGNED then FmtArgFirstBuiltin else FmtArgChar) then
    fmt_format_int spec.format (show_U64_dec (fmt_arg_U64 arg.type data))
      (fmt_arg_U64 arg.type data) format_output
  else if arg.type = FmtArgBool then
    .ok { format_output with
      text := fmt_arg_bool data
      text_size := strlen (fmt_arg_bool data) }
  else if arg.type = FmtArgCharPtr then
    if fmt_arg_ptr data = 0 then .error Fault.nullDeref
    else .ok { format_output with text_size := strlen data.str, text := data.str }
  else
    if (hook arg spec userdata format_output).1 then
      .ok (hook arg spec userdata format_output).2
    else
      .ok
        { (hook arg spec userdata format_output).2 with
          text := "\x7bunknown type\x7d".toList
          text_size := strlen "\x7bunknown type\x7d".toList }

/-- The block under `if (calculate_padding)`. -/
def fmt_calculate_padding (spec : FmtSpec) (format_output : FmtFormatOutput) :
    Except Fault FmtFormatOutput :=
  if format_output.pad_size ≠ 0 then .error Fault.assertion
  else if format_output.text_size < spec.min_len then
    .ok { format_output with
      pad_size := ((spec.min_len - format_output.text_size : Nat) : Int) }
  else .ok format_output

/-- The second half of `fmt_format_arg`: the `switch` over the pad mode and the amount of
padding. -/
def fmt_format_pad (spec : FmtSpec) (format_output : FmtFormatOutput) :
    Except Fault FmtFormatOutput :=
  match format_output.pad_mode with
  | FmtPadMode.FmtPadRight =>
    fmt_calculate_padding spec { format_output with pad_pos := format_output.text_size }
  | FmtPadMode.FmtPadLeft =>
    if format_output.pad_pos = 0 then fmt_calculate_padding spec format_output
    else .error Fault.assertion
  | FmtPadMode.FmtPadCustomPos => fmt_calculate_padding spec format_output
  | FmtPadMode.FmtPadManual => .ok format_output

/-- The function `fmt_format_arg`. -/
def fmt_format_arg (hook : FmtHook) (arg : FmtArg) (spec : FmtSpec) (userdata : Nat)
    (format_output : FmtFormatOutput) : Except Fault FmtFormatOutput :=
  match arg.data with
  | none => .error Fault.nullDeref
  | some data =>
    match fmt_format_text hook arg data spec userdata format_output with
    | .error e => .error e
    | .ok fo => fmt_format_pad spec fo

/-! ## The chunk machine -/

/-- The value of `actual_arg_ix` after
`if (actual_arg_ix == -1) actual_arg_ix = state->next_arg_ix++;`. -/
def fmt_actual_arg_ix (requested_arg_ix next_arg_ix : Int) : Int :=
  if requested_arg_ix = -1 then next_arg_ix else requested_arg_ix

/-- The value of `state->next_arg_ix` after
`if (actual_arg_ix == -1) actual_arg_ix = state->next_arg_ix++;`. -/
def fmt_bump_arg_ix (requested_arg_ix next_arg_ix : Int) : Int :=
  if requested_arg_ix = -1 then next_arg_ix + 1 else next_arg_ix

/-- The output descriptor as the `Parse arg` block initialises it before rendering. -/
def fmt_fresh_output (text_buf : List Char) (spec : FmtSpec) : FmtFormatOutput :=
  { text := text_buf, text_size := 0, pad_pos := 0, pad_size := 0,
    pad_byte := spec.pad_byte, pad_mode := spec.pad_mode }

/-- The block `Parse arg` of `fmt_chunk` (the `else` branch of the Parsing case), as a
function of the state fields it reads; the result is the new `fmt`, the new `next_arg_ix`
and the new `format_output`. -/
def fmt_parse_arg (hook : FmtHook) (args : List FmtArg) (arg_count : Int) (userdata : Nat)
    (text_buf : List Char) (fmt : List Char) (next_arg_ix : Int) :
    Except Fault (List Char × Int × FmtFormatOutput) :=
  match fmt_parse_argspec fmt with
  | .error e => .error e
  | .ok r =>
    let format_output := fmt_fresh_output text_buf r.spec
    if r.success then
      let actual_arg_ix := fmt_actual_arg_ix r.arg_ix next_arg_ix
      let next1 := fmt_bump_arg_ix r.arg_ix next_arg_ix
      if actual_arg_ix < arg_count then
        match fmt_format_arg hook (args.getD actual_arg_ix.toNat FMT_ARG_END) r.spec userdata
            format_output with
        | .error e => .error e
        | .ok fo => .ok (r.fmt, next1, fo)
      else
        .ok (r.fmt, next1,
          { format_output with
            text := "\x7binvalid arg index\x7d".toList
            text_size := strlen "\x7binvalid arg index\x7d".toList })
    else
      .ok (r.fmt, next_arg_ix,
        { format_output with
          text := "\x7binvalid fmt\x7d".toList
          text_size := strlen "\x7binvalid fmt\x7d".toList })

/-- The local variables of the Formatting case: the output descriptor, the bytes stored
through `cur` so far, `remaining` and `size_written`. -/
structure Emit where
  format_output : FmtFormatOutput
  out : List Char
  remaining : Nat
  size_written : Nat
  deriving DecidableEq

/-- The block `Text before padding`. -/
def emit_pre (e : Emit) : Emit :=
  if e.format_output.pad_pos > 0 ∧ e.remaining > 0 then
    let actual_size := min e.format_output.pad_pos e.remaining
    { format_output :=
        { e.format_output with
          text := e.format_output.text.drop actual_size
          text_size := e.format_output.text_size - actual_size
          pad_pos := e.format_output.pad_pos - actual_size }
      out := e.out ++ e.format_output.text.take actual_size
      remaining := e.remaining - actual_size
      size_written := e.size_written + actual_size }
  else e

/-- The block `Padding`. -/
def emit_pad (e : Emit) : Except Fault Emit :=
  if e.format_output.pad_size > 0 ∧ e.remaining > 0 then
    if e.format_output.pad_pos ≠ 0 then .error Fault.assertion
    else
      let actual_size := min (toSizeT e.format_output.pad_size) e.remaining
      .ok
        { format_output :=
            { e.format_output with pad_size := e.format_output.pad_size - (actual_size : Int) }
          out := e.out ++ List.replicate actual_size e.format_output.pad_byte
          remaining := e.remaining - actual_size
          size_written := e.size_written + actual_size }
  else .ok e

/-- The block `Text after padding`. -/
def emit_post (e : Emit) : Except Fault Emit :=
  if e.format_output.text_size > 0 ∧ e.remaining > 0 then
    if e.format_output.pad_size ≠ 0 then .error Fault.assertion
    else
      let actual_size := min e.format_output.text_size e.remaining
      .ok
        { format_output :=
            { e.format_output with
              text := e.format_output.text.drop actual_size
              text_size := e.format_output.text_size - actual_size }
          out := e.out ++ e.format_output.text.take actual_size
          remaining := e.remaining - actual_size
          size_written := e.size_written + actual_size }
  else .ok e

/-- The body of the Formatting case up to the test that decides the next action. `buf` is
`none` for a null buffer and the buffer size otherwise; `cur - buf` is `out.length`. -/
def fmt_emit (buf : Option Nat) (format_output : FmtFormatOutput) (out : List Char)
    (size_written : Nat) : Except Fault Emit :=
  match buf with
  | some buf_size =>
    if format_output.pad_pos ≤ format_output.text_size then
      match emit_pad (emit_pre
          { format_output := format_output, out := out,
            remaining := buf_size - out.length, size_written := size_written }) with
      | .error e => .error e
      | .ok e1 => emit_post e1
    else .error Fault.assertion
  | none =>
    .ok
      { format_output := { format_output with pad_size := 0, text_size := 0 }
        out := out
        remaining := 0
        size_written :=
          size_written + (toSizeT format_output.pad_size + format_output.text_size) }

/-- The statements `if (*state->fmt == '{') state->fmt++; state->fmt++;`. -/
def fmt_skip_literal (fmt : List Char) : List Char :=
  if peek fmt = '\x7b' then fmt.tail.tail else fmt.tail

/-- The loop of `fmt_chunk`. The first argument bounds the number of iterations; `buf` is
`none` for a null buffer and the buffer size otherwise; `out` holds the bytes stored through
`cur` so far. The result is the state, the bytes stored and `size_written` at `exit_loop`. -/
def fmt_chunk_loop (hook : FmtHook) :
    Nat → Option Nat → FmtState → List Char → Nat → Except Fault (FmtState × List Char × Nat)
  | 0, _, _, _, _ => .error Fault.fuel
  | k + 1, buf, state, out, size_written =>
    match state.action with
    | FmtAction.FmtActionParsing =>
      if peek state.fmt = '\x00' then
        fmt_chunk_loop hook k buf { state with action := FmtAction.FmtActionDone } out
          size_written
      else if peek state.fmt ≠ '\x7b' ∨
          (peek state.fmt = '\x7b' ∧ peek state.fmt.tail = '\x7b') then
        match buf with
        | some buf_size =>
          if out.length < buf_size then
            fmt_chunk_loop hook k buf { state with fmt := fmt_skip_literal state.fmt }
              (out ++ [peek state.fmt]) (size_written + 1)
          else .ok (state, out, size_written)
        | none =>
          fmt_chunk_loop hook k buf { state with fmt := fmt_skip_literal state.fmt } out
            (size_written + 1)
      else
        match fmt_parse_arg hook state.args state.arg_count state.userdata state.text_buf
            state.fmt state.next_arg_ix with
        | .error e => .error e
        | .ok r =>
          fmt_chunk_loop hook k buf
            { state with
              fmt := r.1
              next_arg_ix := r.2.1
              format_output := r.2.2
              action := FmtAction.FmtActionFormatting }
            out size_written
    | FmtAction.FmtActionFormatting =>
      match fmt_emit buf state.format_output out size_written with
      | .error e => .error e
      | .ok e =>
        if e.format_output.pad_size = 0 ∧ e.format_output.text_size = 0 then
          fmt_chunk_loop hook k buf
            { state with
              format_output := e.format_output
              action := FmtAction.FmtActionParsing }
            e.out e.size_written
        else .ok ({ state with format_output := e.format_output }, e.out, e.size_written)
    | FmtAction.FmtActionDone => .ok (state, out, size_written)

/-- One iteration of the loop of `fmt_chunk`, from the `switch` to the end of the loop
body or to `goto exit_loop`. The flag of the result tells whether the iteration leaves the
loop; with it come the state, the bytes stored so far and `size_written`. -/
def fmt_chunk_iter (hook : FmtHook) (buf : Option Nat) (state : FmtState) (out : List Char)
    (size_written : Nat) : Except Fault (Bool × FmtState × List Char × Nat) :=
  match state.action with
  | FmtAction.FmtActionParsing =>
    if peek state.fmt = '\x00' then
      .ok (false, { state with action := FmtAction.FmtActionDone }, out, size_written)
    else if peek state.fmt ≠ '\x7b' ∨
        (peek state.fmt = '\x7b' ∧ peek state.fmt.tail = '\x7b') then
      match buf with
      | some buf_size =>
        if out.length < buf_size then
          .ok (false, { state with fmt := fmt_skip_literal state.fmt },
            out ++ [peek state.fmt], size_written + 1)
        else .ok (true, state, out, size_written)
      | none =>
        .ok (false, { state with fmt := fmt_skip_literal state.fmt }, out, size_written + 1)
    else
      match fmt_parse_arg hook state.args state.arg_count state.userdata state.text_buf
          state.fmt state.next_arg_ix with
      | .error e => .error e
      | .ok r =>
        .ok (false,
          { state with
            fmt := r.1
            next_arg_ix := r.2.1
            format_output := r.2.2
            action := FmtAction.FmtActionFormatting },
          out, size_written)
  | FmtAction.FmtActionFormatting =>
    match fmt_emit buf state.format_output out size_written with
    | .error e => .error e
    | .ok e =>
      if e.format_output.pad_size = 0 ∧ e.format_output.text_size = 0 then
        .ok (false,
          { state with
            format_output := e.format_output
            action := FmtAction.FmtActionParsing },
          e.out, e.size_written)
      else .ok (true, { state with format_output := e.format_output }, e.out, e.size_written)
  | FmtAction.FmtActionDone => .ok (true, state, out, size_written)

/-- A bound on the number of iterations of the loop of `fmt_chunk` from `state`. -/
def fmt_chunk_budget (state : FmtState) : Nat := 2 * state.fmt.length + 3

/-- What a call of `fmt_chunk` leaves behind: its return value, the state and the buffer. -/
structure ChunkResult where
  ret : Bool
  state : FmtState
  buf : Option (List Char)
  deriving DecidableEq

/-- The function `fmt_chunk`. `buf` is the content of the caller's buffer (`none` for a null
pointer); the bytes stored through `cur` replace its first bytes. -/
def fmt_chunk (hook : FmtHook) (state : FmtState) (buf : Option (List Char)) (buf_size : Nat) :
    Except Fault ChunkResult :=
  if state.action = FmtAction.FmtActionDone then
    .ok { ret := false, state := { state with size := 0 }, buf := buf }
  else
    match fmt_chunk_loop hook (fmt_chunk_budget state) (buf.map fun _ => buf_size) state [] 0
      with
    | .error e => .error e
    | .ok r =>
      .ok
        { ret := !(r.2.2 = 0 ∧ r.1.action = FmtAction.FmtActionDone)
          state := { r.1 with size := r.2.2 }
          buf := buf.map fun b => r.2.1 ++ b.drop r.2.1.length }

/-- The bytes a call of `fmt_chunk` produced: `buf[0 .. state.size)`. -/
def ChunkResult.bytes (r : ChunkResult) : List Char := (r.buf.getD []).take r.state.size

/-! ## Adapters -/

/-- The function `fmt_sn_va`; `state` is the uninitialised local. The result is the return
value and the buffer. -/
def fmt_sn_va (hook : FmtHook) (state : FmtState) (buf : Option (List Char)) (size : Nat)
    (fmt : List Char) (va : List FmtArg) : Except Fault (Int × Option (List Char)) :=
  let size_excluding_nul := if size ≠ 0 then size - 1 else 0
  match fmt_chunk hook (fmt_init state fmt va) buf size_excluding_nul with
  | .error e => .error e
  | .ok r1 =>
    let result_size1 : Int := if r1.ret then toS32 (toSizeT 0 + r1.state.size) else 0
    let buf1 : Option (List Char) :=
      if size > 0 then r1.buf.map fun b => b.set result_size1.toNat '\x00' else r1.buf
    match fmt_chunk hook r1.state none 0 with
    | .error e => .error e
    | .ok r2 =>
      .ok (if r2.ret then toS32 (toSizeT result_size1 + r2.state.size) else result_size1, buf1)

/-- The function `fmt_malloc_va` of `fmt_check.c`; `state` is the uninitialised local and
`malloc n` is the block of `n` bytes that the allocator returns, if any. The result is `mem`
(`none` for the null pointer). -/
def fmt_malloc_va (hook : FmtHook) (state : FmtState) (malloc : Nat → Option (List Char))
    (fmt : List Char) (va : List FmtArg) : Except Fault (Option (List Char)) :=
  match fmt_chunk hook (fmt_init state fmt va) none 0 with
  | .error e => .error e
  | .ok r1 =>
    let counted_size := r1.state.size
    match malloc (counted_size + 1) with
    | none => .ok none
    | some mem =>
      match fmt_chunk hook (fmt_reset r1.state) (some mem) counted_size with
      | .error e => .error e
      | .ok r2 =>
        let formatted_size := r2.state.size
        if counted_size = formatted_size then
          .ok (r2.buf.map fun b => b.set formatted_size '\x00')
        else .error Fault.assertion

/-- The loop of the core API, `while (fmt_chunk(&state, buf, buf_size)) process(buf,
state.size)`, run over a list of buffers, one per call; `acc` is what `process` has
received. The flag tells whether `fmt_chunk` returned false before the buffers ran out. -/
def fmt_drain (hook : FmtHook) : List (List Char) → FmtState → List Char →
    Except Fault (Bool × FmtState × List Char)
  | [], state, acc => .ok (false, state, acc)
  | buf :: bufs, state, acc =>
    match fmt_chunk hook state (some buf) buf.length with
    | .error e => .error e
    | .ok r =>
      if r.ret then fmt_drain hook bufs r.state (acc ++ r.bytes) else .ok (true, r.state, acc)

/-! # Predicates and reference functions used by the statements -/

/-- The parser leaves a mode character, a pad side and a width that `fmt_format_arg`
handles. -/
def SpecOk (spec : FmtSpec) : Prop :=
  (spec.format = '\x00' ∨ spec.format = 'x' ∨ spec.format = 'b' ∨ spec.format = 'c' ∨
      spec.format = 'p') ∧
    (spec.pad_mode = FmtPadMode.FmtPadLeft ∨ spec.pad_mode = FmtPadMode.FmtPadRight) ∧
    spec.min_len ≤ 99

/-- A well-formed output descriptor: the padding position lies inside the text, the text
pointer designates at least `text_size` bytes and the amount of padding is a size. -/
def FoOk (fo : FmtFormatOutput) : Prop :=
  fo.pad_pos ≤ fo.text_size ∧ fo.text_size ≤ fo.text.length ∧ 0 ≤ fo.pad_size ∧
    fo.pad_size < 2 ^ 64

/-- The type tags that `FMT_MAKE_FMTTYPE` gives to the builtin kinds. -/
def isBuiltin (t : Int) : Prop :=
  t = FmtArgS64 ∨ t = FmtArgS32 ∨ t = FmtArgS16 ∨ t = FmtArgS8 ∨ t = FmtArgU64 ∨
    t = FmtArgU32 ∨ t = FmtArgU16 ∨ t = FmtArgU8 ∨ t = FmtArgChar ∨ t = FmtArgBool ∨
    t = FmtArgCharPtr ∨ t = FmtArgVoidPtr

/-- An argument the machine can render: it has storage, a string pointer is not null, and
its type is builtin or else the hook declines it without touching the descriptor. -/
def ArgOk (hook : FmtHook) (a : FmtArg) : Prop :=
  ∃ d, a.data = some d ∧ (a.type = FmtArgCharPtr → fmt_arg_ptr d ≠ 0) ∧
    (isBuiltin a.type ∨ ∀ spec userdata fo, hook a spec userdata fo = (false, fo))

/-- What the first half of `fmt_format_arg` establishes from a fresh descriptor. -/
def TextOk (fo0 fo1 : FmtFormatOutput) : Prop :=
  fo1.text_size ≤ fo1.text.length ∧ fo1.pad_size = 0 ∧
    ((fo1.pad_pos = 0 ∧ fo1.pad_mode = fo0.pad_mode) ∨
      (fo1.pad_pos = 2 ∧ 2 ≤ fo1.text_size ∧ fo1.pad_mode = FmtPadMode.FmtPadCustomPos))

/-- Every argument index below `arg_count` designates an argument the machine can render. -/
def ArgsOk (hook : FmtHook) (args : List FmtArg) (arg_count : Int) : Prop :=
  ∀ i : Int, 0 ≤ i → i < arg_count → ArgOk hook (args.getD i.toNat FMT_ARG_END)

/-- The bytes an output descriptor still has to emit: the text before the padding position,
the padding, the text after it. -/
def pending (fo : FmtFormatOutput) : List Char :=
  fo.text.take fo.pad_pos ++
    (List.replicate fo.pad_size.toNat fo.pad_byte ++
      (fo.text.drop fo.pad_pos).take (fo.text_size - fo.pad_pos))

/-- One block of the Formatting case seen from outside: it moves the first `a` pending
bytes to the buffer. -/
def EmitStep (e e1 : Emit) : Prop :=
  ∃ a, a ≤ e.remaining ∧ a ≤ (pending e.format_output).length ∧
    e1.out = e.out ++ (pending e.format_output).take a ∧
    pending e1.format_output = (pending e.format_output).drop a ∧
    e1.remaining = e.remaining - a ∧ e1.size_written = e.size_written + a ∧
    FoOk e1.format_output

/-- The bytes the machine still produces from the Parsing action at `fmt` with the
auto-argument counter `next_arg_ix`. -/
def render (hook : FmtHook) (args : List FmtArg) (arg_count : Int) (userdata : Nat)
    (text_buf : List Char) (fmt : List Char) (next_arg_ix : Int) : List Char :=
  if peek fmt = '\x00' then []
  else if peek fmt ≠ '\x7b' ∨ (peek fmt = '\x7b' ∧ peek fmt.tail = '\x7b') then
    if _h : (fmt_skip_literal fmt).length < fmt.length then
      peek fmt ::
        render hook args arg_count userdata text_buf (fmt_skip_literal fmt) next_arg_ix
    else []
  else
    match fmt_parse_arg hook args arg_count userdata text_buf fmt next_arg_ix with
    | .error _ => []
    | .ok r =>
      if _h : r.1.length < fmt.length then
        pending r.2.2 ++ render hook args arg_count userdata text_buf r.1 r.2.1
      else []
termination_by fmt.length
decreasing_by
  · assumption
  · assumption

/-- The bytes the machine still produces from `state`. -/
def remaining (hook : FmtHook) (state : FmtState) : List Char :=
  match state.action with
  | FmtAction.FmtActionParsing =>
    render hook state.args state.arg_count state.userdata state.text_buf state.fmt
      state.next_arg_ix
  | FmtAction.FmtActionFormatting =>
    pending state.format_output ++
      render hook state.args state.arg_count state.userdata state.text_buf state.fmt
        state.next_arg_ix
  | FmtAction.FmtActionDone => []

/-- The fields of the state that `fmt_chunk` reads and never assigns. -/
def Frame (s s1 : FmtState) : Prop :=
  s1.args = s.args ∧ s1.arg_count = s.arg_count ∧ s1.userdata = s.userdata ∧
    s1.text_buf = s.text_buf ∧ s1.fmt_at_init = s.fmt_at_init

/-- The invariant of the machine: the captured arguments can be rendered, the auto-argument
counter is not negative, and while Formatting the output descriptor is well formed. -/
def StateOk (hook : FmtHook) (s : FmtState) : Prop :=
  ArgsOk hook s.args s.arg_count ∧ 0 ≤ s.next_arg_ix ∧
    (s.action = FmtAction.FmtActionFormatting → FoOk s.format_output)

/-- The number of loop iterations `fmt_chunk` can still need from a state. -/
def loopMeasure (s : FmtState) : Nat :=
  match s.action with
  | FmtAction.FmtActionParsing => 2 * s.fmt.length + 2
  | FmtAction.FmtActionFormatting => 2 * s.fmt.length + 3
  | FmtAction.FmtActionDone => 1

/-- A variadic pack the machine can render: every argument with storage is one that
`fmt_format_arg` handles (see `ArgOk`); arguments of the builtin kinds with non-null string
pointers always are. -/
def VaOk (hook : FmtHook) (va : List FmtArg) : Prop :=
  ∀ a ∈ va, ∀ d, a.data = some d →
    (a.type = FmtArgCharPtr → fmt_arg_ptr d ≠ 0) ∧
      (isBuiltin a.type ∨ ∀ spec userdata fo, hook a spec userdata fo = (false, fo))

/-- The bytes `state` still produces when it is formatted to completion: a size-only call of
`fmt_chunk` followed, from the same state, by one call with a buffer of exactly that size
(the two passes of `fmt_malloc_va`). -/
def fmt_all (hook : FmtHook) (state : FmtState) : Except Fault (List Char) :=
  match fmt_chunk hook state none 0 with
  | .error e => .error e
  | .ok r1 =>
    match fmt_chunk hook state (some (List.replicate r1.state.size '\x00')) r1.state.size with
    | .error e => .error e
    | .ok r2 => .ok r2.bytes

/-- A sequence of calls `fmt_chunk(&state, buf, buf_size)` on one state, whatever they
return; each call is given by its buffer and its size. -/
def fmt_chunks (hook : FmtHook) : List (Option (List Char) × Nat) → FmtState →
    Except Fault FmtState
  | [], state => .ok state
  | call :: calls, state =>
    match fmt_chunk hook state call.1 call.2 with
    | .error e => .error e
    | .ok r => fmt_chunks hook calls r.state

/-- The check that every argument of a pack that has storage is of a builtin kind and, when
it is a string pointer, is not null. -/
def builtin_va (va : List FmtArg) : Bool :=
  va.all fun a =>
    match a.data with
    | none => true
    | some d =>
      decide (a.type = FmtArgCharPtr → fmt_arg_ptr d ≠ 0) &&
        decide (a.type ∈ [FmtArgS64, FmtArgS32, FmtArgS16, FmtArgS8, FmtArgU64, FmtArgU32,
          FmtArgU16, FmtArgU8, FmtArgChar, FmtArgBool, FmtArgCharPtr, FmtArgVoidPtr])

/-- `FMT_ARG(x)` for an `int32_t x`. -/
def FMT_ARG_S32 (x : Int) : FmtArg :=
  { data := some { word := (x % 2 ^ 32).toNat, str := [] }, type := FmtArgS32 }

/-- `FMT_ARG(x)` for a `char *x` that holds the address `addr` of the string `s`. -/
def FMT_ARG_CharPtr (addr : Nat) (s : String) : FmtArg :=
  { data := some { word := addr, str := s.toList }, type := FmtArgCharPtr }

/-- `FMT_ARG(x)` for a `void *x` that holds the address `addr`. -/
def FMT_ARG_VoidPtr (addr : Nat) : FmtArg :=
  { data := some { word := addr, str := [] }, type := FmtArgVoidPtr }

/-- An uninitialised `FmtState`, as a caller's stack may hold it before `fmt_init`. -/
def demo_state : FmtState :=
  { args := [], arg_count := 7, fmt_at_init := ['?'], fmt := ['!'], userdata := 5, size := 9,
    next_arg_ix := 3, action := FmtAction.FmtActionFormatting,
    format_output :=
      { text := ['j', 'u', 'n', 'k'], text_size := 4, pad_pos := 1, pad_size := 2,
        pad_mode := FmtPadMode.FmtPadManual, pad_byte := '#' },
    text_buf := [] }

/-- The machine is in the Parsing action at an opening brace that is not doubled, and the
parser reads the placeholder there as `p`. -/
def PlaceholderAt (s : FmtState) (p : ArgspecResult) : Prop :=
  s.action = FmtAction.FmtActionParsing ∧ peek s.fmt = '\x7b' ∧ peek s.fmt.tail ≠ '\x7b' ∧
    fmt_parse_argspec s.fmt = .ok p

/-- The argument a well-formed placeholder `p` resolves to in state `s`. -/
def placeholder_arg (s : FmtState) (p : ArgspecResult) : FmtArg :=
  s.args.getD (fmt_actual_arg_ix p.arg_ix s.next_arg_ix).toNat FMT_ARG_END

/-- The state in which the machine goes on parsing once the output of the placeholder `p`
is drained: the cursor is where the parser left it, and the auto-argument counter has
moved if the placeholder was well formed and had no index. -/
def after_placeholder (s : FmtState) (p : ArgspecResult) : FmtState :=
  { s with
    fmt := p.fmt
    next_arg_ix := if p.success then fmt_bump_arg_ix p.arg_ix s.next_arg_ix else s.next_arg_ix }

/-- The digits of `v` in base 16, most significant first, as lowercase characters. -/
def lower_hex (v : Nat) : List Char := (Nat.digits 16 v).reverse.map hex_digit

/-- The characters of a placeholder behind its colon, where the flags stand (none when the
placeholder has no colon); `fmt_ptr` points at the opening brace, and an index digit may
stand before the colon. -/
def placeholder_flags (fmt_ptr : List Char) : List Char :=
  if peek (if '0' ≤ peek fmt_ptr.tail ∧ peek fmt_ptr.tail ≤ '8' then fmt_ptr.tail.tail
      else fmt_ptr.tail) = ':' then
    (if '0' ≤ peek fmt_ptr.tail ∧ peek fmt_ptr.tail ≤ '8' then fmt_ptr.tail.tail
      else fmt_ptr.tail).tail
  else []

/-- The placeholder at `fmt_ptr` has the flag `-`. -/
@[reducible]
def has_minus_flag (fmt_ptr : List Char) : Prop := peek (placeholder_flags fmt_ptr) = '-'

/-- The placeholder at `fmt_ptr` has the flag `0` (behind the flag `-`, if that is there). -/
@[reducible]
def has_zero_flag (fmt_ptr : List Char) : Prop :=
  peek (if peek (placeholder_flags fmt_ptr) = '-' then (placeholder_flags fmt_ptr).tail
    else placeholder_flags fmt_ptr) = '0'

/-- The placeholders the loop of `fmt_chunk` meets from the cursor `fmt` on, in the order
of the format string: each with the cursor at its opening brace, the value the
auto-argument counter has there, and what `fmt_parse_argspec` makes of it. The first
argument bounds the number of steps. -/
def fmt_walk : Nat → List Char → Int → List (List Char × Int × ArgspecResult)
  | 0, _, _ => []
  | k + 1, fmt, next_arg_ix =>
    if peek fmt = '\x00' then []
    else if peek fmt ≠ '\x7b' ∨ (peek fmt = '\x7b' ∧ peek fmt.tail = '\x7b') then
      fmt_walk k (fmt_skip_literal fmt) next_arg_ix
    else
      match fmt_parse_argspec fmt with
      | .error _ => []
      | .ok p =>
        (fmt, next_arg_ix, p) ::
          fmt_walk k p.fmt
            (if p.success then fmt_bump_arg_ix p.arg_ix next_arg_ix else next_arg_ix)

/-- The number of well-formed placeholders without an index among the first `j`
placeholders of a walk. -/
def auto_rank (w : List (List Char × Int × ArgspecResult)) (j : Nat) : Nat :=
  ((w.take j).filter fun e => e.2.2.success && decide (e.2.2.arg_ix = -1)).length

/-- The index of the placeholder grammar: nothing, or one digit from `0` to `hi`. -/
def IsIndexPart (hi : Char) (ix : List Char) : Prop :=
  ix = [] ∨ ∃ d, ix = [d] ∧ '0' ≤ d ∧ d ≤ hi

/-- The format part of the placeholder grammar: nothing, or a colon followed by an optional
`-`, an optional `0`, at most two decimal digits of width and an optional mode character
out of `x`, `b`, `c`, `p`. -/
def IsFormatPart (fp : List Char) : Prop :=
  fp = [] ∨ ∃ m z w c, fp = ':' :: (m ++ (z ++ (w ++ c))) ∧ (m = [] ∨ m = ['-']) ∧
    (z = [] ∨ z = ['0']) ∧ (w.length ≤ 2 ∧ ∀ d ∈ w, d.isDigit = true) ∧
    (c = [] ∨ c = ['x'] ∨ c = ['b'] ∨ c = ['c'] ∨ c = ['p'])

/-- The custom part of the placeholder grammar: nothing, or a bar followed by a payload of
characters of the string other than the closing brace. -/
def IsCustomPart (cu : List Char) : Prop :=
  cu = [] ∨ ∃ payload, cu = '|' :: payload ∧ ∀ x ∈ payload, x ≠ '\x7d' ∧ x ≠ '\x00'

/-- The string `s` begins with a placeholder of the grammar
`{` index? (`:` `-`? `0`? width? mode?)? (`|` payload)? `}`, behind which `rest` follows;
the index is a digit from `0` to `hi`. -/
def IsPlaceholder (hi : Char) (s rest : List Char) : Prop :=
  ∃ ix fp cu, IsIndexPart hi ix ∧ IsFormatPart fp ∧ IsCustomPart cu ∧
    s = '\x7b' :: (ix ++ (fp ++ (cu ++ '\x7d' :: rest)))

/-- The parser has read a part `body` of `t` that fits `P`, and stands behind it, or
behind the closing brace that follows it once it is done; nothing is said of a parse that
has failed. -/
def Consumed (P : List Char → Prop) (t : List Char) (v : ArgspecVars) : Prop :=
  v.invalid = false →
    ∃ body, P body ∧
      ((v.done = false ∧ t = body ++ v.fmt) ∨ (v.done = true ∧ t = body ++ '\x7d' :: v.fmt))

/-- A failed parse is a finished one, and its cursor is not at a closing brace. -/
def FailedAtOffender (v : ArgspecVars) : Prop :=
  v.invalid = true → v.done = true ∧ peek v.fmt ≠ '\x7d'

/-- The canonical text of `n` in base `base`: its digits, most significant first, written
with the characters `0` to `9` and `a` to `f`; zero is the single digit `0`. -/
def digits_text (base n : Nat) : List Char :=
  if n = 0 then ['0'] else (Nat.digits base n).reverse.map Nat.digitChar

/-- The canonical decimal text of an integer: a minus sign before the digits of the
absolute value when it is negative. -/
def int_text (n : Int) : List Char :=
  if n < 0 then '-' :: digits_text 10 n.natAbs else digits_text 10 n.toNat

/-- A call of the core API on an initialised state: `fmt_chunk` with a buffer and a size,
or `fmt_reset`. -/
inductive FmtCall where
  | chunk (buf : Option (List Char)) (buf_size : Nat)
  | reset
  deriving DecidableEq

/-- A sequence of calls of `fmt_chunk` and `fmt_reset` on one state. -/
def fmt_run (hook : FmtHook) : List FmtCall → FmtState → Except Fault FmtState
  | [], state => .ok state
  | FmtCall.chunk buf buf_size :: calls, state =>
    match fmt_chunk hook state buf buf_size with
    | .error e => .error e
    | .ok r => fmt_run hook calls r.state
  | FmtCall.reset :: calls, state => fmt_run hook calls (fmt_reset state)

/-- The invariant of the Parsing mode: no partially emitted output remains. -/
def ParsingClean (s : FmtState) : Prop :=
  s.action = FmtAction.FmtActionParsing →
    s.format_output.text_size = 0 ∧ s.format_output.pad_size = 0

/-- An `FmtState` in zeroed memory. -/
def zero_state : FmtState :=
  { args := [], arg_count := 0, fmt_at_init := [], fmt := [], userdata := 0, size := 0,
    next_arg_ix := 0, action := FmtAction.FmtActionParsing,
    format_output :=
      { text := [], text_size := 0, pad_pos := 0, pad_size := 0,
        pad_mode := FmtPadMode.FmtPadLeft, pad_byte := '\x00' },
    text_buf := List.replicate 64 '\x00' }

/-- Successive runs of the Formatting case on one output descriptor, one per call of
`fmt_chunk`, each with a buffer of the given capacity: the bytes stored, in order, and the
descriptor left. -/
def fmt_emit_seq : List Nat → FmtFormatOutput → Except Fault (List Char × FmtFormatOutput)
  | [], fo => .ok ([], fo)
  | cap :: caps, fo =>
    match fmt_emit (some cap) fo [] 0 with
    | .error e => .error e
    | .ok e =>
      match fmt_emit_seq caps e.format_output with
      | .error e2 => .error e2
      | .ok r => .ok (e.out ++ r.1, r.2)

/-- The parser has moved from `l` to `l1` over characters of the string: none of the
characters it passed is the terminator. -/
def Passed (l l1 : List Char) : Prop :=
  ∃ pre, l = pre ++ l1 ∧ ∀ c ∈ pre, c ≠ '\x00'

/-- The value of the index of a placeholder: the digit, or -1 without one. -/
def index_value (ix : List Char) : Int :=
  match ix with
  | [d] => (d.toNat : Int) - 48
  | _ => -1

/-- The decimal value of the width digits of a placeholder (0 without digits). -/
def width_value (w : List Char) : Nat :=
  w.foldl (fun a d => 10 * a + (d.toNat - 48)) 0

/-- The spec that the format part `:` `m` `z` `w` `c` of a placeholder (flag `-`, flag `0`,
width digits, mode character) makes of the spec `sp`; the zero flag is a `0` at the head
of the digits behind the optional `-`. -/
def spec_with_format (sp : FmtSpec) (m z w c : List Char) : FmtSpec :=
  { sp with
    pad_mode := if m = ['-'] then FmtPadMode.FmtPadRight else sp.pad_mode
    pad_byte := if (z ++ w).head? = some '0' then '0' else sp.pad_byte
    min_len := width_value w
    format := c.headD sp.format }

/-! # dynamic_array.h : the growable array macros

A shallow embedding of `src/dynamic_array.h`. A block of storage is the list of its
elements, a null pointer is `none`, `endptr` is kept as its element offset from `data`, and
the allocator is a parameter (`Allocator`). Byte counts `sizeof(a.data[0]) * n` are taken
not to overflow `size_t`. -/

/-- Faults of the array macros of `dynamic_array.h`: a failed `assert`, a store through a
null pointer, and a store outside the allocated block. -/
inductive MemFault where
  | assertion
  | nullDeref
  | outOfBounds
  deriving DecidableEq, Repr

/-- The C allocator as the array macros see it: whether `malloc` or `realloc` of `n`
elements returns NULL, and the indeterminate contents of fresh storage. -/
structure Allocator (α : Type) where
  malloc_fails : Nat → Bool
  realloc_fails : Nat → Bool
  fresh : Nat → α

/-- `DYN_ARR_OF(type)`: `data` is the block behind the pointer (`none` for NULL), `endptr`
is the element offset `endptr - data` (a `ptrdiff_t`), `capacity` is a `uint32_t`. -/
structure DynArr (α : Type) where
  data : Option (List α)
  endptr : Int
  capacity : Nat

/-- `malloc(sizeof(a.data[0]) * n)`: NULL, or a block of `n` indeterminate elements. -/
def malloc {α : Type} (al : Allocator α) (n : Nat) : Option (List α) :=
  if al.malloc_fails n then none else some ((List.range n).map al.fresh)

/-- `realloc(p, sizeof(a.data[0]) * n)`: NULL, or a block of `n` elements that keeps the
old contents up to the smaller of the two sizes; a null `p` behaves as an empty block. -/
def realloc {α : Type} (al : Allocator α) (p : Option (List α)) (n : Nat) : Option (List α) :=
  if al.realloc_fails n then none
  else some ((p.getD []).take n ++ ((List.range n).drop (p.getD []).length).map al.fresh)

/-- `DYN_ARR_RESET(a, c)`: the old fields are overwritten without being read. -/
def DYN_ARR_RESET {α : Type} (al : Allocator α) (_a : DynArr α) (c : Nat) : DynArr α :=
  { data := malloc al c, endptr := 0, capacity := c % 2 ^ 32 }

/-- `DYN_ARR_RESIZE(a, s)`; the result of `realloc` is not checked. -/
def DYN_ARR_RESIZE {α : Type} (al : Allocator α) (a : DynArr α) (s : Nat) : DynArr α :=
  let size := s % 2 ^ 32
  if a.capacity < size then
    { data := realloc al a.data size, endptr := (size : Int), capacity := size }
  else { a with endptr := (size : Int) }

/-- The store `*(a.endptr++) = v` that ends `DYN_ARR_APPEND`. -/
def dyn_arr_store {α : Type} (a : DynArr α) (v : α) : Except MemFault (DynArr α) :=
  match a.data with
  | none => .error .nullDeref
  | some blk =>
    if 0 ≤ a.endptr ∧ a.endptr.toNat < blk.length then
      .ok { a with data := some (blk.set a.endptr.toNat v), endptr := a.endptr + 1 }
    else .error .outOfBounds

/-- `DYN_ARR_APPEND(a, v)`. -/
def DYN_ARR_APPEND {α : Type} (al : Allocator α) (a : DynArr α) (v : α) :
    Except MemFault (DynArr α) :=
  let cur_size := a.endptr
  if cur_size < 0 then .error .assertion
  else if a.capacity ≤ cur_size.toNat then
    let capacity := (a.capacity * 2) % 2 ^ 32
    match realloc al a.data capacity with
    | none => .error .assertion
    | some tmp => dyn_arr_store { data := some tmp, endptr := cur_size, capacity := capacity } v
  else dyn_arr_store a v

/-- `DYN_ARR_CLEAR(a)`. -/
def DYN_ARR_CLEAR {α : Type} (a : DynArr α) : DynArr α :=
  { a with endptr := 0 }

/-- `DYN_ARR_SIZE(a)`: the pointer difference cast to `uint32_t`. -/
def DYN_ARR_SIZE {α : Type} (a : DynArr α) : Nat :=
  (a.endptr % ((2 ^ 32 : Nat) : Int)).toNat

/-- `DYN_ARR_AT(a, i)` read as a value: `none` outside the block or through NULL. -/
def DYN_ARR_AT {α : Type} (a : DynArr α) (i : Nat) : Option α :=
  match a.data with
  | none => none
  | some blk => blk[i]?

/-- `DYN_ARR_POP(a)`. -/
def DYN_ARR_POP {α : Type} (a : DynArr α) : Except MemFault (DynArr α) :=
  if a.endptr = 0 then .error .assertion
  else .ok { a with endptr := a.endptr - 1 }

/-- The loop of the header's example: `DYN_ARR_APPEND` of each value in turn. -/
def dyn_arr_appends {α : Type} (al : Allocator α) (a : DynArr α) :
    List α → Except MemFault (DynArr α)
  | [] => .ok a
  | v :: vs =>
    match DYN_ARR_APPEND al a v with
    | .error e => .error e
    | .ok a1 => dyn_arr_appends al a1 vs

/-- The state of an array that holds `done`, grown from the capacity `c` by doublings: the
block has `capacity` elements and begins with `done`, and each doubling happened because
the capacity before it was exceeded. -/
def ArrHolds {α : Type} (c : Nat) (a : DynArr α) (done : List α) : Prop :=
  ∃ blk k, a.data = some blk ∧ blk.length = a.capacity ∧ a.endptr = (done.length : Int) ∧
    done.length ≤ a.capacity ∧ blk.take done.length = done ∧ a.capacity < 2 ^ 32 ∧
    a.capacity = c * 2 ^ k ∧ ∀ j, j < k → c * 2 ^ j < done.length

/-! # Lemmas -/

theorem strlen_le (s : List Char) : strlen s ≤ s.length := by
  induction s with
  | nil => simp [strlen]
  | cons c cs ih =>
    simp only [strlen]
    split
    · simp
    · simp only [List.length_cons]
      omega

theorem isDigit_sub_le (c : Char) (h : c.isDigit = true) : c.toNat - 48 ≤ 9 := by
  simp only [Char.isDigit, Bool.and_eq_true, decide_eq_true_eq] at h
  have h2 := h.2
  have : c.toNat ≤ 57 := by
    simpa [Char.toNat] using h2
  omega

theorem argspec_minus_ok (v : ArgspecVars) (h : SpecOk v.spec) :
    (argspec_minus v).fmt <:+ v.fmt ∧ SpecOk (argspec_minus v).spec ∧
      (argspec_minus v).done = v.done ∧ (argspec_minus v).arg_ix = v.arg_ix := by
  unfold argspec_minus
  split
  · exact ⟨List.tail_suffix _, ⟨h.1, Or.inr rfl, h.2.2⟩, rfl, rfl⟩
  · exact ⟨List.suffix_refl _, h, rfl, rfl⟩

theorem argspec_zero_ok (v : ArgspecVars) (h : SpecOk v.spec) :
    (argspec_zero v).fmt <:+ v.fmt ∧ SpecOk (argspec_zero v).spec ∧
      (argspec_zero v).done = v.done ∧ (argspec_zero v).arg_ix = v.arg_ix := by
  unfold argspec_zero
  split
  · exact ⟨List.tail_suffix _, ⟨h.1, h.2.1, h.2.2⟩, rfl, rfl⟩
  · exact ⟨List.suffix_refl _, h, rfl, rfl⟩

theorem argspec_width_ok (v : ArgspecVars) (h : SpecOk v.spec) :
    (argspec_width v).fmt <:+ v.fmt ∧ SpecOk (argspec_width v).spec ∧
      (argspec_width v).done = v.done ∧ (argspec_width v).arg_ix = v.arg_ix := by
  unfold argspec_width
  split
  · rename_i h1
    have d1 := isDigit_sub_le _ h1
    dsimp only
    split
    · rename_i h2
      have d2 := isDigit_sub_le _ h2
      refine ⟨(List.tail_suffix _).trans (List.tail_suffix _), ⟨h.1, h.2.1, ?_⟩, rfl, rfl⟩
      dsimp only
      have : 48 ≤ (peek v.fmt.tail).toNat := by
        simp only [Char.isDigit, Bool.and_eq_true, decide_eq_true_eq] at h2
        simpa [Char.toNat] using h2.1
      omega
    · exact ⟨List.tail_suffix _, ⟨h.1, h.2.1, by dsimp only; omega⟩, rfl, rfl⟩
  · exact ⟨List.suffix_refl _, h, rfl, rfl⟩

theorem argspec_mode_ok (v : ArgspecVars) (h : SpecOk v.spec) :
    (argspec_mode v).fmt <:+ v.fmt ∧ SpecOk (argspec_mode v).spec ∧
      (argspec_mode v).done = v.done ∧ (argspec_mode v).arg_ix = v.arg_ix := by
  unfold argspec_mode
  split
  · rename_i h1
    refine ⟨List.tail_suffix _, ⟨?_, h.2.1, h.2.2⟩, rfl, rfl⟩
    dsimp only
    rcases h1 with h1 | h1 | h1 | h1 <;> simp [h1]
  · exact ⟨List.suffix_refl _, h, rfl, rfl⟩

theorem argspec_format_ok (v : ArgspecVars) (h : SpecOk v.spec) :
    (argspec_format v).fmt <:+ v.fmt ∧ SpecOk (argspec_format v).spec ∧
      (argspec_format v).arg_ix = v.arg_ix := by
  unfold argspec_format
  split
  · exact ⟨List.suffix_refl _, h, rfl⟩
  · split
    · have h0 : SpecOk ({ v with fmt := v.fmt.tail } : ArgspecVars).spec := h
      have h1 := argspec_minus_ok _ h0
      have h2 := argspec_zero_ok _ h1.2.1
      have h3 := argspec_width_ok _ h2.2.1
      have h4 := argspec_mode_ok _ h3.2.1
      refine ⟨(((h4.1.trans h3.1).trans h2.1).trans h1.1).trans (List.tail_suffix _),
        h4.2.1, ?_⟩
      rw [h4.2.2.2, h3.2.2.2, h2.2.2.2, h1.2.2.2]
    · split
      · exact ⟨List.tail_suffix _, h, rfl⟩
      · split
        · exact ⟨List.suffix_refl _, h, rfl⟩
        · exact ⟨List.suffix_refl _, h, rfl⟩

theorem argspec_scan_custom_suffix (l : List Char) (n : Nat) :
    (argspec_scan_custom l n).1 <:+ l := by
  induction l generalizing n with
  | nil => simp [argspec_scan_custom]
  | cons c cs ih =>
    simp only [argspec_scan_custom]
    split
    · exact (ih (n + 1)).trans (List.suffix_cons c cs)
    · exact List.suffix_refl _

theorem argspec_custom_ok (v : ArgspecVars) (h : SpecOk v.spec) :
    (argspec_custom v).fmt <:+ v.fmt ∧ SpecOk (argspec_custom v).spec ∧
      (argspec_custom v).arg_ix = v.arg_ix := by
  unfold argspec_custom
  split
  · exact ⟨List.suffix_refl _, h, rfl⟩
  · split
    · exact ⟨(argspec_scan_custom_suffix _ _).trans (List.tail_suffix _), h, rfl⟩
    · split
      · exact ⟨List.tail_suffix _, h, rfl⟩
      · exact ⟨List.suffix_refl _, h, rfl⟩

theorem argspec_close_ok (v : ArgspecVars) (h : SpecOk v.spec) :
    (argspec_close v).fmt <:+ v.fmt ∧ SpecOk (argspec_close v).spec ∧
      (argspec_close v).done = true ∧ (argspec_close v).arg_ix = v.arg_ix := by
  unfold argspec_close
  split
  · rename_i hd
    exact ⟨List.suffix_refl _, h, hd, rfl⟩
  · split
    · exact ⟨List.tail_suffix _, h, rfl, rfl⟩
    · exact ⟨List.suffix_refl _, h, rfl, rfl⟩

theorem argspec_index_ok (v : ArgspecVars) (h : peek v.fmt ≠ '\x7b') :
    ∃ v1, argspec_index v = .ok v1 ∧ v1.fmt <:+ v.fmt ∧ v1.spec = v.spec ∧
      (v1.arg_ix = v.arg_ix ∨ (0 ≤ v1.arg_ix ∧ v1.arg_ix ≤ 8)) := by
  unfold argspec_index
  split
  · exact ⟨v, rfl, List.suffix_refl _, rfl, Or.inl rfl⟩
  · split
    · rename_i h1
      refine ⟨_, rfl, List.tail_suffix _, rfl, Or.inr ?_⟩
      dsimp only
      have h3 : 48 ≤ (peek v.fmt).toNat := h1.1
      have h4 : (peek v.fmt).toNat ≤ 56 := h1.2
      omega
    · split
      · exact ⟨_, rfl, List.tail_suffix _, rfl, Or.inl rfl⟩
      · split
        · exact ⟨_, rfl, List.suffix_refl _, rfl, Or.inl rfl⟩
        · exact ⟨_, rfl, List.suffix_refl _, rfl, Or.inl rfl⟩

/-- On a placeholder (an opening brace not followed by a second one) the parser returns,
leaves the cursor inside the rest of the format and yields a spec that the renderer
handles. -/
theorem fmt_parse_argspec_ok (fmt : List Char) (h : peek fmt.tail ≠ '\x7b') :
    ∃ r, fmt_parse_argspec fmt = .ok r ∧ r.fmt <:+ fmt.tail ∧ SpecOk r.spec ∧
      (r.arg_ix = -1 ∨ (0 ≤ r.arg_ix ∧ r.arg_ix ≤ 8)) := by
  unfold fmt_parse_argspec
  obtain ⟨v1, e1, s1, sp1, ix1⟩ := argspec_index_ok
    { fmt := fmt.tail, done := false, invalid := false, arg_ix := -1,
      spec :=
        { min_len := 0, custom_start := [], custom_len := 0,
          pad_mode := FmtPadMode.FmtPadLeft, pad_byte := ' ', format := '\x00' } } h
  rw [e1]
  have ok1 : SpecOk v1.spec := by
    rw [sp1]
    exact ⟨Or.inl rfl, Or.inl rfl, Nat.zero_le _⟩
  have h2 := argspec_format_ok v1 ok1
  have h3 := argspec_custom_ok _ h2.2.1
  have h4 := argspec_close_ok _ h3.2.1
  dsimp only
  rw [if_pos h4.2.2.1]
  refine ⟨_, rfl, ((h4.1.trans h3.1).trans h2.1).trans s1, h4.2.1, ?_⟩
  dsimp only
  rw [h4.2.2.2, h3.2.2, h2.2.2]
  exact ix1

theorem fill_U64_length (base : Nat) (digit : Nat → Char) (k m : Nat) (acc : List Char) :
    (fill_U64 base digit k m acc).length = count_U64 base k m acc.length := by
  induction k generalizing m acc with
  | zero => rfl
  | succ k ih =>
    simp only [fill_U64, count_U64]
    split
    · rfl
    · rw [ih]; rfl

theorem fill_U64_bin_length (k m : Nat) (acc : List Char) :
    (fill_U64_bin k m acc).length = count_U64_bin k m acc.length := by
  induction k generalizing m acc with
  | zero => rfl
  | succ k ih =>
    simp only [fill_U64_bin, count_U64_bin]
    split
    · rfl
    · rw [ih]; rfl

theorem fill_S64_dec_length (neg : Bool) (k : Nat) (m : Int) (acc : List Char) :
    (fill_S64_dec neg k m acc).length = count_S64_dec k m acc.length := by
  induction k generalizing m acc with
  | zero => rfl
  | succ k ih =>
    simp only [fill_S64_dec, count_S64_dec]
    split
    · rfl
    · rw [ih]; rfl

theorem show_U64_dec_length (n : Nat) : (show_U64_dec n).1.length = (show_U64_dec n).2 := by
  unfold show_U64_dec
  split
  · rfl
  · exact fill_U64_length _ _ _ _ _

theorem show_U64_hex_length (n : Nat) : (show_U64_hex n).1.length = (show_U64_hex n).2 := by
  unfold show_U64_hex
  split
  · rfl
  · exact fill_U64_length _ _ _ _ _

theorem show_U64_bin_length (n : Nat) : (show_U64_bin n).1.length = (show_U64_bin n).2 := by
  unfold show_U64_bin
  split
  · rfl
  · exact fill_U64_bin_length _ _ _

theorem show_S64_dec_length (n : Int) : (show_S64_dec n).1.length = (show_S64_dec n).2 := by
  unfold show_S64_dec
  split
  · rfl
  · dsimp only
    split
    · simp only [List.length_cons, fill_S64_dec_length]; rfl
    · simp only [fill_S64_dec_length]; rfl

theorem fmt_format_int_ok (format : Char) (dec : List Char × Nat) (uval : Nat)
    (fo0 : FmtFormatOutput) (hd : dec.1.length = dec.2)
    (hf : format = '\x00' ∨ format = 'x' ∨ format = 'b' ∨ format = 'c')
    (h0 : fo0.pad_pos = 0 ∧ fo0.pad_size = 0) :
    ∃ fo1, fmt_format_int format dec uval fo0 = .ok fo1 ∧ TextOk fo0 fo1 := by
  unfold fmt_format_int
  split
  · exact ⟨_, rfl, by simp [hd], h0.2, Or.inl ⟨h0.1, rfl⟩⟩
  · split
    · exact ⟨_, rfl, by simp [show_U64_hex_length], h0.2, Or.inl ⟨h0.1, rfl⟩⟩
    · split
      · exact ⟨_, rfl, by simp [show_U64_bin_length], h0.2, Or.inl ⟨h0.1, rfl⟩⟩
      · split
        · exact ⟨_, rfl, by simp, h0.2, Or.inl ⟨h0.1, rfl⟩⟩
        · rename_i h1 h2 h3 h4
          rcases hf with h | h | h | h <;> contradiction

theorem fmt_format_text_ok (hook : FmtHook) (arg : FmtArg) (d : FmtStorage) (spec : FmtSpec)
    (userdata : Nat) (fo0 : FmtFormatOutput) (hspec : SpecOk spec)
    (hstr : arg.type = FmtArgCharPtr → fmt_arg_ptr d ≠ 0)
    (hty : isBuiltin arg.type ∨ ∀ spec userdata fo, hook arg spec userdata fo = (false, fo))
    (h0 : fo0.pad_pos = 0 ∧ fo0.pad_size = 0) :
    ∃ fo1, fmt_format_text hook arg d spec userdata fo0 = .ok fo1 ∧ TextOk fo0 fo1 := by
  unfold fmt_format_text
  simp only [FMT__CHAR_IS_SIGNED, if_true]
  split
  · split
    · exact ⟨_, rfl, strlen_le _, h0.2, Or.inl ⟨h0.1, rfl⟩⟩
    · split
      · refine ⟨_, rfl, ?_, h0.2, Or.inr ⟨rfl, ?_, rfl⟩⟩
        · simp only [List.length_cons, show_U64_hex_length]; omega
        · dsimp only; omega
      · refine ⟨_, rfl, ?_, h0.2, Or.inl ⟨h0.1, rfl⟩⟩
        simp only [List.length_cons, show_U64_hex_length]; omega
  · rename_i hp
    have hf : spec.format = '\x00' ∨ spec.format = 'x' ∨ spec.format = 'b' ∨
        spec.format = 'c' := by
      rcases hspec.1 with h | h | h | h | h
      · exact Or.inl h
      · exact Or.inr (Or.inl h)
      · exact Or.inr (Or.inr (Or.inl h))
      · exact Or.inr (Or.inr (Or.inr h))
      · exact absurd (Or.inl h) hp
    split
    · exact fmt_format_int_ok _ _ _ _ (show_S64_dec_length _) hf h0
    · split
      · exact fmt_format_int_ok _ _ _ _ (show_U64_dec_length _) hf h0
      · split
        · exact ⟨_, rfl, strlen_le _, h0.2, Or.inl ⟨h0.1, rfl⟩⟩
        · split
          · rename_i hc
            rw [if_neg (hstr hc)]
            exact ⟨_, rfl, strlen_le _, h0.2, Or.inl ⟨h0.1, rfl⟩⟩
          · rename_i h1 h2 h3 h4
            rcases hty with hb | hh
            · exfalso
              simp only [not_or] at h1 h2 hp
              rcases hb with h | h | h | h | h | h | h | h | h | h | h | h
              · exact h1.1 h
              · exact h1.2.1 h
              · exact h1.2.2.1 h
              · exact h1.2.2.2.1 h
              · exact h2.1 h
              · exact h2.2.1 h
              · exact h2.2.2.1 h
              · exact h2.2.2.2.1 h
              · exact h1.2.2.2.2 h
              · exact h3 h
              · exact h4 h
              · exact hp.2 h
            · rw [hh]
              exact ⟨_, rfl, strlen_le _, h0.2, Or.inl ⟨h0.1, rfl⟩⟩

theorem fmt_calculate_padding_ok (spec : FmtSpec) (fo : FmtFormatOutput)
    (hspec : SpecOk spec) (hp : fo.pad_pos ≤ fo.text_size) (ht : fo.text_size ≤ fo.text.length)
    (hz : fo.pad_size = 0) :
    ∃ fo2, fmt_calculate_padding spec fo = .ok fo2 ∧ FoOk fo2 ∧ fo2.text = fo.text ∧
      fo2.text_size = fo.text_size ∧ fo2.pad_pos = fo.pad_pos ∧ fo2.pad_byte = fo.pad_byte ∧
      fo2.pad_size = ((spec.min_len - fo.text_size : Nat) : Int) := by
  unfold fmt_calculate_padding
  rw [if_neg (by simp [hz])]
  have := hspec.2.2
  split
  · refine ⟨_, rfl, ⟨hp, ht, ?_, ?_⟩, rfl, rfl, rfl, rfl, rfl⟩
    · dsimp only; omega
    · dsimp only; omega
  · refine ⟨_, rfl, ⟨hp, ht, ?_, ?_⟩, rfl, rfl, rfl, rfl, ?_⟩
    · omega
    · omega
    · omega

theorem fmt_format_pad_ok (spec : FmtSpec) (fo0 fo1 : FmtFormatOutput) (hspec : SpecOk spec)
    (hm : fo0.pad_mode = FmtPadMode.FmtPadLeft ∨ fo0.pad_mode = FmtPadMode.FmtPadRight)
    (h : TextOk fo0 fo1) :
    ∃ fo2, fmt_format_pad spec fo1 = .ok fo2 ∧ FoOk fo2 := by
  obtain ⟨ht, hz, hpos⟩ := h
  unfold fmt_format_pad
  split
  · obtain ⟨fo2, e, ok, _⟩ := fmt_calculate_padding_ok spec
      { fo1 with pad_pos := fo1.text_size } hspec (Nat.le_refl _) ht hz
    exact ⟨fo2, e, ok⟩
  · rename_i hl
    rcases hpos with ⟨hp, _⟩ | ⟨_, _, hc⟩
    · rw [if_pos hp]
      obtain ⟨fo2, e, ok, _⟩ := fmt_calculate_padding_ok spec fo1 hspec (by omega) ht hz
      exact ⟨fo2, e, ok⟩
    · rw [hc] at hl
      cases hl
  · rcases hpos with ⟨hp, _⟩ | ⟨hp, h2, _⟩
    · obtain ⟨fo2, e, ok, _⟩ := fmt_calculate_padding_ok spec fo1 hspec (by omega) ht hz
      exact ⟨fo2, e, ok⟩
    · obtain ⟨fo2, e, ok, _⟩ := fmt_calculate_padding_ok spec fo1 hspec (by omega) ht hz
      exact ⟨fo2, e, ok⟩
  · rename_i hl
    rcases hpos with ⟨_, hp⟩ | ⟨_, _, hc⟩
    · rw [hl] at hp
      rcases hm with h | h <;> rw [h] at hp <;> cases hp
    · rw [hc] at hl
      cases hl

theorem fmt_format_arg_ok (hook : FmtHook) (arg : FmtArg) (spec : FmtSpec) (userdata : Nat)
    (fo0 : FmtFormatOutput) (hspec : SpecOk spec) (harg : ArgOk hook arg)
    (hm : fo0.pad_mode = FmtPadMode.FmtPadLeft ∨ fo0.pad_mode = FmtPadMode.FmtPadRight)
    (h0 : fo0.pad_pos = 0 ∧ fo0.pad_size = 0) :
    ∃ fo2, fmt_format_arg hook arg spec userdata fo0 = .ok fo2 ∧ FoOk fo2 := by
  obtain ⟨d, hd, hstr, hty⟩ := harg
  unfold fmt_format_arg
  rw [hd]
  obtain ⟨fo1, e1, ok1⟩ := fmt_format_text_ok hook arg d spec userdata fo0 hspec hstr hty h0
  simp only [e1]
  exact fmt_format_pad_ok spec fo0 fo1 hspec hm ok1

theorem FoOk_diag (text : List Char) (m : FmtPadMode) (b : Char) :
    FoOk
      { text := text, text_size := strlen text, pad_pos := 0, pad_size := 0, pad_mode := m,
        pad_byte := b } :=
  ⟨Nat.zero_le _, strlen_le _, le_refl _, by norm_num⟩

/-- The `Parse arg` block returns on every placeholder, leaves the cursor inside the rest
of the format and leaves a well-formed descriptor. -/
theorem fmt_parse_arg_ok (hook : FmtHook) (args : List FmtArg) (arg_count : Int)
    (userdata : Nat) (text_buf fmt : List Char) (next_arg_ix : Int)
    (hargs : ArgsOk hook args arg_count) (hn : 0 ≤ next_arg_ix)
    (h : peek fmt.tail ≠ '\x7b') :
    ∃ r, fmt_parse_arg hook args arg_count userdata text_buf fmt next_arg_ix = .ok r ∧
      r.1 <:+ fmt.tail ∧ 0 ≤ r.2.1 ∧ FoOk r.2.2 := by
  obtain ⟨p, ep, hsuf, hspec, hix⟩ := fmt_parse_argspec_ok fmt h
  have hge : (0 : Int) ≤ fmt_actual_arg_ix p.arg_ix next_arg_ix := by
    unfold fmt_actual_arg_ix
    split <;> omega
  have hge2 : (0 : Int) ≤ fmt_bump_arg_ix p.arg_ix next_arg_ix := by
    unfold fmt_bump_arg_ix
    split <;> omega
  unfold fmt_parse_arg
  simp only [ep]
  split
  · split
    · rename_i hlt
      obtain ⟨fo2, e2, ok2⟩ := fmt_format_arg_ok hook
        (args.getD (fmt_actual_arg_ix p.arg_ix next_arg_ix).toNat FMT_ARG_END)
        p.spec userdata (fmt_fresh_output text_buf p.spec)
        hspec (hargs _ hge hlt) hspec.2.1 ⟨rfl, rfl⟩
      simp only [e2]
      exact ⟨_, rfl, hsuf, hge2, ok2⟩
    · exact ⟨_, rfl, hsuf, hge2, FoOk_diag _ _ _⟩
  · exact ⟨_, rfl, hsuf, hn, FoOk_diag _ _ _⟩

theorem pending_length (fo : FmtFormatOutput) (h : FoOk fo) :
    (pending fo).length = fo.pad_size.toNat + fo.text_size := by
  obtain ⟨h1, h2, _, _⟩ := h
  simp only [pending, List.length_append, List.length_take, List.length_replicate,
    List.length_drop]
  omega

theorem EmitStep_trans {e e1 e2 : Emit} (h1 : EmitStep e e1) (h2 : EmitStep e1 e2) :
    EmitStep e e2 := by
  obtain ⟨a, ha, hal, ho, hp, hr, hs, _⟩ := h1
  obtain ⟨b, hb, hbl, ho2, hp2, hr2, hs2, hk2⟩ := h2
  refine ⟨a + b, by omega, ?_, ?_, ?_, by omega, by omega, hk2⟩
  · rw [hp, List.length_drop] at hbl
    omega
  · rw [ho2, ho, hp, List.append_assoc, List.take_add]
  · rw [hp2, hp, List.drop_drop, Nat.add_comm]

theorem min_cases (x y : Nat) : min x y ≤ x ∧ min x y ≤ y ∧ (min x y = x ∨ min x y = y) := by
  refine ⟨Nat.min_le_left _ _, Nat.min_le_right _ _, ?_⟩
  rcases Nat.le_total x y with h | h
  · exact Or.inl (Nat.min_eq_left h)
  · exact Or.inr (Nat.min_eq_right h)

theorem emit_pre_step (e : Emit) (h : FoOk e.format_output) :
    EmitStep e (emit_pre e) ∧
      ((emit_pre e).remaining > 0 → (emit_pre e).format_output.pad_pos = 0) := by
  obtain ⟨h1, h2, h3, h4⟩ := h
  unfold emit_pre
  split
  · obtain ⟨m1, m2, m3⟩ := min_cases e.format_output.pad_pos e.remaining
    generalize min e.format_output.pad_pos e.remaining = a at m1 m2 m3
    refine ⟨⟨a, m2, ?_, ?_, ?_, rfl, rfl, ?_⟩, ?_⟩
    · rw [pending_length _ ⟨h1, h2, h3, h4⟩]
      omega
    · dsimp only
      rw [pending, List.take_append_of_le_length (by simp; omega), List.take_take]
      congr 2
      omega
    · simp only [pending]
      rw [List.drop_append_of_le_length (by simp; omega), List.drop_take, List.drop_drop]
      have e1 : e.format_output.text_size - a - (e.format_output.pad_pos - a) =
          e.format_output.text_size - e.format_output.pad_pos := by omega
      have e2 : a + (e.format_output.pad_pos - a) = e.format_output.pad_pos := by omega
      rw [e1, e2]
    · exact ⟨by dsimp only; omega, by simp only [List.length_drop]; omega, h3, h4⟩
    · dsimp only
      omega
  · rename_i hc
    refine ⟨⟨0, Nat.zero_le _, Nat.zero_le _, by simp, by simp, rfl, rfl, h1, h2, h3, h4⟩, ?_⟩
    intro hr
    omega

theorem emit_pad_step (e : Emit) (h : FoOk e.format_output)
    (hpos : e.remaining > 0 → e.format_output.pad_pos = 0) :
    ∃ e1, emit_pad e = .ok e1 ∧ EmitStep e e1 ∧
      (e1.remaining > 0 → e1.format_output.pad_pos = 0 ∧ e1.format_output.pad_size = 0) := by
  obtain ⟨h1, h2, h3, h4⟩ := h
  unfold emit_pad
  split
  · rename_i hc
    have hp := hpos hc.2
    rw [if_neg (by simp [hp])]
    have hsz : toSizeT e.format_output.pad_size = e.format_output.pad_size.toNat := by
      unfold toSizeT
      rw [Int.emod_eq_of_lt h3 h4]
    rw [hsz]
    obtain ⟨m1, m2, m3⟩ := min_cases e.format_output.pad_size.toNat e.remaining
    generalize min e.format_output.pad_size.toNat e.remaining = a at m1 m2 m3
    refine ⟨_, rfl, ⟨a, m2, ?_, ?_, ?_, rfl, rfl, ?_⟩, ?_⟩
    · rw [pending_length _ ⟨h1, h2, h3, h4⟩]
      omega
    · dsimp only
      rw [pending, hp, List.take_zero, List.nil_append,
        List.take_append_of_le_length (by simp; omega), List.take_replicate,
        Nat.min_eq_left m1]
    · simp only [pending, hp, List.take_zero, List.nil_append]
      rw [List.drop_append_of_le_length (by simp; omega), List.drop_replicate]
      congr 2
      omega
    · exact ⟨h1, h2, by dsimp only; omega, by dsimp only; omega⟩
    · dsimp only
      intro hr
      exact ⟨hp, by omega⟩
  · rename_i hc
    refine ⟨e, rfl, ⟨0, Nat.zero_le _, Nat.zero_le _, by simp, by simp, rfl, rfl, h1, h2, h3,
      h4⟩, ?_⟩
    intro hr
    exact ⟨hpos hr, by omega⟩

theorem emit_post_step (e : Emit) (h : FoOk e.format_output)
    (hpos : e.remaining > 0 → e.format_output.pad_pos = 0 ∧ e.format_output.pad_size = 0) :
    ∃ e1, emit_post e = .ok e1 ∧ EmitStep e e1 ∧
      (e1.remaining > 0 → e1.format_output.pad_size = 0 ∧ e1.format_output.text_size = 0) := by
  obtain ⟨h1, h2, h3, h4⟩ := h
  unfold emit_post
  split
  · rename_i hc
    obtain ⟨hp, hz⟩ := hpos hc.2
    rw [if_neg (by simp [hz])]
    obtain ⟨m1, m2, m3⟩ := min_cases e.format_output.text_size e.remaining
    generalize min e.format_output.text_size e.remaining = a at m1 m2 m3
    refine ⟨_, rfl, ⟨a, m2, ?_, ?_, ?_, rfl, rfl, ?_⟩, ?_⟩
    · rw [pending_length _ ⟨h1, h2, h3, h4⟩]
      omega
    · dsimp only
      simp only [pending, hp, hz, List.take_zero, List.nil_append, Int.toNat_zero,
        List.replicate_zero, List.drop_zero, Nat.sub_zero, List.take_take]
      congr 2
      omega
    · simp only [pending, hp, hz, List.take_zero, List.nil_append, Int.toNat_zero,
        List.replicate_zero, List.drop_zero, Nat.sub_zero, List.drop_take]
    · exact ⟨by dsimp only; omega, by simp only [List.length_drop]; omega, h3, h4⟩
    · dsimp only
      intro hr
      exact ⟨hz, by omega⟩
  · rename_i hc
    refine ⟨e, rfl, ⟨0, Nat.zero_le _, Nat.zero_le _, by simp, by simp, rfl, rfl, h1, h2, h3,
      h4⟩, ?_⟩
    intro hr
    exact ⟨(hpos hr).2, by omega⟩

theorem toSizeT_eq (fo : FmtFormatOutput) (h : FoOk fo) :
    toSizeT fo.pad_size = fo.pad_size.toNat := by
  unfold toSizeT
  rw [Int.emod_eq_of_lt h.2.2.1 h.2.2.2]

theorem pending_eq_nil_iff (fo : FmtFormatOutput) (h : FoOk fo) :
    pending fo = [] ↔ fo.pad_size = 0 ∧ fo.text_size = 0 := by
  rw [← List.length_eq_zero, pending_length fo h]
  have := h.2.2.1
  omega

/-- The Formatting case with a buffer moves as many pending bytes as fit and fails no
assertion. -/
theorem fmt_emit_buf (buf_size : Nat) (fo : FmtFormatOutput) (out : List Char) (sw : Nat)
    (h : FoOk fo) :
    ∃ e, fmt_emit (some buf_size) fo out sw = .ok e ∧
      e.out = out ++ (pending fo).take (buf_size - out.length) ∧
      pending e.format_output = (pending fo).drop (buf_size - out.length) ∧
      e.size_written = sw + ((pending fo).take (buf_size - out.length)).length ∧
      FoOk e.format_output := by
  unfold fmt_emit
  dsimp only
  rw [if_pos h.1]
  obtain ⟨s1, p1⟩ := emit_pre_step
    { format_output := fo, out := out, remaining := buf_size - out.length,
      size_written := sw } h
  obtain ⟨e2, q2, s2, p2⟩ := emit_pad_step _ s1.choose_spec.2.2.2.2.2.2 p1
  obtain ⟨e3, q3, s3, p3⟩ := emit_post_step _ s2.choose_spec.2.2.2.2.2.2 p2
  simp only [q2, q3]
  obtain ⟨a, ha, hal, ho, hp, hr, hs, hk⟩ := EmitStep_trans (EmitStep_trans s1 s2) s3
  dsimp only at ha hal ho hp hr hs
  have key : (pending fo).take a = (pending fo).take (buf_size - out.length) ∧
      (pending fo).drop a = (pending fo).drop (buf_size - out.length) := by
    rcases Nat.lt_or_ge a (buf_size - out.length) with hlt | hge
    · have hz := (pending_eq_nil_iff _ hk).2 (p3 (by omega))
      rw [hp] at hz
      have hl : (pending fo).length ≤ a := by
        have := congrArg List.length hz
        simp only [List.length_drop, List.length_nil] at this
        omega
      rw [List.take_of_length_le hl, List.take_of_length_le (by omega),
        List.drop_of_length_le hl, List.drop_of_length_le (by omega)]
      exact ⟨rfl, rfl⟩
    · have : a = buf_size - out.length := by omega
      rw [this]
      exact ⟨rfl, rfl⟩
  refine ⟨e3, rfl, ?_, ?_, ?_, hk⟩
  · rw [ho, key.1]
  · rw [hp, key.2]
  · rw [hs, ← key.1, List.length_take, Nat.min_eq_left hal]

/-- The Formatting case without a buffer counts all pending bytes. -/
theorem fmt_emit_null (fo : FmtFormatOutput) (out : List Char) (sw : Nat) (h : FoOk fo) :
    ∃ e, fmt_emit none fo out sw = .ok e ∧ e.out = out ∧
      e.size_written = sw + (pending fo).length ∧ e.format_output.pad_size = 0 ∧
      e.format_output.text_size = 0 := by
  refine ⟨_, rfl, rfl, ?_, rfl, rfl⟩
  dsimp only
  rw [toSizeT_eq fo h, pending_length fo h]

theorem fmt_skip_literal_lt (fmt : List Char) (h : peek fmt ≠ '\x00') :
    (fmt_skip_literal fmt).length < fmt.length := by
  cases fmt with
  | nil => exact absurd rfl h
  | cons c cs =>
    unfold fmt_skip_literal
    split
    · simp only [List.tail_cons, List.length_tail, List.length_cons]
      omega
    · simp

theorem render_nul (hook : FmtHook) (args : List FmtArg) (arg_count : Int) (userdata : Nat)
    (text_buf fmt : List Char) (n : Int) (h : peek fmt = '\x00') :
    render hook args arg_count userdata text_buf fmt n = [] := by
  rw [render, if_pos h]

theorem render_lit (hook : FmtHook) (args : List FmtArg) (arg_count : Int) (userdata : Nat)
    (text_buf fmt : List Char) (n : Int) (h : peek fmt ≠ '\x00')
    (hl : peek fmt ≠ '\x7b' ∨ (peek fmt = '\x7b' ∧ peek fmt.tail = '\x7b')) :
    render hook args arg_count userdata text_buf fmt n =
      peek fmt :: render hook args arg_count userdata text_buf (fmt_skip_literal fmt) n := by
  rw [render, if_neg h, if_pos hl, dif_pos (fmt_skip_literal_lt fmt h)]

theorem render_arg (hook : FmtHook) (args : List FmtArg) (arg_count : Int) (userdata : Nat)
    (text_buf fmt : List Char) (n : Int) (h : peek fmt ≠ '\x00')
    (hl : ¬(peek fmt ≠ '\x7b' ∨ (peek fmt = '\x7b' ∧ peek fmt.tail = '\x7b')))
    (r : List Char × Int × FmtFormatOutput)
    (hr : fmt_parse_arg hook args arg_count userdata text_buf fmt n = .ok r)
    (hlen : r.1.length < fmt.length) :
    render hook args arg_count userdata text_buf fmt n =
      pending r.2.2 ++ render hook args arg_count userdata text_buf r.1 r.2.1 := by
  rw [render, if_neg h, if_neg hl]
  simp only [hr]
  rw [dif_pos hlen]

theorem Frame_refl (s : FmtState) : Frame s s := ⟨rfl, rfl, rfl, rfl, rfl⟩

theorem Frame_trans {s s1 s2 : FmtState} (h1 : Frame s s1) (h2 : Frame s1 s2) : Frame s s2 :=
  ⟨h2.1.trans h1.1, h2.2.1.trans h1.2.1, h2.2.2.1.trans h1.2.2.1,
    h2.2.2.2.1.trans h1.2.2.2.1, h2.2.2.2.2.trans h1.2.2.2.2⟩

theorem suffix_tail_length_lt {l m : List Char} (h : l <:+ m.tail) (hm : m ≠ []) :
    l.length < m.length := by
  have h1 := h.length_le
  cases m with
  | nil => exact absurd rfl hm
  | cons c cs =>
    simp only [List.tail_cons] at h1
    simp only [List.length_cons]
    omega

theorem peek_ne_nil {fmt : List Char} (h : peek fmt ≠ '\x00') : fmt ≠ [] := by
  intro h1
  rw [h1] at h
  exact h rfl

/-- The loop of `fmt_chunk` with a buffer: it returns, stores exactly the next bytes of the
remaining output that fit, and stops in the Done action exactly when everything fitted. -/
theorem fmt_chunk_loop_buf (hook : FmtHook) (cap : Nat) :
    ∀ (k : Nat) (s : FmtState) (out : List Char) (sw : Nat), StateOk hook s →
      loopMeasure s ≤ k →
      ∃ s1, fmt_chunk_loop hook k (some cap) s out sw =
          .ok (s1, out ++ (remaining hook s).take (cap - out.length),
            sw + ((remaining hook s).take (cap - out.length)).length) ∧
        remaining hook s1 = (remaining hook s).drop (cap - out.length) ∧
        Frame s s1 ∧ StateOk hook s1 ∧
        (s1.action = FmtAction.FmtActionDone ↔
          (remaining hook s).length ≤ cap - out.length) := by
  intro k
  induction k with
  | zero =>
    intro s out sw _ hm
    unfold loopMeasure at hm
    split at hm <;> omega
  | succ k ih =>
    intro s out sw hok hm
    obtain ⟨args, arg_count, fmt_at_init, fmt, userdata, size, next, action, fo, tb⟩ := s
    obtain ⟨hargs, hnext, hfo⟩ := hok
    dsimp only at hargs hnext hfo
    rw [fmt_chunk_loop]
    cases action with
    | FmtActionDone =>
      have hrem : remaining hook ⟨args, arg_count, fmt_at_init, fmt, userdata, size, next,
          FmtAction.FmtActionDone, fo, tb⟩ = [] := rfl
      simp only [hrem, List.take_nil, List.append_nil, List.length_nil, Nat.add_zero,
        List.drop_nil, Nat.zero_le, iff_true]
      exact ⟨_, rfl, hrem, Frame_refl _, ⟨hargs, hnext, hfo⟩, rfl⟩
    | FmtActionParsing =>
      simp only [loopMeasure] at hm
      dsimp only
      by_cases h0 : peek fmt = '\x00'
      · rw [if_pos h0]
        have hrem : remaining hook ⟨args, arg_count, fmt_at_init, fmt, userdata, size, next,
            FmtAction.FmtActionParsing, fo, tb⟩ = [] := by
          simp only [remaining]
          exact render_nul _ _ _ _ _ _ _ h0
        obtain ⟨s1, e1, r1, f1, ok1, d1⟩ := ih ⟨args, arg_count, fmt_at_init, fmt, userdata,
          size, next, FmtAction.FmtActionDone, fo, tb⟩
          out sw ⟨hargs, hnext, fun h => by cases h⟩ (by simp only [loopMeasure]; omega)
        have hrem1 : remaining hook ⟨args, arg_count, fmt_at_init, fmt, userdata, size, next,
            FmtAction.FmtActionDone, fo, tb⟩ = [] := rfl
        rw [hrem1] at e1 r1 d1
        rw [hrem]
        exact ⟨s1, e1, r1, f1, ok1, d1⟩
      · rw [if_neg h0]
        by_cases hl : peek fmt ≠ '\x7b' ∨ (peek fmt = '\x7b' ∧ peek fmt.tail = '\x7b')
        · rw [if_pos hl]
          have hrem : remaining hook ⟨args, arg_count, fmt_at_init, fmt, userdata, size, next,
              FmtAction.FmtActionParsing, fo, tb⟩ =
              peek fmt :: remaining hook ⟨args, arg_count, fmt_at_init, fmt_skip_literal fmt,
                userdata, size, next, FmtAction.FmtActionParsing, fo, tb⟩ := by
            simp only [remaining]
            exact render_lit _ _ _ _ _ _ _ h0 hl
          have hlt := fmt_skip_literal_lt fmt h0
          by_cases hroom : out.length < cap
          · rw [if_pos hroom]
            obtain ⟨s1, e1, r1, f1, ok1, d1⟩ := ih ⟨args, arg_count, fmt_at_init,
              fmt_skip_literal fmt, userdata, size, next, FmtAction.FmtActionParsing, fo, tb⟩
              (out ++ [peek fmt]) (sw + 1)
              ⟨hargs, hnext, fun h => by cases h⟩
              (by simp only [loopMeasure]; omega)
            have hc : cap - out.length = (cap - (out ++ [peek fmt]).length) + 1 := by
              simp only [List.length_append, List.length_singleton]
              omega
            refine ⟨s1, ?_, ?_, f1, ok1, ?_⟩
            · rw [e1, hrem, hc, List.take_succ_cons]
              simp only [List.append_assoc, List.singleton_append, List.length_cons]
              congr 3
              omega
            · rw [r1, hrem, hc, List.drop_succ_cons]
            · rw [d1, hrem, hc, List.length_cons]
              omega
          · rw [if_neg hroom]
            have hc : cap - out.length = 0 := by omega
            rw [hc]
            simp only [List.take_zero, List.append_nil, List.length_nil, Nat.add_zero,
              List.drop_zero]
            refine ⟨_, rfl, rfl, Frame_refl _, ⟨hargs, hnext, hfo⟩, ?_⟩
            rw [hrem]
            simp
        · rw [if_neg hl]
          have hbr : peek fmt.tail ≠ '\x7b' := by
            intro hb
            apply hl
            by_cases hq : peek fmt = '\x7b'
            · exact Or.inr ⟨hq, hb⟩
            · exact Or.inl hq
          obtain ⟨r, er, hsuf, hn1, hfo1⟩ := fmt_parse_arg_ok hook args arg_count
            userdata tb fmt next hargs hnext hbr
          have hlen := suffix_tail_length_lt hsuf (peek_ne_nil h0)
          simp only [er]
          have hrem : remaining hook ⟨args, arg_count, fmt_at_init, fmt, userdata, size, next,
              FmtAction.FmtActionParsing, fo, tb⟩ =
              remaining hook ⟨args, arg_count, fmt_at_init, r.1, userdata, size, r.2.1,
                FmtAction.FmtActionFormatting, r.2.2, tb⟩ := by
            simp only [remaining]
            exact render_arg _ _ _ _ _ _ _ h0 hl r er hlen
          obtain ⟨s1, e1, r1, f1, ok1, d1⟩ := ih ⟨args, arg_count, fmt_at_init, r.1, userdata,
            size, r.2.1, FmtAction.FmtActionFormatting, r.2.2, tb⟩
            out sw ⟨hargs, hn1, fun _ => hfo1⟩ (by simp only [loopMeasure]; omega)
          rw [hrem]
          exact ⟨s1, e1, r1, f1, ok1, d1⟩
    | FmtActionFormatting =>
      simp only [loopMeasure] at hm
      dsimp only
      have hfo1 := hfo rfl
      obtain ⟨e, ee, eo, ep, es, ek⟩ := fmt_emit_buf cap fo out sw hfo1
      simp only [ee]
      have hrem : remaining hook ⟨args, arg_count, fmt_at_init, fmt, userdata, size, next,
          FmtAction.FmtActionFormatting, fo, tb⟩ = pending fo ++
          remaining hook ⟨args, arg_count, fmt_at_init, fmt, userdata, size, next,
            FmtAction.FmtActionParsing, e.format_output, tb⟩ := by
        simp only [remaining]
      have hz := pending_eq_nil_iff _ ek
      by_cases hd : e.format_output.pad_size = 0 ∧ e.format_output.text_size = 0
      · rw [if_pos hd]
        have hnil := hz.2 hd
        rw [hnil] at ep
        have hle : (pending fo).length ≤ cap - out.length := by
          have := congrArg List.length ep
          simp only [List.length_drop, List.length_nil] at this
          omega
        obtain ⟨s1, e1, r1, f1, ok1, d1⟩ := ih ⟨args, arg_count, fmt_at_init, fmt, userdata,
          size, next, FmtAction.FmtActionParsing, e.format_output, tb⟩
          e.out e.size_written ⟨hargs, hnext, fun h => by cases h⟩
          (by simp only [loopMeasure]; omega)
        have hc : cap - e.out.length = cap - out.length - (pending fo).length := by
          rw [eo, List.length_append, List.take_of_length_le hle]
          omega
        rw [hc] at e1 r1 d1
        refine ⟨s1, ?_, ?_, f1, ok1, ?_⟩
        · rw [e1, hrem, eo, es, List.take_append_eq_append_take, List.take_of_length_le hle]
          simp only [List.append_assoc, List.length_append, Nat.add_assoc]
        · rw [r1, hrem, List.drop_append_eq_append_drop, List.drop_of_length_le hle,
            List.nil_append]
        · rw [d1, hrem, List.length_append]
          omega
      · rw [if_neg hd]
        have hne : pending e.format_output ≠ [] := fun h => hd (hz.1 h)
        have hgt : cap - out.length < (pending fo).length := by
          rw [ep] at hne
          by_contra hcon
          exact hne (List.drop_of_length_le (by omega))
        refine ⟨⟨args, arg_count, fmt_at_init, fmt, userdata, size, next,
          FmtAction.FmtActionFormatting, e.format_output, tb⟩, ?_, ?_,
          ⟨rfl, rfl, rfl, rfl, rfl⟩, ⟨hargs, hnext, fun _ => ek⟩, ?_⟩
        · rw [eo, es, hrem, List.take_append_of_le_length (by omega)]
        · simp only [remaining]
          rw [ep, List.drop_append_of_le_length (by omega)]
        · dsimp only
          rw [hrem, List.length_append]
          constructor
          · intro h
            cases h
          · intro h
            omega

/-- The loop of `fmt_chunk` without a buffer: it returns in the Done action, having counted
the whole remaining output. -/
theorem fmt_chunk_loop_null (hook : FmtHook) :
    ∀ (k : Nat) (s : FmtState) (out : List Char) (sw : Nat), StateOk hook s →
      loopMeasure s ≤ k →
      ∃ s1, fmt_chunk_loop hook k none s out sw =
          .ok (s1, out, sw + (remaining hook s).length) ∧
        s1.action = FmtAction.FmtActionDone ∧ Frame s s1 ∧ StateOk hook s1 := by
  intro k
  induction k with
  | zero =>
    intro s out sw _ hm
    unfold loopMeasure at hm
    split at hm <;> omega
  | succ k ih =>
    intro s out sw hok hm
    obtain ⟨args, arg_count, fmt_at_init, fmt, userdata, size, next, action, fo, tb⟩ := s
    obtain ⟨hargs, hnext, hfo⟩ := hok
    dsimp only at hargs hnext hfo
    rw [fmt_chunk_loop]
    cases action with
    | FmtActionDone =>
      exact ⟨_, rfl, rfl, Frame_refl _, ⟨hargs, hnext, hfo⟩⟩
    | FmtActionParsing =>
      simp only [loopMeasure] at hm
      dsimp only
      by_cases h0 : peek fmt = '\x00'
      · rw [if_pos h0]
        have hrem : remaining hook ⟨args, arg_count, fmt_at_init, fmt, userdata, size, next,
            FmtAction.FmtActionParsing, fo, tb⟩ = [] := by
          simp only [remaining]
          exact render_nul _ _ _ _ _ _ _ h0
        obtain ⟨s1, e1, d1, f1, ok1⟩ := ih ⟨args, arg_count, fmt_at_init, fmt, userdata,
          size, next, FmtAction.FmtActionDone, fo, tb⟩
          out sw ⟨hargs, hnext, fun h => by cases h⟩ (by simp only [loopMeasure]; omega)
        have hrem1 : remaining hook ⟨args, arg_count, fmt_at_init, fmt, userdata, size, next,
            FmtAction.FmtActionDone, fo, tb⟩ = [] := rfl
        rw [hrem1] at e1
        rw [hrem]
        exact ⟨s1, e1, d1, f1, ok1⟩
      · rw [if_neg h0]
        by_cases hl : peek fmt ≠ '\x7b' ∨ (peek fmt = '\x7b' ∧ peek fmt.tail = '\x7b')
        · rw [if_pos hl]
          have hrem : remaining hook ⟨args, arg_count, fmt_at_init, fmt, userdata, size, next,
              FmtAction.FmtActionParsing, fo, tb⟩ =
              peek fmt :: remaining hook ⟨args, arg_count, fmt_at_init, fmt_skip_literal fmt,
                userdata, size, next, FmtAction.FmtActionParsing, fo, tb⟩ := by
            simp only [remaining]
            exact render_lit _ _ _ _ _ _ _ h0 hl
          have hlt := fmt_skip_literal_lt fmt h0
          obtain ⟨s1, e1, d1, f1, ok1⟩ := ih ⟨args, arg_count, fmt_at_init,
            fmt_skip_literal fmt, userdata, size, next, FmtAction.FmtActionParsing, fo, tb⟩
            out (sw + 1) ⟨hargs, hnext, fun h => by cases h⟩
            (by simp only [loopMeasure]; omega)
          refine ⟨s1, ?_, d1, f1, ok1⟩
          rw [e1, hrem, List.length_cons]
          congr 3
          omega
        · rw [if_neg hl]
          have hbr : peek fmt.tail ≠ '\x7b' := by
            intro hb
            apply hl
            by_cases hq : peek fmt = '\x7b'
            · exact Or.inr ⟨hq, hb⟩
            · exact Or.inl hq
          obtain ⟨r, er, hsuf, hn1, hfo1⟩ := fmt_parse_arg_ok hook args arg_count
            userdata tb fmt next hargs hnext hbr
          have hlen := suffix_tail_length_lt hsuf (peek_ne_nil h0)
          simp only [er]
          have hrem : remaining hook ⟨args, arg_count, fmt_at_init, fmt, userdata, size, next,
              FmtAction.FmtActionParsing, fo, tb⟩ =
              remaining hook ⟨args, arg_count, fmt_at_init, r.1, userdata, size, r.2.1,
                FmtAction.FmtActionFormatting, r.2.2, tb⟩ := by
            simp only [remaining]
            exact render_arg _ _ _ _ _ _ _ h0 hl r er hlen
          obtain ⟨s1, e1, d1, f1, ok1⟩ := ih ⟨args, arg_count, fmt_at_init, r.1, userdata,
            size, r.2.1, FmtAction.FmtActionFormatting, r.2.2, tb⟩
            out sw ⟨hargs, hn1, fun _ => hfo1⟩ (by simp only [loopMeasure]; omega)
          rw [hrem]
          exact ⟨s1, e1, d1, f1, ok1⟩
    | FmtActionFormatting =>
      simp only [loopMeasure] at hm
      dsimp only
      have hfo1 := hfo rfl
      obtain ⟨e, ee, eo, es, ez1, ez2⟩ := fmt_emit_null fo out sw hfo1
      simp only [ee]
      rw [if_pos ⟨ez1, ez2⟩]
      have hrem : remaining hook ⟨args, arg_count, fmt_at_init, fmt, userdata, size, next,
          FmtAction.FmtActionFormatting, fo, tb⟩ = pending fo ++
          remaining hook ⟨args, arg_count, fmt_at_init, fmt, userdata, size, next,
            FmtAction.FmtActionParsing, e.format_output, tb⟩ := by
        simp only [remaining]
      obtain ⟨s1, e1, d1, f1, ok1⟩ := ih ⟨args, arg_count, fmt_at_init, fmt, userdata,
        size, next, FmtAction.FmtActionParsing, e.format_output, tb⟩
        e.out e.size_written ⟨hargs, hnext, fun h => by cases h⟩
        (by simp only [loopMeasure]; omega)
      refine ⟨s1, ?_, d1, f1, ok1⟩
      rw [e1, hrem, eo, es, List.length_append, Nat.add_assoc]

theorem loopMeasure_le_budget (s : FmtState) : loopMeasure s ≤ fmt_chunk_budget s := by
  unfold loopMeasure fmt_chunk_budget
  split <;> omega

theorem remaining_done (hook : FmtHook) (s : FmtState)
    (h : s.action = FmtAction.FmtActionDone) : remaining hook s = [] := by
  simp only [remaining, h]

/-- A call of `fmt_chunk` with a buffer returns; it stores the first `buf_size` bytes of the
remaining output at the start of the buffer and leaves the rest of the buffer alone, reports
their number in `state.size`, returns true exactly when output remained at entry, and is in
the Done action afterwards exactly when everything fitted. -/
theorem fmt_chunk_buf (hook : FmtHook) (s : FmtState) (b : List Char) (buf_size : Nat)
    (hok : StateOk hook s) :
    ∃ r, fmt_chunk hook s (some b) buf_size = .ok r ∧
      r.buf = some ((remaining hook s).take buf_size ++
        b.drop ((remaining hook s).take buf_size).length) ∧
      r.state.size = ((remaining hook s).take buf_size).length ∧
      r.bytes = (remaining hook s).take buf_size ∧
      remaining hook r.state = (remaining hook s).drop buf_size ∧
      r.ret = decide (remaining hook s ≠ []) ∧
      Frame s r.state ∧ StateOk hook r.state ∧
      (r.state.action = FmtAction.FmtActionDone ↔ (remaining hook s).length ≤ buf_size) := by
  unfold fmt_chunk
  by_cases hd : s.action = FmtAction.FmtActionDone
  · rw [if_pos hd]
    have hrem := remaining_done hook s hd
    refine ⟨_, rfl, ?_, ?_, ?_, ?_, ?_, Frame_refl s, ?_, ?_⟩
    · simp [hrem]
    · simp [hrem]
    · simp [ChunkResult.bytes, hrem]
    · rw [hrem, List.drop_nil]
      exact remaining_done hook _ hd
    · simp [hrem]
    · exact ⟨hok.1, hok.2.1, fun h => hok.2.2 h⟩
    · simp [hrem, hd]
  · rw [if_neg hd]
    obtain ⟨s1, e1, r1, f1, ok1, d1⟩ := fmt_chunk_loop_buf hook buf_size (fmt_chunk_budget s)
      s [] 0 hok (loopMeasure_le_budget s)
    simp only [List.length_nil, Nat.sub_zero, List.nil_append, Nat.zero_add] at e1 r1 d1
    simp only [Option.map_some', e1]
    refine ⟨_, rfl, rfl, rfl, ?_, r1, ?_, f1, ok1, d1⟩
    · simp [ChunkResult.bytes]
    · dsimp only
      have hiff : ((List.take buf_size (remaining hook s)).length = 0 ∧
          s1.action = FmtAction.FmtActionDone) ↔ remaining hook s = [] := by
        rw [d1, List.length_take, ← List.length_eq_zero]
        obtain ⟨m1, m2, m3⟩ := min_cases buf_size (remaining hook s).length
        omega
      simp only [hiff]
      by_cases hr : remaining hook s = [] <;> simp [hr]

/-- A call of `fmt_chunk` with a null buffer returns in the Done action with the length of
the whole remaining output in `state.size`. -/
theorem fmt_chunk_null (hook : FmtHook) (s : FmtState) (buf_size : Nat)
    (hok : StateOk hook s) :
    ∃ r, fmt_chunk hook s none buf_size = .ok r ∧ r.buf = none ∧
      r.state.size = (remaining hook s).length ∧
      r.state.action = FmtAction.FmtActionDone ∧
      r.ret = decide (remaining hook s ≠ []) ∧
      Frame s r.state ∧ StateOk hook r.state := by
  unfold fmt_chunk
  by_cases hd : s.action = FmtAction.FmtActionDone
  · rw [if_pos hd]
    have hrem := remaining_done hook s hd
    refine ⟨_, rfl, rfl, ?_, hd, ?_, Frame_refl s, ?_⟩
    · simp [hrem]
    · simp [hrem]
    · exact ⟨hok.1, hok.2.1, fun h => hok.2.2 h⟩
  · rw [if_neg hd]
    obtain ⟨s1, e1, d1, f1, ok1⟩ := fmt_chunk_loop_null hook (fmt_chunk_budget s)
      s [] 0 hok (loopMeasure_le_budget s)
    simp only [Nat.zero_add] at e1
    simp only [Option.map_none', e1]
    refine ⟨_, rfl, rfl, rfl, d1, ?_, f1, ok1⟩
    dsimp only
    have hiff : ((remaining hook s).length = 0 ∧ s1.action = FmtAction.FmtActionDone) ↔
        remaining hook s = [] := by
      rw [← List.length_eq_zero]
      exact ⟨fun h => h.1, fun h => ⟨h, d1⟩⟩
    simp only [hiff]
    by_cases hr : remaining hook s = [] <;> simp [hr]

theorem fmt_init_args_ok (hook : FmtHook) (n : Nat) (va : List FmtArg) (h : VaOk hook va) :
    ArgsOk hook (fmt_init_args n va).1 (fmt_init_args n va).2 := by
  induction n generalizing va with
  | zero =>
    intro i h0 h1
    simp only [fmt_init_args] at h1
    omega
  | succ n ih =>
    cases va with
    | nil =>
      intro i h0 h1
      simp only [fmt_init_args] at h1
      omega
    | cons a va =>
      intro i h0 h1
      simp only [fmt_init_args] at h1 ⊢
      by_cases hn : a.data.isNone = true
      · rw [if_pos hn] at h1
        dsimp only at h1
        omega
      · rw [if_neg hn] at h1 ⊢
        dsimp only at h1 ⊢
        by_cases hz : i = 0
        · rw [hz]
          simp only [Int.toNat_zero, List.getD_cons_zero]
          cases hd : a.data with
          | none => simp [hd] at hn
          | some d =>
            obtain ⟨h2, h3⟩ := h a (List.mem_cons_self _ _) d hd
            exact ⟨d, hd, h2, h3⟩
        · have hp : 0 < i := by omega
          have hi : i.toNat = (i - 1).toNat + 1 := by omega
          rw [hi, List.getD_cons_succ]
          exact ih va (fun b hb => h b (List.mem_cons_of_mem _ hb)) (i - 1) (by omega)
            (by omega)

theorem fmt_init_ok (hook : FmtHook) (state : FmtState) (fmt : List Char) (va : List FmtArg)
    (h : VaOk hook va) : StateOk hook (fmt_init state fmt va) :=
  ⟨fmt_init_args_ok hook _ va h, le_refl _, fun h => by cases h⟩

theorem fmt_reset_ok (hook : FmtHook) (s : FmtState) (h : StateOk hook s) :
    StateOk hook (fmt_reset s) :=
  ⟨h.1, le_refl _, fun h => by cases h⟩

/-- After `fmt_reset` the machine produces what a state with the same captured arguments
and format produces from the start. -/
theorem remaining_reset (hook : FmtHook) (s0 s : FmtState) (hf : Frame s0 s)
    (h0 : s0.action = FmtAction.FmtActionParsing) (h1 : s0.fmt = s0.fmt_at_init)
    (h2 : s0.next_arg_ix = 0) : remaining hook (fmt_reset s) = remaining hook s0 := by
  obtain ⟨f1, f2, f3, f4, f5⟩ := hf
  simp only [remaining, fmt_reset, h0, f1, f2, f3, f4, f5, h1, h2]

/-- Formatting a state to completion yields its remaining output. -/
theorem fmt_all_eq (hook : FmtHook) (s : FmtState) (hok : StateOk hook s) :
    fmt_all hook s = .ok (remaining hook s) := by
  obtain ⟨r1, e1, _, z1, _⟩ := fmt_chunk_null hook s 0 hok
  obtain ⟨r2, e2, _, _, b2, _⟩ := fmt_chunk_buf hook s
    (List.replicate r1.state.size '\x00') r1.state.size hok
  unfold fmt_all
  simp only [e1, e2, b2]
  rw [z1, List.take_length]

/-- The drain loop over non-empty buffers, more of them than bytes remain, hands `process`
exactly the remaining output and ends with `fmt_chunk` returning false. -/
theorem fmt_drain_eq (hook : FmtHook) :
    ∀ (bufs : List (List Char)) (s : FmtState) (acc : List Char), StateOk hook s →
      (∀ b ∈ bufs, 1 ≤ b.length) → (remaining hook s).length < bufs.length →
      ∃ s1, fmt_drain hook bufs s acc = .ok (true, s1, acc ++ remaining hook s) ∧
        Frame s s1 ∧ StateOk hook s1 := by
  intro bufs
  induction bufs with
  | nil =>
    intro s acc _ _ hlen
    simp only [List.length_nil] at hlen
    omega
  | cons b bs ih =>
    intro s acc hok hpos hlen
    obtain ⟨r, e, _, _, hb, hrem, hret, hf, hok1, _⟩ := fmt_chunk_buf hook s b b.length hok
    simp only [fmt_drain, e]
    by_cases hr : remaining hook s = []
    · have : r.ret = false := by rw [hret]; simp [hr]
      rw [this, hr]
      simp only [Bool.false_eq_true, if_false, List.append_nil]
      exact ⟨_, rfl, hf, hok1⟩
    · have : r.ret = true := by rw [hret]; simp [hr]
      rw [this]
      simp only [if_true]
      have hb1 := hpos b (List.mem_cons_self _ _)
      have hl : 0 < (remaining hook s).length := List.length_pos.2 hr
      obtain ⟨s1, e1, f1, ok1⟩ := ih r.state (acc ++ r.bytes) hok1
        (fun c hc => hpos c (List.mem_cons_of_mem _ hc))
        (by rw [hrem, List.length_drop]; simp only [List.length_cons] at hlen; omega)
      refine ⟨s1, ?_, Frame_trans hf f1, ok1⟩
      rw [e1, hb, hrem, List.append_assoc, List.take_append_drop]

theorem toS32_of_lt (n : Nat) (h : n < 2 ^ 31) : toS32 n = (n : Int) := by
  unfold toS32
  have h1 : n % 2 ^ 32 = n := Nat.mod_eq_of_lt (by omega)
  rw [h1, if_pos h]

theorem toSizeT_natCast (n : Nat) (h : n < 2 ^ 31) : toSizeT (n : Int) = n := by
  unfold toSizeT
  rw [Int.emod_eq_of_lt (by omega) (by omega)]
  exact Int.toNat_natCast n

theorem fmt_chunk_any (hook : FmtHook) (s : FmtState) (buf : Option (List Char)) (n : Nat)
    (hok : StateOk hook s) :
    ∃ r, fmt_chunk hook s buf n = .ok r ∧ Frame s r.state ∧ StateOk hook r.state := by
  cases buf with
  | none =>
    obtain ⟨r, e, _, _, _, _, f, ok⟩ := fmt_chunk_null hook s n hok
    exact ⟨r, e, f, ok⟩
  | some b =>
    obtain ⟨r, e, _, _, _, _, _, f, ok, _⟩ := fmt_chunk_buf hook s b n hok
    exact ⟨r, e, f, ok⟩

theorem fmt_chunks_ok (hook : FmtHook) :
    ∀ (calls : List (Option (List Char) × Nat)) (s : FmtState), StateOk hook s →
      ∃ s1, fmt_chunks hook calls s = .ok s1 ∧ Frame s s1 ∧ StateOk hook s1 := by
  intro calls
  induction calls with
  | nil => exact fun s hok => ⟨s, rfl, Frame_refl s, hok⟩
  | cons c cs ih =>
    intro s hok
    obtain ⟨r, e, f, ok⟩ := fmt_chunk_any hook s c.1 c.2 hok
    obtain ⟨s1, e1, f1, ok1⟩ := ih r.state ok
    refine ⟨s1, ?_, Frame_trans f f1, ok1⟩
    simp only [fmt_chunks, e, e1]

/-- What `fmt_malloc_va` returns: the whole output with a terminator behind it, at the start
of the block the allocator returned. -/
theorem fmt_malloc_va_eq (hook : FmtHook) (state : FmtState)
    (malloc : Nat → Option (List Char)) (fmt : List Char) (va : List FmtArg)
    (hva : VaOk hook va) :
    fmt_malloc_va hook state malloc fmt va =
      .ok ((malloc ((remaining hook (fmt_init state fmt va)).length + 1)).map fun mem =>
        (remaining hook (fmt_init state fmt va) ++
          mem.drop (remaining hook (fmt_init state fmt va)).length).set
            (remaining hook (fmt_init state fmt va)).length '\x00') := by
  have hok := fmt_init_ok hook state fmt va hva
  obtain ⟨r1, e1, _, z1, _, _, f1, ok1⟩ := fmt_chunk_null hook _ 0 hok
  have hrem := remaining_reset hook (fmt_init state fmt va) r1.state f1 rfl rfl rfl
  unfold fmt_malloc_va
  simp only [e1]
  rw [z1]
  cases hm : malloc ((remaining hook (fmt_init state fmt va)).length + 1) with
  | none => rfl
  | some mem =>
    obtain ⟨r2, e2, b2, z2, _⟩ := fmt_chunk_buf hook (fmt_reset r1.state) mem
      (remaining hook (fmt_init state fmt va)).length (fmt_reset_ok hook _ ok1)
    rw [hrem, List.take_length] at b2 z2
    simp only [e2, z2, if_true, b2, Option.map_some']

theorem toSizeT_zero : toSizeT 0 = 0 := rfl

/-- What `fmt_sn_va` returns when the length of the whole output fits an `int`: that length,
and the buffer with the bytes that fitted and a terminator behind them. -/
theorem fmt_sn_va_eq (hook : FmtHook) (state : FmtState) (buf : Option (List Char))
    (size : Nat) (fmt : List Char) (va : List FmtArg) (hva : VaOk hook va)
    (hfit : (remaining hook (fmt_init state fmt va)).length < 2 ^ 31) :
    fmt_sn_va hook state buf size fmt va =
      .ok (((remaining hook (fmt_init state fmt va)).length : Int),
        if size > 0 then
          buf.map fun b =>
            ((remaining hook (fmt_init state fmt va)).take (size - 1) ++
              b.drop ((remaining hook (fmt_init state fmt va)).take (size - 1)).length).set
                ((remaining hook (fmt_init state fmt va)).take (size - 1)).length '\x00'
        else buf) := by
  have hok := fmt_init_ok hook state fmt va hva
  generalize hR : remaining hook (fmt_init state fmt va) = R at hfit
  have hse : (if size ≠ 0 then size - 1 else 0) = size - 1 := by
    split <;> omega
  have htl : (R.take (size - 1)).length ≤ R.length := by
    rw [List.length_take]
    exact Nat.min_le_right _ _
  have hsplit : (R.take (size - 1)).length + (R.drop (size - 1)).length = R.length := by
    rw [← List.length_append, List.take_append_drop]
  unfold fmt_sn_va
  simp only [hse]
  cases buf with
  | none =>
    obtain ⟨r1, e1, b1, z1, d1, t1, f1, ok1⟩ := fmt_chunk_null hook _ (size - 1) hok
    obtain ⟨r2, e2, b2, z2, d2, t2, f2, ok2⟩ := fmt_chunk_null hook r1.state 0 ok1
    rw [hR] at z1 t1
    have hr1 : remaining hook r1.state = [] := remaining_done hook _ d1
    rw [hr1] at z2 t2
    simp only [e1, e2, b1, Option.map_none', ite_self, t2, ne_eq, not_true_eq_false,
      decide_False, Bool.false_eq_true, if_false]
    rw [t1, z1]
    by_cases hr : R = []
    · simp [hr]
    · simp only [ne_eq, hr, not_false_eq_true, decide_True, if_true]
      rw [toSizeT_zero, Nat.zero_add, toS32_of_lt _ hfit]
  | some b =>
    obtain ⟨r1, e1, b1, z1, _, m1, t1, f1, ok1, _⟩ := fmt_chunk_buf hook _ b (size - 1) hok
    obtain ⟨r2, e2, b2, z2, d2, t2, f2, ok2⟩ := fmt_chunk_null hook r1.state 0 ok1
    rw [hR] at b1 z1 m1 t1
    rw [m1] at z2 t2
    have hres1 : (if r1.ret = true then toS32 (toSizeT 0 + r1.state.size) else 0) =
        ((R.take (size - 1)).length : Int) := by
      rw [t1, z1]
      by_cases hr : R = []
      · simp [hr]
      · simp only [ne_eq, hr, not_false_eq_true, decide_True, if_true]
        rw [toSizeT_zero, Nat.zero_add, toS32_of_lt _ (by omega)]
    simp only [e1, e2, hres1, b1, Option.map_some', Int.toNat_natCast, t2, z2]
    refine congrArg Except.ok (Prod.ext ?_ ?_)
    · dsimp only
      by_cases hr : R.drop (size - 1) = []
      · simp only [hr, ne_eq, not_true_eq_false, decide_False, Bool.false_eq_true, if_false]
        rw [hr, List.length_nil] at hsplit
        omega
      · simp only [ne_eq, hr, not_false_eq_true, decide_True, if_true]
        rw [toSizeT_natCast _ (by omega), hsplit, toS32_of_lt _ hfit]
    · dsimp only
      by_cases hs : size > 0
      · rw [if_pos hs, if_pos hs]
      · rw [if_neg hs, if_neg hs]
        have : size - 1 = 0 := by omega
        rw [this]
        rfl

theorem VaOk_of_builtin (hook : FmtHook) (va : List FmtArg) (h : builtin_va va = true) :
    VaOk hook va := by
  intro a ha d hd
  have h1 := List.all_eq_true.1 h a ha
  simp only [hd, Bool.and_eq_true, decide_eq_true_eq] at h1
  refine ⟨h1.1, Or.inl ?_⟩
  have h2 := h1.2
  simp only [List.mem_cons, List.mem_singleton, List.not_mem_nil, or_false] at h2
  exact h2

/-- With a buffer that the whole output fits, a finished call has produced the whole
output. -/
theorem fmt_chunk_done_bytes (hook : FmtHook) (s : FmtState) (big : List Char)
    (r : ChunkResult) (hok : StateOk hook s)
    (hr : fmt_chunk hook s (some big) big.length = .ok r)
    (hd : r.state.action = FmtAction.FmtActionDone) :
    r.bytes = remaining hook s ∧ r.state.size = (remaining hook s).length := by
  obtain ⟨r1, e1, _, z1, b1, _, _, _, _, d1⟩ := fmt_chunk_buf hook s big big.length hok
  rw [hr] at e1
  cases e1
  have hle := d1.1 hd
  rw [List.take_of_length_le hle] at b1 z1
  exact ⟨b1, z1⟩

theorem fmt_chunk_big (hook : FmtHook) (s : FmtState) (big : List Char)
    (hok : StateOk hook s) (hle : (remaining hook s).length ≤ big.length) :
    ∃ r, fmt_chunk hook s (some big) big.length = .ok r ∧
      r.state.action = FmtAction.FmtActionDone ∧ r.bytes = remaining hook s := by
  obtain ⟨r1, e1, _, _, b1, _, _, _, _, d1⟩ := fmt_chunk_buf hook s big big.length hok
  rw [List.take_of_length_le hle] at b1
  exact ⟨r1, e1, d1.2 hle, b1⟩

theorem remaining_parsing (hook : FmtHook) (s : FmtState)
    (h : s.action = FmtAction.FmtActionParsing) :
    remaining hook s =
      render hook s.args s.arg_count s.userdata s.text_buf s.fmt s.next_arg_ix := by
  simp only [remaining, h]

/-- The output of a state at a placeholder is the output of the descriptor that the
`Parse arg` block leaves, followed by the output of the state behind the placeholder. -/
theorem placeholder_step (hook : FmtHook) (s : FmtState) (p : ArgspecResult)
    (hok : StateOk hook s) (h : PlaceholderAt s p) :
    ∃ r, fmt_parse_arg hook s.args s.arg_count s.userdata s.text_buf s.fmt s.next_arg_ix =
        .ok r ∧ FoOk r.2.2 ∧
      fmt_all hook (after_placeholder s p) = .ok (remaining hook (after_placeholder s p)) ∧
      fmt_all hook s = .ok (pending r.2.2 ++ remaining hook (after_placeholder s p)) := by
  obtain ⟨hp, hb, hnb, hparse⟩ := h
  obtain ⟨r, er, hsuf, hn, hfo⟩ := fmt_parse_arg_ok hook s.args s.arg_count s.userdata
    s.text_buf s.fmt s.next_arg_ix hok.1 hok.2.1 hnb
  have h0 : peek s.fmt ≠ '\x00' := by
    rw [hb]
    decide
  have hl : ¬(peek s.fmt ≠ '\x7b' ∨ (peek s.fmt = '\x7b' ∧ peek s.fmt.tail = '\x7b')) := by
    intro h
    rcases h with h | h
    · exact h hb
    · exact hnb h.2
  have hlen := suffix_tail_length_lt hsuf (peek_ne_nil h0)
  have hr1 : r.1 = p.fmt ∧
      r.2.1 = (if p.success then fmt_bump_arg_ix p.arg_ix s.next_arg_ix
        else s.next_arg_ix) := by
    have er2 := er
    unfold fmt_parse_arg at er2
    simp only [hparse] at er2
    split at er2
    · rename_i hs
      rw [if_pos hs]
      split at er2
      · split at er2
        · cases er2
        · cases er2
          exact ⟨rfl, rfl⟩
      · cases er2
        exact ⟨rfl, rfl⟩
    · rename_i hs
      rw [if_neg hs]
      cases er2
      exact ⟨rfl, rfl⟩
  have hok2 : StateOk hook (after_placeholder s p) := by
    refine ⟨hok.1, ?_, fun h => ?_⟩
    · show 0 ≤ (if p.success then fmt_bump_arg_ix p.arg_ix s.next_arg_ix
        else s.next_arg_ix)
      rw [← hr1.2]
      exact hn
    · rw [show (after_placeholder s p).action = s.action from rfl, hp] at h
      cases h
  have hrem2 : remaining hook (after_placeholder s p) =
      render hook s.args s.arg_count s.userdata s.text_buf r.1 r.2.1 := by
    rw [remaining_parsing hook _ (show (after_placeholder s p).action = _ from hp), hr1.1,
      hr1.2]
    rfl
  refine ⟨r, er, hfo, fmt_all_eq hook _ hok2, ?_⟩
  rw [fmt_all_eq hook s hok, remaining_parsing hook s hp, hrem2]
  exact congrArg Except.ok (render_arg _ _ _ _ _ _ _ h0 hl r er hlen)

/-- The output of a state at a literal character is that character followed by the output
of the state behind it (behind both braces for a doubled opening brace). -/
theorem literal_step (hook : FmtHook) (s : FmtState) (hok : StateOk hook s)
    (hp : s.action = FmtAction.FmtActionParsing) (h0 : peek s.fmt ≠ '\x00')
    (hl : peek s.fmt ≠ '\x7b' ∨ (peek s.fmt = '\x7b' ∧ peek s.fmt.tail = '\x7b')) :
    fmt_all hook { s with fmt := fmt_skip_literal s.fmt } =
        .ok (remaining hook { s with fmt := fmt_skip_literal s.fmt }) ∧
      fmt_all hook s =
        .ok (peek s.fmt :: remaining hook { s with fmt := fmt_skip_literal s.fmt }) := by
  have hok2 : StateOk hook { s with fmt := fmt_skip_literal s.fmt } :=
    ⟨hok.1, hok.2.1, fun h => hok.2.2 h⟩
  refine ⟨fmt_all_eq hook _ hok2, ?_⟩
  rw [fmt_all_eq hook s hok, remaining_parsing hook s hp,
    remaining_parsing hook _ (show ({ s with fmt := fmt_skip_literal s.fmt } : FmtState).action
      = _ from hp)]
  exact congrArg Except.ok (render_lit _ _ _ _ _ _ _ h0 hl)

theorem peek_cons (c : Char) (cs : List Char) : peek (c :: cs) = c := rfl

/-- Literal text without braces and terminators is copied as it stands. -/
theorem render_literal_text (hook : FmtHook) (args : List FmtArg) (arg_count : Int)
    (userdata : Nat) (text_buf pre fmt : List Char) (n : Int)
    (hpre : ∀ c ∈ pre, c ≠ '\x7b' ∧ c ≠ '\x00') :
    render hook args arg_count userdata text_buf (pre ++ fmt) n =
      pre ++ render hook args arg_count userdata text_buf fmt n := by
  induction pre with
  | nil => rfl
  | cons c cs ih =>
    have hc := hpre c (List.mem_cons_self _ _)
    have h1 := render_lit hook args arg_count userdata text_buf (c :: (cs ++ fmt)) n hc.2
      (Or.inl hc.1)
    have h2 : fmt_skip_literal (c :: (cs ++ fmt)) = cs ++ fmt := by
      unfold fmt_skip_literal
      rw [peek_cons, if_neg hc.1]
      rfl
    rw [h2, peek_cons] at h1
    rw [List.cons_append, h1, ih (fun d hd => hpre d (List.mem_cons_of_mem _ hd)),
      List.cons_append]

/-- The output of a state at a well-formed placeholder whose index is in range: what
`fmt_format_arg` leaves for the argument it resolves to, then the output of the state behind
the placeholder. -/
theorem placeholder_render (hook : FmtHook) (s : FmtState) (p : ArgspecResult)
    (hok : StateOk hook s) (h : PlaceholderAt s p) (hs : p.success = true)
    (hix : fmt_actual_arg_ix p.arg_ix s.next_arg_ix < s.arg_count) :
    ∃ fo rest, fmt_format_arg hook (placeholder_arg s p) p.spec s.userdata
        (fmt_fresh_output s.text_buf p.spec) = .ok fo ∧ FoOk fo ∧
      fmt_all hook (after_placeholder s p) = .ok rest ∧
      fmt_all hook s = .ok (pending fo ++ rest) := by
  obtain ⟨r, er, hfo, h1, h2⟩ := placeholder_step hook s p hok h
  unfold fmt_parse_arg at er
  simp only [h.2.2.2, hs, if_true] at er
  rw [if_pos hix] at er
  cases hf : fmt_format_arg hook (s.args.getD (fmt_actual_arg_ix p.arg_ix s.next_arg_ix).toNat
      FMT_ARG_END) p.spec s.userdata (fmt_fresh_output s.text_buf p.spec) with
  | error e =>
    rw [hf] at er
    cases er
  | ok fo =>
    rw [hf] at er
    cases er
    exact ⟨fo, _, hf, hfo, h1, h2⟩

theorem fill_U64_digits (base : Nat) (hb : 1 < base) (digit : Nat → Char) :
    ∀ (k m : Nat) (acc : List Char), m < base ^ k →
      fill_U64 base digit k m acc = (Nat.digits base m).reverse.map digit ++ acc := by
  intro k
  induction k with
  | zero =>
    intro m acc h
    have hm : m = 0 := by
      rw [Nat.pow_zero] at h
      omega
    rw [hm]
    simp [fill_U64]
  | succ k ih =>
    intro m acc h
    simp only [fill_U64]
    by_cases hm : m = 0
    · rw [if_pos hm, hm]
      simp
    · rw [if_neg hm]
      have hdiv : m / base < base ^ k := by
        apply Nat.div_lt_of_lt_mul
        rw [Nat.pow_succ, Nat.mul_comm] at h
        exact h
      rw [ih (m / base) _ hdiv, Nat.digits_def' hb (Nat.pos_of_ne_zero hm)]
      simp

theorem show_U64_hex_eq (v : Nat) (h0 : v ≠ 0) (hlt : v < 2 ^ 64) :
    show_U64_hex v = (lower_hex v, (lower_hex v).length) := by
  have h1 : fill_U64 16 hex_digit FMT_SHOW_BUF_MAX v [] = lower_hex v := by
    rw [fill_U64_digits 16 (by norm_num) hex_digit FMT_SHOW_BUF_MAX v []
      (lt_of_lt_of_le hlt (by unfold FMT_SHOW_BUF_MAX; norm_num)), List.append_nil]
    rfl
  have h2 := show_U64_hex_length v
  unfold show_U64_hex at h2 ⊢
  rw [if_neg h0] at h2 ⊢
  dsimp only at h2
  rw [← h2, h1]

theorem pending_left (fo : FmtFormatOutput) (h : fo.pad_pos = 0) :
    pending fo = List.replicate fo.pad_size.toNat fo.pad_byte ++ fo.text.take fo.text_size := by
  simp [pending, h]

theorem pending_right (fo : FmtFormatOutput) (h : fo.pad_pos = fo.text_size) :
    pending fo = fo.text.take fo.text_size ++ List.replicate fo.pad_size.toNat fo.pad_byte := by
  simp [pending, h]

/-- What `fmt_format_pad` leaves, in terms of the bytes to emit, for each pad mode that
calculates the padding. -/
theorem fmt_format_pad_pending (spec : FmtSpec) (t fo : FmtFormatOutput)
    (hz : t.pad_size = 0) (hfo : fmt_format_pad spec t = .ok fo) :
    (t.pad_mode = FmtPadMode.FmtPadRight →
      pending fo = t.text.take t.text_size ++
        List.replicate (spec.min_len - t.text_size) t.pad_byte) ∧
    (t.pad_mode = FmtPadMode.FmtPadLeft →
      pending fo = List.replicate (spec.min_len - t.text_size) t.pad_byte ++
        t.text.take t.text_size) ∧
    (t.pad_mode = FmtPadMode.FmtPadCustomPos →
      pending fo = t.text.take t.pad_pos ++
        (List.replicate (spec.min_len - t.text_size) t.pad_byte ++
          (t.text.drop t.pad_pos).take (t.text_size - t.pad_pos))) := by
  have calc_eq : ∀ u : FmtFormatOutput, u.pad_size = 0 → ∀ fo2,
      fmt_calculate_padding spec u = .ok fo2 →
      fo2.text = u.text ∧ fo2.text_size = u.text_size ∧ fo2.pad_pos = u.pad_pos ∧
        fo2.pad_byte = u.pad_byte ∧ fo2.pad_size.toNat = spec.min_len - u.text_size := by
    intro u hu fo2 h2
    unfold fmt_calculate_padding at h2
    rw [if_neg (by simp [hu])] at h2
    split at h2
    · cases h2
      exact ⟨rfl, rfl, rfl, rfl, Int.toNat_natCast _⟩
    · cases h2
      refine ⟨rfl, rfl, rfl, rfl, ?_⟩
      rw [hu]
      simp only [Int.toNat_zero]
      omega
  refine ⟨fun hm => ?_, fun hm => ?_, fun hm => ?_⟩
  · unfold fmt_format_pad at hfo
    simp only [hm] at hfo
    obtain ⟨e1, e2, e3, e4, e5⟩ := calc_eq
      { text := t.text, text_size := t.text_size, pad_pos := t.text_size,
        pad_size := t.pad_size, pad_mode := FmtPadMode.FmtPadRight, pad_byte := t.pad_byte }
      hz fo hfo
    dsimp only at e1 e2 e3 e4 e5
    rw [pending_right fo (by rw [e3, e2]), e1, e2, e4, e5]
  · unfold fmt_format_pad at hfo
    simp only [hm] at hfo
    split at hfo
    · rename_i hp
      obtain ⟨e1, e2, e3, e4, e5⟩ := calc_eq t hz fo hfo
      rw [pending_left fo (by rw [e3, hp]), e1, e2, e4, e5]
    · cases hfo
  · unfold fmt_format_pad at hfo
    simp only [hm] at hfo
    obtain ⟨e1, e2, e3, e4, e5⟩ := calc_eq t hz fo hfo
    rw [pending, e1, e2, e3, e4, e5]

theorem placeholder_spec (s : FmtState) (p : ArgspecResult) (h : PlaceholderAt s p) :
    p.fmt <:+ s.fmt.tail ∧ SpecOk p.spec ∧ (p.arg_ix = -1 ∨ (0 ≤ p.arg_ix ∧ p.arg_ix ≤ 8)) := by
  obtain ⟨r, er, h1, h2, h3⟩ := fmt_parse_argspec_ok s.fmt h.2.2.1
  rw [h.2.2.2] at er
  cases er
  exact ⟨h1, h2, h3⟩

theorem placeholder_arg_ok (hook : FmtHook) (s : FmtState) (p : ArgspecResult)
    (hok : StateOk hook s) (h : PlaceholderAt s p)
    (hix : fmt_actual_arg_ix p.arg_ix s.next_arg_ix < s.arg_count) :
    ArgOk hook (placeholder_arg s p) := by
  have h3 := (placeholder_spec s p h).2.2
  have hn := hok.2.1
  apply hok.1 _ _ hix
  unfold fmt_actual_arg_ix
  split <;> omega

theorem fmt_format_int_plain (format : Char) (dec : List Char × Nat) (uval : Nat)
    (fo0 t : FmtFormatOutput) (ht : fmt_format_int format dec uval fo0 = .ok t) :
    t.pad_pos = fo0.pad_pos ∧ t.pad_size = fo0.pad_size ∧ t.pad_mode = fo0.pad_mode ∧
      t.pad_byte = fo0.pad_byte := by
  unfold fmt_format_int at ht
  split at ht
  · cases ht
    exact ⟨rfl, rfl, rfl, rfl⟩
  · split at ht
    · cases ht
      exact ⟨rfl, rfl, rfl, rfl⟩
    · split at ht
      · cases ht
        exact ⟨rfl, rfl, rfl, rfl⟩
      · split at ht
        · cases ht
          exact ⟨rfl, rfl, rfl, rfl⟩
        · cases ht

/-- When the argument is not rendered as a pointer and is of a builtin kind (or the hook
declines it), the text half of `fmt_format_arg` assigns only `text` and `text_size`. -/
theorem fmt_format_text_plain (hook : FmtHook) (arg : FmtArg) (d : FmtStorage)
    (spec : FmtSpec) (userdata : Nat) (fo0 t : FmtFormatOutput)
    (hnp : ¬(spec.format = 'p' ∨ arg.type = FmtArgVoidPtr))
    (hty : isBuiltin arg.type ∨ ∀ spec userdata fo, hook arg spec userdata fo = (false, fo))
    (ht : fmt_format_text hook arg d spec userdata fo0 = .ok t) :
    t.pad_pos = fo0.pad_pos ∧ t.pad_size = fo0.pad_size ∧ t.pad_mode = fo0.pad_mode ∧
      t.pad_byte = fo0.pad_byte := by
  unfold fmt_format_text at ht
  simp only [FMT__CHAR_IS_SIGNED, if_true] at ht
  rw [if_neg hnp] at ht
  split at ht
  · exact fmt_format_int_plain _ _ _ _ _ ht
  · split at ht
    · exact fmt_format_int_plain _ _ _ _ _ ht
    · split at ht
      · cases ht
        exact ⟨rfl, rfl, rfl, rfl⟩
      · split at ht
        · split at ht
          · cases ht
          · cases ht
            exact ⟨rfl, rfl, rfl, rfl⟩
        · rename_i h1 h2 h3 h4
          rcases hty with hb | hh
          · exfalso
            simp only [not_or] at h1 h2 hnp
            rcases hb with h | h | h | h | h | h | h | h | h | h | h | h
            · exact h1.1 h
            · exact h1.2.1 h
            · exact h1.2.2.1 h
            · exact h1.2.2.2.1 h
            · exact h2.1 h
            · exact h2.2.1 h
            · exact h2.2.2.1 h
            · exact h2.2.2.2.1 h
            · exact h1.2.2.2.2 h
            · exact h3 h
            · exact h4 h
            · exact hnp.2 h
          · rw [hh] at ht
            simp only [Bool.false_eq_true, if_false] at ht
            cases ht
            exact ⟨rfl, rfl, rfl, rfl⟩

theorem argspec_format_pad_byte (v : ArgspecVars)
    (h : v.spec.pad_byte = ' ' ∨ v.spec.pad_byte = '0') :
    (argspec_format v).spec.pad_byte = ' ' ∨ (argspec_format v).spec.pad_byte = '0' := by
  have hminus : ∀ u : ArgspecVars, (argspec_minus u).spec.pad_byte = u.spec.pad_byte := by
    intro u
    unfold argspec_minus
    split <;> rfl
  have hzero : ∀ u : ArgspecVars, (u.spec.pad_byte = ' ' ∨ u.spec.pad_byte = '0') →
      ((argspec_zero u).spec.pad_byte = ' ' ∨ (argspec_zero u).spec.pad_byte = '0') := by
    intro u hu
    unfold argspec_zero
    split
    · exact Or.inr rfl
    · exact hu
  have hwidth : ∀ u : ArgspecVars, (argspec_width u).spec.pad_byte = u.spec.pad_byte := by
    intro u
    unfold argspec_width
    split
    · dsimp only
      split <;> rfl
    · rfl
  have hmode : ∀ u : ArgspecVars, (argspec_mode u).spec.pad_byte = u.spec.pad_byte := by
    intro u
    unfold argspec_mode
    split <;> rfl
  unfold argspec_format
  split
  · exact h
  · split
    · rw [hmode, hwidth]
      apply hzero
      rw [hminus]
      exact h
    · split
      · exact h
      · split
        · exact h
        · exact h

theorem argspec_custom_pad_byte (v : ArgspecVars) :
    (argspec_custom v).spec.pad_byte = v.spec.pad_byte := by
  unfold argspec_custom
  split
  · rfl
  · split
    · rfl
    · split <;> rfl

theorem argspec_close_pad_byte (v : ArgspecVars) :
    (argspec_close v).spec.pad_byte = v.spec.pad_byte := by
  unfold argspec_close
  split
  · rfl
  · split <;> rfl

theorem argspec_index_spec (v v1 : ArgspecVars) (h : argspec_index v = .ok v1) :
    v1.spec = v.spec := by
  unfold argspec_index at h
  split at h
  · cases h
    rfl
  · split at h
    · cases h
    · split at h
      · cases h
        rfl
      · split at h
        · cases h
          rfl
        · split at h
          · cases h
            rfl
          · cases h
            rfl

/-- The pad byte the parser hands out is a blank or `0`. -/
theorem fmt_parse_argspec_pad_byte (fmt : List Char) (p : ArgspecResult)
    (h : fmt_parse_argspec fmt = .ok p) : p.spec.pad_byte = ' ' ∨ p.spec.pad_byte = '0' := by
  unfold fmt_parse_argspec at h
  split at h
  · cases h
  · rename_i v1 e1
    have hv1 : v1.spec.pad_byte = ' ' := by
      rw [argspec_index_spec _ v1 e1]
    dsimp only at h
    split at h
    · cases h
      dsimp only
      rw [argspec_close_pad_byte, argspec_custom_pad_byte]
      exact argspec_format_pad_byte v1 (Or.inl hv1)
    · cases h

theorem fmt_arg_ptr_lt (d : FmtStorage) : fmt_arg_ptr d < 2 ^ 64 :=
  Nat.mod_lt _ (by norm_num)

theorem argspec_flags_of_colon (u : ArgspecVars)
    (hm : u.spec.pad_mode = FmtPadMode.FmtPadLeft) (hb : u.spec.pad_byte = ' ') :
    ((argspec_mode (argspec_width (argspec_zero (argspec_minus u)))).spec.pad_mode =
        FmtPadMode.FmtPadRight ↔ peek u.fmt = '-') ∧
      ((argspec_mode (argspec_width (argspec_zero (argspec_minus u)))).spec.pad_byte = '0' ↔
        peek (if peek u.fmt = '-' then u.fmt.tail else u.fmt) = '0') := by
  have hwidth : ∀ w : ArgspecVars, (argspec_width w).spec.pad_byte = w.spec.pad_byte ∧
      (argspec_width w).spec.pad_mode = w.spec.pad_mode := by
    intro w
    unfold argspec_width
    split
    · dsimp only
      split
      · exact ⟨rfl, rfl⟩
      · exact ⟨rfl, rfl⟩
    · exact ⟨rfl, rfl⟩
  have hmode : ∀ w : ArgspecVars, (argspec_mode w).spec.pad_byte = w.spec.pad_byte ∧
      (argspec_mode w).spec.pad_mode = w.spec.pad_mode := by
    intro w
    unfold argspec_mode
    split
    · exact ⟨rfl, rfl⟩
    · exact ⟨rfl, rfl⟩
  have hzero : ∀ w : ArgspecVars, w.spec.pad_byte = ' ' →
      ((argspec_zero w).spec.pad_byte = '0' ↔ peek w.fmt = '0') ∧
        (argspec_zero w).spec.pad_mode = w.spec.pad_mode := by
    intro w hw
    unfold argspec_zero
    split
    · rename_i h
      exact ⟨⟨fun _ => h, fun _ => rfl⟩, rfl⟩
    · rename_i h
      refine ⟨⟨fun h1 => ?_, fun h1 => absurd h1 h⟩, rfl⟩
      rw [hw] at h1
      exact absurd h1 (by decide)
  have hminus : (argspec_minus u).spec.pad_byte = ' ' ∧
      ((argspec_minus u).spec.pad_mode = FmtPadMode.FmtPadRight ↔ peek u.fmt = '-') ∧
      (argspec_minus u).fmt = (if peek u.fmt = '-' then u.fmt.tail else u.fmt) := by
    unfold argspec_minus
    split
    · rename_i h
      exact ⟨hb, ⟨fun _ => h, fun _ => rfl⟩, rfl⟩
    · rename_i h
      refine ⟨hb, ⟨fun h1 => ?_, fun h1 => absurd h1 h⟩, rfl⟩
      rw [hm] at h1
      cases h1
  obtain ⟨m1, m2, m3⟩ := hminus
  obtain ⟨z1, z2⟩ := hzero (argspec_minus u) m1
  constructor
  · rw [(hmode _).2, (hwidth _).2, z2]
    exact m2
  · rw [(hmode _).1, (hwidth _).1, z1, m3]

theorem argspec_custom_pad_mode (v : ArgspecVars) :
    (argspec_custom v).spec.pad_mode = v.spec.pad_mode := by
  unfold argspec_custom
  split
  · rfl
  · split
    · rfl
    · split <;> rfl

theorem argspec_close_pad_mode (v : ArgspecVars) :
    (argspec_close v).spec.pad_mode = v.spec.pad_mode := by
  unfold argspec_close
  split
  · rfl
  · split <;> rfl

/-- What the first `switch` leaves: the fresh spec, and either the cursor behind the index
digit (or where it was, without one), or a finished parse at a character that is no colon. -/
theorem argspec_index_cursor (v v1 : ArgspecVars) (hd : v.done = false)
    (h : argspec_index v = .ok v1) :
    v1.spec = v.spec ∧
      (v1.done = false →
        v1.fmt = (if '0' ≤ peek v.fmt ∧ peek v.fmt ≤ '8' then v.fmt.tail else v.fmt)) ∧
      (v1.done = true →
        peek (if '0' ≤ peek v.fmt ∧ peek v.fmt ≤ '8' then v.fmt.tail else v.fmt) ≠ ':') := by
  unfold argspec_index at h
  rw [hd] at h
  simp only [Bool.false_eq_true, if_false] at h
  split at h
  · cases h
  · split at h
    · rename_i hdig
      cases h
      refine ⟨rfl, fun _ => ?_, fun h2 => ?_⟩
      · rw [if_pos hdig]
      · simp at h2
    · rename_i hdig
      rw [if_neg hdig]
      split at h
      · rename_i hc
        cases h
        refine ⟨rfl, fun h2 => (by simp at h2), fun _ => ?_⟩
        rw [hc]
        decide
      · split at h
        · cases h
          exact ⟨rfl, fun _ => rfl, fun h2 => (by rw [hd] at h2; cases h2)⟩
        · rename_i hc
          cases h
          refine ⟨rfl, fun h2 => (by simp at h2), fun _ => ?_⟩
          intro h3
          exact hc (Or.inl h3)

/-- The pad side and pad byte of a parsed placeholder in terms of its text: the pad mode is
right exactly when the flag `-` stands behind the colon, and the pad byte is `0` exactly
when the flag `0` stands there (behind the `-`, if any), and a blank otherwise. -/
theorem fmt_parse_argspec_flags (fmt : List Char) (p : ArgspecResult)
    (h : fmt_parse_argspec fmt = .ok p) :
    (p.spec.pad_mode = FmtPadMode.FmtPadRight ↔ has_minus_flag fmt) ∧
      (p.spec.pad_byte = '0' ↔ has_zero_flag fmt) := by
  unfold fmt_parse_argspec at h
  split at h
  · cases h
  · rename_i v1 e1
    obtain ⟨hs, hc1, hc2⟩ := argspec_index_cursor _ v1 rfl e1
    dsimp only at hs hc1 hc2
    have hm1 : v1.spec.pad_mode = FmtPadMode.FmtPadLeft := by rw [hs]
    have hb1 : v1.spec.pad_byte = ' ' := by rw [hs]
    dsimp only at h
    split at h
    swap
    · cases h
    cases h
    dsimp only
    rw [argspec_close_pad_mode, argspec_custom_pad_mode, argspec_close_pad_byte,
      argspec_custom_pad_byte]
    unfold has_minus_flag has_zero_flag placeholder_flags
    have hnil1 : ¬(FmtPadMode.FmtPadLeft = FmtPadMode.FmtPadRight) := by decide
    have hnil2 : ¬((' ' : Char) = '0') := by decide
    have hnil3 : ¬(peek ([] : List Char) = '-') := by decide
    have hnil4 : ¬(peek ([] : List Char) = '0') := by decide
    unfold argspec_format
    by_cases hdone : v1.done = true
    · rw [if_pos hdone, if_neg (hc2 hdone), hm1, hb1, if_neg hnil3]
      exact ⟨⟨fun h => absurd h hnil1, fun h => absurd h hnil3⟩,
        ⟨fun h => absurd h hnil2, fun h => absurd h hnil4⟩⟩
    · rw [if_neg hdone]
      have hf := hc1 (by simpa using hdone)
      rw [← hf]
      by_cases hcol : peek v1.fmt = ':'
      · rw [if_pos hcol, if_pos hcol]
        exact argspec_flags_of_colon { v1 with fmt := v1.fmt.tail } hm1 hb1
      · rw [if_neg hcol, if_neg hcol, if_neg hnil3]
        have hrest : ∀ w : ArgspecVars,
            w = (if peek v1.fmt = '\x7d' then { v1 with done := true, fmt := v1.fmt.tail }
              else if peek v1.fmt = '|' then v1
              else { v1 with done := true, invalid := true }) →
            w.spec = v1.spec := by
          intro w hw
          rw [hw]
          split
          · rfl
          · split <;> rfl
        rw [hrest _ rfl, hm1, hb1]
        exact ⟨⟨fun h => absurd h hnil1, fun h => absurd h hnil3⟩,
          ⟨fun h => absurd h hnil2, fun h => absurd h hnil4⟩⟩

theorem auto_rank_zero (w : List (List Char × Int × ArgspecResult)) : auto_rank w 0 = 0 := rfl

theorem auto_rank_cons (x : List Char × Int × ArgspecResult)
    (w : List (List Char × Int × ArgspecResult)) (j : Nat) :
    (auto_rank (x :: w) (j + 1) : Int) =
      (if x.2.2.success then fmt_bump_arg_ix x.2.2.arg_ix 0 else 0) + auto_rank w j := by
  unfold auto_rank fmt_bump_arg_ix
  rw [List.take_succ_cons, List.filter_cons]
  by_cases hs : x.2.2.success = true
  · by_cases hi : x.2.2.arg_ix = -1
    · simp only [hs, hi, decide_True, Bool.and_self, if_true, List.length_cons]
      push_cast
      omega
    · simp only [hs, hi, decide_False, Bool.and_false, if_true, if_false, Bool.false_eq_true]
      omega
  · simp only [hs, Bool.false_and, if_false, Bool.false_eq_true]
    omega

/-- Every entry of a walk from a state of the machine is a placeholder of a state of the
machine: the counter recorded there is the counter at the start plus the number of
well-formed index-less placeholders before, and the output from the start is some text
followed by the output from there. -/
theorem fmt_walk_inv (hook : FmtHook) :
    ∀ (k : Nat) (s : FmtState), StateOk hook s → s.action = FmtAction.FmtActionParsing →
      ∀ (j : Nat) (e : List Char × Int × ArgspecResult),
        (fmt_walk k s.fmt s.next_arg_ix)[j]? = some e →
        StateOk hook { s with fmt := e.1, next_arg_ix := e.2.1 } ∧
          PlaceholderAt { s with fmt := e.1, next_arg_ix := e.2.1 } e.2.2 ∧
          e.2.1 = s.next_arg_ix + auto_rank (fmt_walk k s.fmt s.next_arg_ix) j ∧
          ∃ pre, remaining hook s =
            pre ++ remaining hook { s with fmt := e.1, next_arg_ix := e.2.1 } := by
  intro k
  induction k with
  | zero =>
    intro s _ _ j e he
    simp [fmt_walk] at he
  | succ k ih =>
    intro s hok hp j e he
    obtain ⟨args, arg_count, fmt_at_init, fmt, userdata, size, next_arg_ix, action,
      format_output, text_buf⟩ := s
    dsimp only at hp he ⊢
    subst hp
    unfold fmt_walk at he ⊢
    by_cases h0 : peek fmt = '\x00'
    · rw [if_pos h0] at he
      simp at he
    · rw [if_neg h0] at he ⊢
      by_cases hl : peek fmt ≠ '\x7b' ∨ (peek fmt = '\x7b' ∧ peek fmt.tail = '\x7b')
      · rw [if_pos hl] at he ⊢
        have hok1 : StateOk hook ⟨args, arg_count, fmt_at_init, fmt_skip_literal fmt,
            userdata, size, next_arg_ix, FmtAction.FmtActionParsing, format_output,
            text_buf⟩ := ⟨hok.1, hok.2.1, fun hc => by cases hc⟩
        obtain ⟨a1, a2, a3, pre, a4⟩ := ih _ hok1 rfl j e he
        refine ⟨a1, a2, a3, peek fmt :: pre, ?_⟩
        have l1 := (literal_step hook ⟨args, arg_count, fmt_at_init, fmt, userdata, size,
          next_arg_ix, FmtAction.FmtActionParsing, format_output, text_buf⟩ hok rfl h0 hl).2
        rw [fmt_all_eq hook _ hok] at l1
        have l2 := Except.ok.inj l1
        rw [l2]
        exact congrArg (List.cons (peek fmt)) a4
      · rw [if_neg hl] at he ⊢
        have hb : peek fmt = '\x7b' := by
          by_contra hc
          exact hl (Or.inl hc)
        have hb2 : peek fmt.tail ≠ '\x7b' := by
          intro hc
          exact hl (Or.inr ⟨hb, hc⟩)
        obtain ⟨p, hpe, _⟩ := fmt_parse_argspec_ok fmt hb2
        rw [hpe] at he ⊢
        dsimp only at he ⊢
        have hat : PlaceholderAt ⟨args, arg_count, fmt_at_init, fmt, userdata, size,
            next_arg_ix, FmtAction.FmtActionParsing, format_output, text_buf⟩ p :=
          ⟨rfl, hb, hb2, hpe⟩
        cases j with
        | zero =>
          rw [List.getElem?_cons_zero] at he
          cases he
          refine ⟨hok, hat, ?_, [], rfl⟩
          rw [auto_rank_zero]
          simp
        | succ j =>
          rw [List.getElem?_cons_succ] at he
          have hnext : (0 : Int) ≤
              (if p.success then fmt_bump_arg_ix p.arg_ix next_arg_ix else next_arg_ix) := by
            have := hok.2.1
            dsimp only at this
            unfold fmt_bump_arg_ix
            split
            · split <;> omega
            · exact this
          have hok1 : StateOk hook ⟨args, arg_count, fmt_at_init, p.fmt, userdata, size,
              (if p.success then fmt_bump_arg_ix p.arg_ix next_arg_ix else next_arg_ix),
              FmtAction.FmtActionParsing, format_output, text_buf⟩ :=
            ⟨hok.1, hnext, fun hc => by cases hc⟩
          obtain ⟨a1, a2, a3, pre, a4⟩ := ih _ hok1 rfl j e he
          obtain ⟨r, _, _, _, s4⟩ := placeholder_step hook _ p hok hat
          rw [fmt_all_eq hook _ hok] at s4
          have s5 := Except.ok.inj s4
          refine ⟨a1, a2, ?_, pending r.2.2 ++ pre, ?_⟩
          · rw [a3, auto_rank_cons]
            dsimp only
            unfold fmt_bump_arg_ix
            split
            · split <;> omega
            · omega
          · rw [s5, List.append_assoc]
            exact congrArg (List.append (pending r.2.2)) a4

theorem peek_tail_eq {l : List Char} (h : peek l ≠ '\x00') : l = peek l :: l.tail := by
  cases l with
  | nil => exact absurd rfl h
  | cons c cs => rfl

theorem isDigit_ne_nul {c : Char} (h : c.isDigit = true) : c ≠ '\x00' := by
  intro hc
  rw [hc] at h
  exact absurd h (by decide)

theorem index_digit_ne_nul {c hi : Char} (h : '0' ≤ c ∧ c ≤ hi) : c ≠ '\x00' := by
  intro hc
  rw [hc] at h
  exact absurd h.1 (by decide)

theorem argspec_minus_sound (v : ArgspecVars) :
    ∃ m, (m = [] ∨ m = ['-']) ∧ v.fmt = m ++ (argspec_minus v).fmt ∧
      (argspec_minus v).done = v.done ∧ (argspec_minus v).invalid = v.invalid := by
  unfold argspec_minus
  split
  · rename_i h
    refine ⟨['-'], Or.inr rfl, ?_, rfl, rfl⟩
    have := peek_tail_eq (l := v.fmt) (by rw [h]; decide)
    rw [h] at this
    exact this
  · exact ⟨[], Or.inl rfl, rfl, rfl, rfl⟩

theorem argspec_zero_sound (v : ArgspecVars) :
    ∃ z, (z = [] ∨ z = ['0']) ∧ v.fmt = z ++ (argspec_zero v).fmt ∧
      (argspec_zero v).done = v.done ∧ (argspec_zero v).invalid = v.invalid := by
  unfold argspec_zero
  split
  · rename_i h
    refine ⟨['0'], Or.inr rfl, ?_, rfl, rfl⟩
    have := peek_tail_eq (l := v.fmt) (by rw [h]; decide)
    rw [h] at this
    exact this
  · exact ⟨[], Or.inl rfl, rfl, rfl, rfl⟩

theorem argspec_width_sound (v : ArgspecVars) :
    ∃ w, (w.length ≤ 2 ∧ ∀ d ∈ w, d.isDigit = true) ∧ v.fmt = w ++ (argspec_width v).fmt ∧
      (argspec_width v).done = v.done ∧ (argspec_width v).invalid = v.invalid := by
  unfold argspec_width
  split
  · rename_i h1
    have e1 := peek_tail_eq (isDigit_ne_nul h1)
    dsimp only
    split
    · rename_i h2
      have e2 := peek_tail_eq (isDigit_ne_nul h2)
      refine ⟨[peek v.fmt, peek v.fmt.tail], ⟨by simp, ?_⟩, ?_, rfl, rfl⟩
      · intro d hd
        simp only [List.mem_cons, List.mem_singleton, List.not_mem_nil, or_false] at hd
        rcases hd with hd | hd
        · rw [hd]
          exact h1
        · rw [hd]
          exact h2
      · dsimp only
        calc v.fmt = peek v.fmt :: v.fmt.tail := e1
          _ = peek v.fmt :: (peek v.fmt.tail :: v.fmt.tail.tail) := by rw [← e2]
    · refine ⟨[peek v.fmt], ⟨by simp, ?_⟩, e1, rfl, rfl⟩
      intro d hd
      simp only [List.mem_singleton] at hd
      rw [hd]
      exact h1
  · exact ⟨[], ⟨by simp, by simp⟩, rfl, rfl, rfl⟩

theorem argspec_mode_sound (v : ArgspecVars) :
    ∃ c, (c = [] ∨ c = ['x'] ∨ c = ['b'] ∨ c = ['c'] ∨ c = ['p']) ∧
      v.fmt = c ++ (argspec_mode v).fmt ∧
      (argspec_mode v).done = v.done ∧ (argspec_mode v).invalid = v.invalid := by
  unfold argspec_mode
  split
  · rename_i h
    have hn : peek v.fmt ≠ '\x00' := by
      rcases h with h | h | h | h <;> rw [h] <;> decide
    refine ⟨[peek v.fmt], ?_, peek_tail_eq hn, rfl, rfl⟩
    rcases h with h | h | h | h <;> rw [h] <;> simp
  · exact ⟨[], Or.inl rfl, rfl, rfl, rfl⟩

theorem format_part_glue {f t A B C D m z w c : List Char} (e0 : f = ':' :: t)
    (em : t = m ++ A) (ez : A = z ++ B) (ew : B = w ++ C) (ec : C = c ++ D) :
    f = ':' :: (m ++ (z ++ (w ++ c))) ++ D := by
  subst ec ew ez em e0
  simp

theorem argspec_format_sound (v : ArgspecVars) (hd : v.done = false) :
    (argspec_format v).invalid = false →
      v.invalid = false ∧
        ∃ fp, IsFormatPart fp ∧
          (((argspec_format v).done = false ∧ v.fmt = fp ++ (argspec_format v).fmt) ∨
            ((argspec_format v).done = true ∧
              v.fmt = fp ++ '\x7d' :: (argspec_format v).fmt)) := by
  obtain ⟨f, d, i, a, sp⟩ := v
  dsimp only at hd
  subst hd
  unfold argspec_format
  simp only [Bool.false_eq_true, if_false]
  split
  · rename_i hc
    intro hi
    obtain ⟨m, hm, em, dm, im⟩ := argspec_minus_sound ⟨f.tail, false, i, a, sp⟩
    obtain ⟨z, hz, ez, dz, iz⟩ := argspec_zero_sound (argspec_minus ⟨f.tail, false, i, a, sp⟩)
    obtain ⟨w, hw, ew, dw, iw⟩ := argspec_width_sound
      (argspec_zero (argspec_minus ⟨f.tail, false, i, a, sp⟩))
    obtain ⟨c, hcm, ec, dc, ic⟩ := argspec_mode_sound
      (argspec_width (argspec_zero (argspec_minus ⟨f.tail, false, i, a, sp⟩)))
    rw [ic, iw, iz, im] at hi
    refine ⟨hi, ':' :: (m ++ (z ++ (w ++ c))), Or.inr ⟨m, z, w, c, rfl, hm, hz, hw, hcm⟩,
      Or.inl ⟨?_, ?_⟩⟩
    · rw [dc, dw, dz, dm]
    · have e0 := peek_tail_eq (l := f) (by rw [hc]; decide)
      rw [hc] at e0
      exact format_part_glue e0 em ez ew ec
  · split
    · rename_i hc
      intro hi
      refine ⟨hi, [], Or.inl rfl, Or.inr ⟨rfl, ?_⟩⟩
      have e0 := peek_tail_eq (l := f) (by rw [hc]; decide)
      rw [hc] at e0
      exact e0
    · split
      · intro hi
        exact ⟨hi, [], Or.inl rfl, Or.inl ⟨rfl, rfl⟩⟩
      · intro hi
        cases hi

theorem argspec_index_sound (v v1 : ArgspecVars) (hd : v.done = false)
    (h : argspec_index v = .ok v1) :
    v1.invalid = false →
      v.invalid = false ∧
        ∃ ix, IsIndexPart '8' ix ∧
          ((v1.done = false ∧ v.fmt = ix ++ v1.fmt) ∨
            (v1.done = true ∧ v.fmt = ix ++ '\x7d' :: v1.fmt)) := by
  unfold argspec_index at h
  rw [hd] at h
  simp only [Bool.false_eq_true, if_false] at h
  split at h
  · cases h
  · split at h
    · rename_i hdig
      cases h
      intro hi
      exact ⟨hi, [peek v.fmt], Or.inr ⟨_, rfl, hdig⟩,
        Or.inl ⟨rfl, peek_tail_eq (index_digit_ne_nul hdig)⟩⟩
    · split at h
      · rename_i hc
        cases h
        intro hi
        refine ⟨hi, [], Or.inl rfl, Or.inr ⟨rfl, ?_⟩⟩
        have e0 := peek_tail_eq (l := v.fmt) (by rw [hc]; decide)
        rw [hc] at e0
        exact e0
      · split at h
        · cases h
          intro hi
          exact ⟨hi, [], Or.inl rfl, Or.inl ⟨hd, rfl⟩⟩
        · cases h
          intro hi
          cases hi

theorem argspec_scan_custom_sound (l : List Char) (n : Nat) :
    ∃ payload, (∀ x ∈ payload, x ≠ '\x7d' ∧ x ≠ '\x00') ∧
      l = payload ++ (argspec_scan_custom l n).1 ∧
      (argspec_scan_custom l n).2 = n + payload.length ∧
      (peek (argspec_scan_custom l n).1 = '\x7d' ∨ peek (argspec_scan_custom l n).1 = '\x00') := by
  induction l generalizing n with
  | nil => exact ⟨[], by simp, rfl, rfl, Or.inr rfl⟩
  | cons c cs ih =>
    simp only [argspec_scan_custom]
    split
    · rename_i hc
      obtain ⟨pl, h1, h2, h3, h4⟩ := ih (n + 1)
      refine ⟨c :: pl, ?_, ?_, ?_, h4⟩
      · intro x hx
        simp only [List.mem_cons] at hx
        rcases hx with hx | hx
        · rw [hx]
          exact ⟨hc.2, hc.1⟩
        · exact h1 x hx
      · simp only [List.cons_append]
        rw [← h2]
      · rw [h3]
        simp only [List.length_cons]
        omega
    · rename_i hc
      refine ⟨[], by simp, rfl, rfl, ?_⟩
      simp only [peek, List.headD_cons]
      by_cases h0 : c = '\x00'
      · exact Or.inr h0
      · by_cases h1 : c = '\x7d'
        · exact Or.inl h1
        · exact absurd ⟨h0, h1⟩ hc

theorem argspec_custom_sound (v : ArgspecVars) (hd : v.done = false) :
    (argspec_custom v).invalid = false →
      v.invalid = false ∧
        ∃ cu, IsCustomPart cu ∧
          (((argspec_custom v).done = false ∧ v.fmt = cu ++ (argspec_custom v).fmt) ∨
            ((argspec_custom v).done = true ∧
              v.fmt = cu ++ '\x7d' :: (argspec_custom v).fmt)) := by
  unfold argspec_custom
  rw [hd]
  simp only [Bool.false_eq_true, if_false]
  split
  · rename_i hc
    intro hi
    obtain ⟨pl, h1, h2, _, _⟩ := argspec_scan_custom_sound v.fmt.tail v.spec.custom_len
    refine ⟨hi, '|' :: pl, Or.inr ⟨pl, rfl, h1⟩, Or.inl ⟨rfl, ?_⟩⟩
    have e0 := peek_tail_eq (l := v.fmt) (by rw [hc]; decide)
    rw [hc] at e0
    dsimp only
    simp only [List.cons_append]
    rw [← h2]
    exact e0
  · split
    · rename_i hc
      intro hi
      refine ⟨hi, [], Or.inl rfl, Or.inr ⟨rfl, ?_⟩⟩
      have e0 := peek_tail_eq (l := v.fmt) (by rw [hc]; decide)
      rw [hc] at e0
      exact e0
    · intro hi
      cases hi

theorem argspec_close_sound (v : ArgspecVars) (hd : v.done = false) :
    (argspec_close v).invalid = false →
      v.invalid = false ∧ (argspec_close v).done = true ∧
        v.fmt = '\x7d' :: (argspec_close v).fmt := by
  unfold argspec_close
  rw [hd]
  simp only [Bool.false_eq_true, if_false]
  split
  · rename_i hc
    intro hi
    refine ⟨hi, rfl, ?_⟩
    have e0 := peek_tail_eq (l := v.fmt) (by rw [hc]; decide)
    rw [hc] at e0
    exact e0
  · intro hi
    cases hi

theorem consumed_format (P : List Char → Prop) (t : List Char) (v : ArgspecVars)
    (h : Consumed P t v) :
    Consumed (fun b => ∃ b1 x, b = b1 ++ x ∧ P b1 ∧ IsFormatPart x) t (argspec_format v) := by
  intro hi
  by_cases hd : v.done = true
  · have e : argspec_format v = v := by
      unfold argspec_format
      rw [if_pos hd]
    rw [e] at hi ⊢
    obtain ⟨body, hb, hc⟩ := h hi
    exact ⟨body, ⟨body, [], by simp, hb, Or.inl rfl⟩, hc⟩
  · have hd2 : v.done = false := by simpa using hd
    obtain ⟨hi0, fp, hfp, hc⟩ := argspec_format_sound v hd2 hi
    obtain ⟨body, hb, hc0⟩ := h hi0
    rcases hc0 with ⟨_, e0⟩ | ⟨hdd, _⟩
    · refine ⟨body ++ fp, ⟨body, fp, rfl, hb, hfp⟩, ?_⟩
      rcases hc with ⟨d1, e1⟩ | ⟨d1, e1⟩
      · exact Or.inl ⟨d1, by rw [e0, e1, List.append_assoc]⟩
      · exact Or.inr ⟨d1, by rw [e0, e1, List.append_assoc]⟩
    · rw [hd2] at hdd
      cases hdd

theorem consumed_custom (P : List Char → Prop) (t : List Char) (v : ArgspecVars)
    (h : Consumed P t v) :
    Consumed (fun b => ∃ b1 x, b = b1 ++ x ∧ P b1 ∧ IsCustomPart x) t (argspec_custom v) := by
  intro hi
  by_cases hd : v.done = true
  · have e : argspec_custom v = v := by
      unfold argspec_custom
      rw [if_pos hd]
    rw [e] at hi ⊢
    obtain ⟨body, hb, hc⟩ := h hi
    exact ⟨body, ⟨body, [], by simp, hb, Or.inl rfl⟩, hc⟩
  · have hd2 : v.done = false := by simpa using hd
    obtain ⟨hi0, cu, hcu, hc⟩ := argspec_custom_sound v hd2 hi
    obtain ⟨body, hb, hc0⟩ := h hi0
    rcases hc0 with ⟨_, e0⟩ | ⟨hdd, _⟩
    · refine ⟨body ++ cu, ⟨body, cu, rfl, hb, hcu⟩, ?_⟩
      rcases hc with ⟨d1, e1⟩ | ⟨d1, e1⟩
      · exact Or.inl ⟨d1, by rw [e0, e1, List.append_assoc]⟩
      · exact Or.inr ⟨d1, by rw [e0, e1, List.append_assoc]⟩
    · rw [hd2] at hdd
      cases hdd

theorem consumed_close (P : List Char → Prop) (t : List Char) (v : ArgspecVars)
    (h : Consumed P t v) (hi : (argspec_close v).invalid = false) :
    ∃ body, P body ∧ t = body ++ '\x7d' :: (argspec_close v).fmt := by
  by_cases hd : v.done = true
  · have e : argspec_close v = v := by
      unfold argspec_close
      rw [if_pos hd]
    rw [e] at hi ⊢
    obtain ⟨body, hb, hc⟩ := h hi
    rcases hc with ⟨d1, _⟩ | ⟨_, e1⟩
    · rw [hd] at d1
      cases d1
    · exact ⟨body, hb, e1⟩
  · have hd2 : v.done = false := by simpa using hd
    obtain ⟨hi0, _, e1⟩ := argspec_close_sound v hd2 hi
    obtain ⟨body, hb, hc0⟩ := h hi0
    rcases hc0 with ⟨_, e0⟩ | ⟨hdd, _⟩
    · exact ⟨body, hb, by rw [e0, e1]⟩
    · rw [hd2] at hdd
      cases hdd

/-- Soundness of the parser: a placeholder that `fmt_parse_argspec` accepts fits the
grammar with an index digit from `0` to `8`, and the cursor is left behind its closing
brace. -/
theorem fmt_parse_argspec_sound (t : List Char) (p : ArgspecResult)
    (h : fmt_parse_argspec ('\x7b' :: t) = .ok p) (hs : p.success = true) :
    IsPlaceholder '8' ('\x7b' :: t) p.fmt := by
  unfold fmt_parse_argspec at h
  split at h
  · cases h
  · rename_i v1 e1
    dsimp only at h
    split at h
    swap
    · cases h
    cases h
    dsimp only at hs ⊢
    have hi : (argspec_close (argspec_custom (argspec_format v1))).invalid = false := by
      simpa using hs
    have c1 : Consumed (IsIndexPart '8') t v1 := by
      intro hi1
      obtain ⟨_, ix, hix, hc⟩ := argspec_index_sound _ v1 rfl e1 hi1
      exact ⟨ix, hix, hc⟩
    obtain ⟨body, ⟨b2, cu, eb, ⟨ix, fp, eb2, hix, hfp⟩, hcu⟩, et⟩ :=
      consumed_close _ t _ (consumed_custom _ t _ (consumed_format _ t v1 c1)) hi
    refine ⟨ix, fp, cu, hix, hfp, hcu, ?_⟩
    rw [et, eb, eb2]
    simp only [List.append_assoc]

theorem argspec_index_complete (v : ArgspecVars) (ix Z : List Char) (hd : v.done = false)
    (hix : IsIndexPart '8' ix)
    (hZ : peek Z = ':' ∨ peek Z = '|' ∨ peek Z = '\x7d') (hf : v.fmt = ix ++ Z) :
    ∃ v1, argspec_index v = .ok v1 ∧ v1.invalid = v.invalid ∧
      ((v1.done = false ∧ v1.fmt = Z) ∨ (v1.done = true ∧ Z = '\x7d' :: v1.fmt)) := by
  obtain ⟨f, d, i, a, sp⟩ := v
  dsimp only at hd hf
  subst hd
  unfold argspec_index
  simp only [Bool.false_eq_true, if_false]
  rcases hix with hix | ⟨c, hix, hc⟩
  · subst hix
    rw [List.nil_append] at hf
    subst hf
    rcases hZ with h | h | h
    · rw [h, if_neg (by decide), if_neg (by decide), if_neg (by decide), if_pos (by decide)]
      exact ⟨_, rfl, rfl, Or.inl ⟨rfl, rfl⟩⟩
    · rw [h, if_neg (by decide), if_neg (by decide), if_neg (by decide), if_pos (by decide)]
      exact ⟨_, rfl, rfl, Or.inl ⟨rfl, rfl⟩⟩
    · rw [h, if_neg (by decide), if_neg (by decide), if_pos (by decide)]
      refine ⟨_, rfl, rfl, Or.inr ⟨rfl, ?_⟩⟩
      have e0 := peek_tail_eq (l := f) (by rw [h]; decide)
      rw [h] at e0
      exact e0
  · subst hix
    subst hf
    have hp : peek ([c] ++ Z) = c := rfl
    have hne : c ≠ '\x7b' := by
      intro hcc
      rw [hcc] at hc
      exact absurd hc.2 (by decide)
    rw [hp, if_neg hne, if_pos hc]
    exact ⟨_, rfl, rfl, Or.inl ⟨rfl, rfl⟩⟩

theorem argspec_minus_complete (v : ArgspecVars) (m X : List Char)
    (hm : m = [] ∨ m = ['-']) (hX : peek X ≠ '-') (hf : v.fmt = m ++ X) :
    (argspec_minus v).fmt = X := by
  unfold argspec_minus
  rcases hm with hm | hm
  · subst hm
    rw [List.nil_append] at hf
    rw [if_neg (by rw [hf]; exact hX), hf]
  · subst hm
    rw [if_pos (by rw [hf]; rfl)]
    dsimp only
    rw [hf]
    rfl

theorem argspec_width_complete (v : ArgspecVars) (w Y : List Char)
    (hw : w.length ≤ 2 ∧ ∀ d ∈ w, d.isDigit = true) (hY : (peek Y).isDigit = false)
    (hf : v.fmt = w ++ Y) : (argspec_width v).fmt = Y := by
  unfold argspec_width
  obtain ⟨hl, hdig⟩ := hw
  have hYn : ¬((peek Y).isDigit = true) := by
    rw [hY]
    decide
  cases w with
  | nil =>
    rw [List.nil_append] at hf
    rw [if_neg (by rw [hf]; exact hYn), hf]
  | cons d1 w1 =>
    have h1 : (peek v.fmt).isDigit = true := by
      rw [hf]
      exact hdig d1 (List.mem_cons_self _ _)
    rw [if_pos h1]
    dsimp only
    cases w1 with
    | nil =>
      have e : v.fmt.tail = Y := by
        rw [hf]
        rfl
      rw [if_neg (by rw [e]; exact hYn), e]
    | cons d2 w2 =>
      have hw2 : w2 = [] := by
        simp only [List.length_cons] at hl
        exact List.eq_nil_of_length_eq_zero (by omega)
      subst hw2
      have e : v.fmt.tail = d2 :: Y := by
        rw [hf]
        rfl
      have h2 : (peek v.fmt.tail).isDigit = true := by
        rw [e]
        exact hdig d2 (List.mem_cons_of_mem _ (List.mem_cons_self _ _))
      rw [if_pos h2]
      dsimp only
      rw [e]
      rfl

theorem argspec_zero_width_complete (v : ArgspecVars) (z w Y : List Char)
    (hz : z = [] ∨ z = ['0']) (hw : w.length ≤ 2 ∧ ∀ d ∈ w, d.isDigit = true)
    (hY : (peek Y).isDigit = false) (hf : v.fmt = z ++ (w ++ Y)) :
    (argspec_width (argspec_zero v)).fmt = Y := by
  have hzero_pos : peek v.fmt = '0' → (argspec_zero v).fmt = v.fmt.tail := by
    intro h
    unfold argspec_zero
    rw [if_pos h]
  have hzero_neg : peek v.fmt ≠ '0' → (argspec_zero v).fmt = v.fmt := by
    intro h
    unfold argspec_zero
    rw [if_neg h]
  rcases hz with hz | hz
  · subst hz
    rw [List.nil_append] at hf
    cases w with
    | nil =>
      rw [List.nil_append] at hf
      have hne : peek v.fmt ≠ '0' := by
        rw [hf]
        intro hc
        rw [hc] at hY
        exact absurd hY (by decide)
      exact argspec_width_complete _ [] Y ⟨by simp, by simp⟩ hY
        (by rw [hzero_neg hne, hf]; rfl)
    | cons d1 w1 =>
      by_cases h0 : d1 = '0'
      · have hp : peek v.fmt = '0' := by
          rw [hf, h0]
          rfl
        refine argspec_width_complete _ w1 Y ⟨?_, ?_⟩ hY ?_
        · have := hw.1
          simp only [List.length_cons] at this
          omega
        · intro d hd
          exact hw.2 d (List.mem_cons_of_mem _ hd)
        · rw [hzero_pos hp, hf]
          rfl
      · have hp : peek v.fmt ≠ '0' := by
          rw [hf]
          exact h0
        exact argspec_width_complete _ (d1 :: w1) Y hw hY (by rw [hzero_neg hp, hf])
  · subst hz
    have hp : peek v.fmt = '0' := by
      rw [hf]
      rfl
    exact argspec_width_complete _ w Y hw hY (by rw [hzero_pos hp, hf]; rfl)

theorem argspec_mode_complete (v : ArgspecVars) (c T : List Char)
    (hc : c = [] ∨ c = ['x'] ∨ c = ['b'] ∨ c = ['c'] ∨ c = ['p'])
    (hT : peek T = '|' ∨ peek T = '\x7d') (hf : v.fmt = c ++ T) :
    (argspec_mode v).fmt = T := by
  unfold argspec_mode
  rcases hc with hc | hc | hc | hc | hc
  · subst hc
    rw [List.nil_append] at hf
    have hn : ¬(peek v.fmt = 'x' ∨ peek v.fmt = 'b' ∨ peek v.fmt = 'c' ∨ peek v.fmt = 'p') := by
      rw [hf]
      rcases hT with h | h <;> rw [h] <;> decide
    rw [if_neg hn, hf]
  all_goals
    subst hc
    rw [if_pos (by rw [hf]; simp only [List.singleton_append, peek_cons]; decide)]
    dsimp only
    rw [hf]
    rfl

/-- What the characters behind the flags of a format part begin with. -/
theorem format_part_heads (z w c T : List Char) (hz : z = [] ∨ z = ['0'])
    (hw : ∀ d ∈ w, d.isDigit = true)
    (hc : c = [] ∨ c = ['x'] ∨ c = ['b'] ∨ c = ['c'] ∨ c = ['p'])
    (hT : peek T = '|' ∨ peek T = '\x7d') :
    (peek (c ++ T)).isDigit = false ∧ peek (z ++ (w ++ (c ++ T))) ≠ '-' := by
  have h1 : (peek (c ++ T)).isDigit = false ∧ peek (c ++ T) ≠ '-' := by
    rcases hc with hc | hc | hc | hc | hc
    · subst hc
      rw [List.nil_append]
      rcases hT with h | h <;> rw [h] <;> exact ⟨by decide, by decide⟩
    all_goals
      subst hc
      simp only [List.singleton_append, peek_cons]
      exact ⟨by decide, by decide⟩
  refine ⟨h1.1, ?_⟩
  have h2 : peek (w ++ (c ++ T)) ≠ '-' := by
    cases w with
    | nil => exact h1.2
    | cons d w1 =>
      intro hd
      have := hw d (List.mem_cons_self _ _)
      have e : peek (d :: w1 ++ (c ++ T)) = d := rfl
      rw [e] at hd
      rw [hd] at this
      exact absurd this (by decide)
  rcases hz with hz | hz
  · subst hz
    exact h2
  · subst hz
    simp only [List.singleton_append, peek_cons]
    decide

theorem argspec_format_complete (v : ArgspecVars) (Z fp Y : List Char)
    (hv : (v.done = false ∧ v.fmt = Z) ∨ (v.done = true ∧ Z = '\x7d' :: v.fmt))
    (hfp : IsFormatPart fp) (hY : peek Y = '|' ∨ peek Y = '\x7d') (hZ : Z = fp ++ Y) :
    (argspec_format v).invalid = v.invalid ∧
      (((argspec_format v).done = false ∧ (argspec_format v).fmt = Y) ∨
        ((argspec_format v).done = true ∧ Y = '\x7d' :: (argspec_format v).fmt)) := by
  rcases hv with ⟨hd, hf⟩ | ⟨hd, hf⟩
  · obtain ⟨f, d, i, a, sp⟩ := v
    dsimp only at hd hf
    subst hd
    subst hf
    unfold argspec_format
    simp only [Bool.false_eq_true, if_false]
    rcases hfp with hfp | ⟨m, z, w, c, hfp, hm, hz, hw, hc⟩
    · subst hfp
      rw [List.nil_append] at hZ
      subst hZ
      rcases hY with h | h
      · rw [h, if_neg (by decide), if_neg (by decide), if_pos (by decide)]
        exact ⟨rfl, Or.inl ⟨rfl, rfl⟩⟩
      · rw [h, if_neg (by decide), if_pos (by decide)]
        refine ⟨rfl, Or.inr ⟨rfl, ?_⟩⟩
        have e0 := peek_tail_eq (l := f) (by rw [h]; decide)
        rw [h] at e0
        exact e0
    · subst hfp
      subst hZ
      have hp : peek (':' :: (m ++ (z ++ (w ++ c))) ++ Y) = ':' := rfl
      rw [hp, if_pos rfl]
      have hheads := format_part_heads z w c Y hz hw.2 hc hY
      have et : (':' :: (m ++ (z ++ (w ++ c))) ++ Y).tail = m ++ (z ++ (w ++ (c ++ Y))) := by
        simp
      obtain ⟨_, _, _, dm, im⟩ := argspec_minus_sound
        ⟨(':' :: (m ++ (z ++ (w ++ c))) ++ Y).tail, false, i, a, sp⟩
      obtain ⟨_, _, _, dz, iz⟩ := argspec_zero_sound (argspec_minus
        ⟨(':' :: (m ++ (z ++ (w ++ c))) ++ Y).tail, false, i, a, sp⟩)
      obtain ⟨_, _, _, dw, iw⟩ := argspec_width_sound (argspec_zero (argspec_minus
        ⟨(':' :: (m ++ (z ++ (w ++ c))) ++ Y).tail, false, i, a, sp⟩))
      obtain ⟨_, _, _, dc, ic⟩ := argspec_mode_sound (argspec_width (argspec_zero (argspec_minus
        ⟨(':' :: (m ++ (z ++ (w ++ c))) ++ Y).tail, false, i, a, sp⟩)))
      have f1 := argspec_minus_complete
        ⟨(':' :: (m ++ (z ++ (w ++ c))) ++ Y).tail, false, i, a, sp⟩ m _ hm hheads.2 et
      have f2 := argspec_zero_width_complete _ z w (c ++ Y) hz hw hheads.1 f1
      have f3 := argspec_mode_complete _ c Y hc hY f2
      refine ⟨?_, Or.inl ⟨?_, f3⟩⟩
      · rw [ic, iw, iz, im]
      · rw [dc, dw, dz, dm]
  · have e : argspec_format v = v := by
      unfold argspec_format
      rw [if_pos hd]
    rw [e]
    refine ⟨rfl, Or.inr ⟨hd, ?_⟩⟩
    rcases hfp with hfp | ⟨m, z, w, c, hfp, _⟩
    · subst hfp
      rw [List.nil_append] at hZ
      rw [← hZ]
      exact hf
    · subst hfp
      rw [hf] at hZ
      simp at hZ

theorem argspec_scan_custom_complete (payload W : List Char) (n : Nat)
    (hp : ∀ x ∈ payload, x ≠ '\x7d' ∧ x ≠ '\x00') (hW : peek W = '\x7d') :
    argspec_scan_custom (payload ++ W) n = (W, n + payload.length) := by
  induction payload generalizing n with
  | nil =>
    rw [List.nil_append]
    have e0 := peek_tail_eq (l := W) (by rw [hW]; decide)
    rw [hW] at e0
    rw [e0]
    simp [argspec_scan_custom]
  | cons c cs ih =>
    simp only [List.cons_append, argspec_scan_custom]
    have hc := hp c (List.mem_cons_self _ _)
    rw [if_pos ⟨hc.2, hc.1⟩]
    change argspec_scan_custom (cs ++ W) (n + 1) = _
    rw [ih (n + 1) (fun x hx => hp x (List.mem_cons_of_mem _ hx))]
    simp only [List.length_cons]
    congr 1
    omega

theorem argspec_custom_complete (v : ArgspecVars) (Y cu W : List Char)
    (hv : (v.done = false ∧ v.fmt = Y) ∨ (v.done = true ∧ Y = '\x7d' :: v.fmt))
    (hcu : IsCustomPart cu) (hW : peek W = '\x7d') (hY : Y = cu ++ W) :
    (argspec_custom v).invalid = v.invalid ∧
      (((argspec_custom v).done = false ∧ (argspec_custom v).fmt = W) ∨
        ((argspec_custom v).done = true ∧ W = '\x7d' :: (argspec_custom v).fmt)) := by
  rcases hv with ⟨hd, hf⟩ | ⟨hd, hf⟩
  · obtain ⟨f, d, i, a, sp⟩ := v
    dsimp only at hd hf
    subst hd
    subst hf
    unfold argspec_custom
    simp only [Bool.false_eq_true, if_false]
    rcases hcu with hcu | ⟨pl, hcu, hpl⟩
    · subst hcu
      rw [List.nil_append] at hY
      subst hY
      rw [hW, if_neg (by decide), if_pos (by decide)]
      refine ⟨rfl, Or.inr ⟨rfl, ?_⟩⟩
      have e0 := peek_tail_eq (l := f) (by rw [hW]; decide)
      rw [hW] at e0
      exact e0
    · subst hcu
      subst hY
      have hp : peek ('|' :: pl ++ W) = '|' := rfl
      rw [hp, if_pos rfl]
      refine ⟨rfl, Or.inl ⟨rfl, ?_⟩⟩
      dsimp only
      have et : ('|' :: pl ++ W).tail = pl ++ W := rfl
      rw [et, argspec_scan_custom_complete pl W _ hpl hW]
  · have e : argspec_custom v = v := by
      unfold argspec_custom
      rw [if_pos hd]
    rw [e]
    refine ⟨rfl, Or.inr ⟨hd, ?_⟩⟩
    rcases hcu with hcu | ⟨pl, hcu, _⟩
    · subst hcu
      rw [List.nil_append] at hY
      rw [← hY]
      exact hf
    · subst hcu
      rw [hf] at hY
      simp at hY

theorem argspec_close_complete (v : ArgspecVars) (rest : List Char)
    (hv : (v.done = false ∧ v.fmt = '\x7d' :: rest) ∨
      (v.done = true ∧ '\x7d' :: rest = '\x7d' :: v.fmt)) :
    (argspec_close v).invalid = v.invalid ∧ (argspec_close v).done = true ∧
      (argspec_close v).fmt = rest := by
  unfold argspec_close
  rcases hv with ⟨hd, hf⟩ | ⟨hd, hf⟩
  · rw [hd]
    simp only [Bool.false_eq_true, if_false]
    rw [if_pos (by rw [hf]; rfl)]
    refine ⟨rfl, rfl, ?_⟩
    dsimp only
    rw [hf]
    rfl
  · rw [if_pos hd]
    refine ⟨rfl, hd, ?_⟩
    simp only [List.cons.injEq, true_and] at hf
    exact hf.symm

/-- Completeness of the parser: a string that begins with a placeholder of the grammar,
with an index digit from `0` to `8`, is accepted, and the cursor is left behind the closing
brace. -/
theorem fmt_parse_argspec_complete (s rest : List Char) (h : IsPlaceholder '8' s rest) :
    ∃ p, fmt_parse_argspec s = .ok p ∧ p.success = true ∧ p.fmt = rest := by
  obtain ⟨ix, fp, cu, hix, hfp, hcu, hs⟩ := h
  subst hs
  have hW : peek ('\x7d' :: rest) = '\x7d' := rfl
  have hY : peek (cu ++ '\x7d' :: rest) = '|' ∨ peek (cu ++ '\x7d' :: rest) = '\x7d' := by
    rcases hcu with hcu | ⟨pl, hcu, _⟩
    · subst hcu
      exact Or.inr rfl
    · subst hcu
      exact Or.inl rfl
  have hZ : peek (fp ++ (cu ++ '\x7d' :: rest)) = ':' ∨
      peek (fp ++ (cu ++ '\x7d' :: rest)) = '|' ∨
      peek (fp ++ (cu ++ '\x7d' :: rest)) = '\x7d' := by
    rcases hfp with hfp | ⟨m, z, w, c, hfp, _⟩
    · subst hfp
      exact Or.inr hY
    · subst hfp
      exact Or.inl rfl
  unfold fmt_parse_argspec
  obtain ⟨v1, e1, i1, c1⟩ := argspec_index_complete
    { fmt := ('\x7b' :: (ix ++ (fp ++ (cu ++ '\x7d' :: rest)))).tail, done := false,
      invalid := false, arg_ix := -1,
      spec :=
        { min_len := 0, custom_start := [], custom_len := 0,
          pad_mode := FmtPadMode.FmtPadLeft, pad_byte := ' ', format := '\x00' } }
    ix _ rfl hix hZ rfl
  rw [e1]
  dsimp only
  obtain ⟨i2, c2⟩ := argspec_format_complete v1 _ fp _ c1 hfp hY rfl
  obtain ⟨i3, c3⟩ := argspec_custom_complete _ _ cu _ c2 hcu hW rfl
  obtain ⟨i4, d4, f4⟩ := argspec_close_complete _ rest c3
  rw [if_pos d4]
  refine ⟨_, rfl, ?_, f4⟩
  dsimp only
  rw [i4, i3, i2, i1]
  rfl

theorem argspec_index_failed (v v1 : ArgspecVars) (hd : v.done = false)
    (hi : v.invalid = false) (h : argspec_index v = .ok v1) : FailedAtOffender v1 := by
  unfold argspec_index at h
  rw [hd] at h
  simp only [Bool.false_eq_true, if_false] at h
  split at h
  · cases h
  · split at h
    · cases h
      intro hc
      rw [hi] at hc
      cases hc
    · split at h
      · cases h
        intro hc
        rw [hi] at hc
        cases hc
      · rename_i hb
        split at h
        · cases h
          intro hc
          rw [hi] at hc
          cases hc
        · cases h
          intro _
          exact ⟨rfl, hb⟩

theorem argspec_format_failed (v : ArgspecVars) (h : FailedAtOffender v) :
    FailedAtOffender (argspec_format v) := by
  by_cases hd : v.done = true
  · have e : argspec_format v = v := by
      unfold argspec_format
      rw [if_pos hd]
    rw [e]
    exact h
  · have hd2 : v.done = false := by simpa using hd
    have hi : v.invalid = false := by
      cases hv : v.invalid with
      | false => rfl
      | true => exact absurd (h hv).1 hd
    intro hc
    have hs := argspec_format_sound v hd2
    unfold argspec_format at hc hs ⊢
    rw [if_neg hd] at hc hs ⊢
    split at hc
    · obtain ⟨_, _, _, _, im⟩ := argspec_minus_sound { v with fmt := v.fmt.tail }
      obtain ⟨_, _, _, _, iz⟩ := argspec_zero_sound (argspec_minus { v with fmt := v.fmt.tail })
      obtain ⟨_, _, _, _, iw⟩ := argspec_width_sound
        (argspec_zero (argspec_minus { v with fmt := v.fmt.tail }))
      obtain ⟨_, _, _, _, ic⟩ := argspec_mode_sound
        (argspec_width (argspec_zero (argspec_minus { v with fmt := v.fmt.tail })))
      rw [ic, iw, iz, im] at hc
      rw [hi] at hc
      cases hc
    · rename_i h1
      rw [if_neg h1]
      split at hc
      · rw [hi] at hc
        cases hc
      · rename_i h2
        rw [if_neg h2]
        split at hc
        · rw [hi] at hc
          cases hc
        · rename_i h3
          rw [if_neg h3]
          exact ⟨rfl, h2⟩

theorem argspec_custom_failed (v : ArgspecVars) (h : FailedAtOffender v) :
    FailedAtOffender (argspec_custom v) := by
  by_cases hd : v.done = true
  · have e : argspec_custom v = v := by
      unfold argspec_custom
      rw [if_pos hd]
    rw [e]
    exact h
  · have hi : v.invalid = false := by
      cases hv : v.invalid with
      | false => rfl
      | true => exact absurd (h hv).1 hd
    intro hc
    unfold argspec_custom at hc ⊢
    rw [if_neg hd] at hc ⊢
    split at hc
    · rw [hi] at hc
      cases hc
    · rename_i h1
      rw [if_neg h1]
      split at hc
      · rw [hi] at hc
        cases hc
      · rename_i h2
        rw [if_neg h2]
        exact ⟨rfl, h2⟩

theorem argspec_close_failed (v : ArgspecVars) (h : FailedAtOffender v) :
    FailedAtOffender (argspec_close v) := by
  by_cases hd : v.done = true
  · have e : argspec_close v = v := by
      unfold argspec_close
      rw [if_pos hd]
    rw [e]
    exact h
  · have hi : v.invalid = false := by
      cases hv : v.invalid with
      | false => rfl
      | true => exact absurd (h hv).1 hd
    intro hc
    unfold argspec_close at hc ⊢
    rw [if_neg hd] at hc ⊢
    split at hc
    · rw [hi] at hc
      cases hc
    · rename_i h1
      rw [if_neg h1]
      exact ⟨rfl, h1⟩

/-- A placeholder that `fmt_parse_argspec` rejects leaves the cursor at the character that
did not fit, which is not a closing brace. -/
theorem fmt_parse_argspec_failed (fmt : List Char) (p : ArgspecResult)
    (h : fmt_parse_argspec fmt = .ok p) (hs : p.success = false) : peek p.fmt ≠ '\x7d' := by
  unfold fmt_parse_argspec at h
  split at h
  · cases h
  · rename_i v1 e1
    dsimp only at h
    split at h
    swap
    · cases h
    cases h
    dsimp only at hs ⊢
    have q1 := argspec_index_failed _ v1 rfl rfl e1
    have q4 := argspec_close_failed _ (argspec_custom_failed _ (argspec_format_failed _ q1))
    exact (q4 (by simpa using hs)).2

theorem toDigitsCore_eq_digits (b : Nat) (hb : 1 < b) :
    ∀ (f n : Nat) (ds : List Char), n < f → n ≠ 0 →
      Nat.toDigitsCore b f n ds = (Nat.digits b n).reverse.map Nat.digitChar ++ ds := by
  intro f
  induction f with
  | zero =>
    intro n ds h
    omega
  | succ f ih =>
    intro n ds h hn
    simp only [Nat.toDigitsCore]
    by_cases hq : n / b = 0
    · rw [if_pos hq]
      have hlt : n < b := (Nat.div_eq_zero_iff (by omega)).mp hq
      rw [Nat.digits_of_lt b n hn hlt, Nat.mod_eq_of_lt hlt]
      rfl
    · rw [if_neg hq]
      have hlt : n / b < f := by
        have : n / b < n := Nat.div_lt_self (Nat.pos_of_ne_zero hn) hb
        omega
      rw [ih (n / b) _ hlt hq, Nat.digits_def' hb (Nat.pos_of_ne_zero hn)]
      simp

/-- The canonical text is the text that Lean's own conversion `Nat.toDigits` (the one
behind `Nat.repr`) produces. -/
theorem digits_text_eq_toDigits (b : Nat) (hb : 1 < b) (n : Nat) :
    digits_text b n = Nat.toDigits b n := by
  unfold digits_text
  by_cases hn : n = 0
  · rw [if_pos hn, hn]
    simp [Nat.toDigits, Nat.toDigitsCore]
    rfl
  · rw [if_neg hn]
    have h := toDigitsCore_eq_digits b hb (n + 1) n [] (by omega) hn
    rw [List.append_nil] at h
    exact h.symm

theorem digitChar_ne_zero (x : Nat) (hx : x ≠ 0) : Nat.digitChar x ≠ '0' := by
  by_cases h : x < 16
  · interval_cases x
    · exact absurd rfl hx
    all_goals decide
  · unfold Nat.digitChar
    repeat rw [if_neg (by omega)]
    decide

/-- The canonical text of a number other than zero has no leading zero. -/
theorem digits_text_head (b : Nat) (n : Nat) (hn : n ≠ 0) :
    (digits_text b n).head? ≠ some '0' ∧ digits_text b n ≠ [] := by
  unfold digits_text
  rw [if_neg hn]
  have hne : Nat.digits b n ≠ [] := Nat.digits_ne_nil_iff_ne_zero.mpr hn
  have hlast := Nat.getLast_digit_ne_zero b hn
  obtain ⟨l, x, hl⟩ : ∃ l x, Nat.digits b n = l ++ [x] :=
    ⟨_, _, (List.dropLast_append_getLast hne).symm⟩
  have hx : x = (Nat.digits b n).getLast hne := by
    simp only [hl, List.getLast_append_singleton]
  have hx0 : x ≠ 0 := by
    rw [hx]
    exact hlast
  rw [hl]
  simp only [List.reverse_append, List.reverse_singleton, List.singleton_append, List.map_cons,
    List.head?_cons, ne_eq, Option.some.injEq, reduceCtorEq, not_false_eq_true, and_true]
  exact digitChar_ne_zero x hx0

theorem fill_U64_text (base : Nat) (hb : 1 < base) (digit : Nat → Char)
    (hdig : ∀ d, d < base → digit d = Nat.digitChar d) (k m : Nat) (hm : m ≠ 0)
    (hlt : m < base ^ k) : fill_U64 base digit k m [] = digits_text base m := by
  rw [fill_U64_digits base hb digit k m [] hlt, List.append_nil]
  unfold digits_text
  rw [if_neg hm]
  apply List.map_congr_left
  intro d hd
  exact hdig d (Nat.digits_lt_base hb (List.mem_reverse.mp hd))

theorem dec_digit_eq (d : Nat) (h : d < 10) : dec_digit d = Nat.digitChar d := by
  interval_cases d <;> rfl

theorem hex_digit_eq (d : Nat) (h : d < 16) : hex_digit d = Nat.digitChar d := by
  interval_cases d <;> rfl

theorem bin_digit_eq (d : Nat) (h : d < 2) : Char.ofNat (48 + d) = Nat.digitChar d := by
  interval_cases d <;> rfl

theorem pow_two_64_lt (base : Nat) (hb : 1 < base) : 2 ^ 64 ≤ base ^ FMT_SHOW_BUF_MAX := by
  unfold FMT_SHOW_BUF_MAX
  exact Nat.pow_le_pow_left hb 64

theorem show_U64_dec_eq (n : Nat) (hlt : n < 2 ^ 64) :
    show_U64_dec n = (digits_text 10 n, (digits_text 10 n).length) := by
  have h2 := show_U64_dec_length n
  unfold show_U64_dec at h2 ⊢
  by_cases h0 : n = 0
  · rw [if_pos h0, h0]
    rfl
  · rw [if_neg h0] at h2 ⊢
    dsimp only at h2
    rw [← h2, fill_U64_text 10 (by norm_num) dec_digit dec_digit_eq _ n h0
      (lt_of_lt_of_le hlt (pow_two_64_lt 10 (by norm_num)))]

theorem show_U64_hex_text (n : Nat) (hlt : n < 2 ^ 64) :
    show_U64_hex n = (digits_text 16 n, (digits_text 16 n).length) := by
  have h2 := show_U64_hex_length n
  unfold show_U64_hex at h2 ⊢
  by_cases h0 : n = 0
  · rw [if_pos h0, h0]
    rfl
  · rw [if_neg h0] at h2 ⊢
    dsimp only at h2
    rw [← h2, fill_U64_text 16 (by norm_num) hex_digit hex_digit_eq _ n h0
      (lt_of_lt_of_le hlt (pow_two_64_lt 16 (by norm_num)))]

theorem fill_U64_bin_eq (k m : Nat) (acc : List Char) :
    fill_U64_bin k m acc = fill_U64 2 (fun d => Char.ofNat (48 + d)) k m acc := by
  induction k generalizing m acc with
  | zero => rfl
  | succ k ih =>
    simp only [fill_U64_bin, fill_U64]
    split
    · rfl
    · rw [ih, Nat.and_one_is_mod, Nat.shiftRight_eq_div_pow, Nat.pow_one]

theorem show_U64_bin_eq (n : Nat) (hlt : n < 2 ^ 64) :
    show_U64_bin n = (digits_text 2 n, (digits_text 2 n).length) := by
  have h2 := show_U64_bin_length n
  unfold show_U64_bin at h2 ⊢
  by_cases h0 : n = 0
  · rw [if_pos h0, h0]
    rfl
  · rw [if_neg h0] at h2 ⊢
    dsimp only at h2
    rw [← h2, fill_U64_bin_eq, fill_U64_text 2 (by norm_num) _ bin_digit_eq _ n h0
      (lt_of_lt_of_le hlt (pow_two_64_lt 2 (by norm_num)))]

theorem fill_S64_dec_neg (k a : Nat) (acc : List Char) :
    fill_S64_dec true k (-(a : Int)) acc = fill_U64 10 dec_digit k a acc := by
  induction k generalizing a acc with
  | zero => rfl
  | succ k ih =>
    simp only [fill_S64_dec, fill_U64]
    by_cases h0 : a = 0
    · rw [if_pos h0, if_pos (by rw [h0]; rfl)]
    · rw [if_neg h0, if_neg (by omega)]
      have e1 : (-(a : Int)).tdiv 10 = -((a / 10 : Nat) : Int) := by
        cases a with
        | zero => rfl
        | succ a => rfl
      have e2 : (-(a : Int)).tmod 10 = -((a % 10 : Nat) : Int) := by
        cases a with
        | zero => rfl
        | succ a => rfl
      rw [e1, ih, e2]
      simp only [if_true, neg_neg]
      have e3 : (((a % 10 : Nat) : Int) + 48).toNat = a % 10 + 48 := by omega
      rw [e3]
      rfl

theorem fill_S64_dec_pos (k a : Nat) (acc : List Char) :
    fill_S64_dec false k (a : Int) acc = fill_U64 10 dec_digit k a acc := by
  induction k generalizing a acc with
  | zero => rfl
  | succ k ih =>
    simp only [fill_S64_dec, fill_U64]
    by_cases h0 : a = 0
    · rw [if_pos h0, if_pos (by rw [h0]; rfl)]
    · rw [if_neg h0, if_neg (by omega)]
      have e1 : ((a : Int)).tdiv 10 = ((a / 10 : Nat) : Int) := rfl
      have e2 : ((a : Int)).tmod 10 = ((a % 10 : Nat) : Int) := rfl
      rw [e1, ih, e2]
      simp only [Bool.false_eq_true, if_false]
      have e3 : (((a % 10 : Nat) : Int) + 48).toNat = a % 10 + 48 := by omega
      rw [e3]
      rfl

theorem show_S64_dec_eq (n : Int) (hlo : -2 ^ 63 ≤ n) (hhi : n < 2 ^ 63) :
    show_S64_dec n = (int_text n, (int_text n).length) := by
  have h2 := show_S64_dec_length n
  unfold show_S64_dec at h2 ⊢
  unfold int_text
  by_cases h0 : n = 0
  · rw [if_pos h0, h0]
    rfl
  · rw [if_neg h0] at h2 ⊢
    dsimp only at h2 ⊢
    by_cases hneg : n < 0
    · have hd : decide (n < 0) = true := by simpa using hneg
      rw [hd] at h2 ⊢
      simp only [if_true] at h2 ⊢
      rw [if_pos hneg]
      have en : n = -((n.natAbs : Nat) : Int) := by omega
      have e1 : fill_S64_dec true FMT_SHOW_BUF_MAX n [] = digits_text 10 n.natAbs := by
        rw [en, fill_S64_dec_neg, Int.natAbs_neg, Int.natAbs_ofNat]
        exact fill_U64_text 10 (by norm_num) dec_digit dec_digit_eq _ _ (by omega)
          (lt_of_lt_of_le (by omega) (pow_two_64_lt 10 (by norm_num)))
      rw [e1] at h2 ⊢
      rw [← h2]
    · have hd : decide (n < 0) = false := by simpa using hneg
      rw [hd] at h2 ⊢
      simp only [Bool.false_eq_true, if_false] at h2 ⊢
      rw [if_neg hneg]
      have en : n = ((n.toNat : Nat) : Int) := by omega
      have e1 : fill_S64_dec false FMT_SHOW_BUF_MAX n [] = digits_text 10 n.toNat := by
        rw [en, fill_S64_dec_pos, Int.toNat_ofNat]
        exact fill_U64_text 10 (by norm_num) dec_digit dec_digit_eq _ _ (by omega)
          (lt_of_lt_of_le (by omega) (pow_two_64_lt 10 (by norm_num)))
      rw [e1] at h2 ⊢
      rw [← h2]

/-- The canonical decimal text of an integer is what Lean's `toString` prints. -/
theorem int_text_toString (n : Int) : String.mk (int_text n) = toString n := by
  unfold int_text
  cases n with
  | ofNat m =>
    have h : ¬((Int.ofNat m) < 0) := by
      have : (0 : Int) ≤ Int.ofNat m := Int.ofNat_nonneg m
      omega
    rw [if_neg h, digits_text_eq_toDigits 10 (by norm_num)]
    rfl
  | negSucc m =>
    have h : (Int.negSucc m) < 0 := Int.negSucc_lt_zero m
    rw [if_pos h, digits_text_eq_toDigits 10 (by norm_num)]
    rfl

/-- The canonical decimal text of a natural number is what Lean's `toString` prints. -/
theorem digits_text_toString (n : Nat) : String.mk (digits_text 10 n) = toString n := by
  rw [digits_text_eq_toDigits 10 (by norm_num)]
  rfl

theorem digits_text_mem (b : Nat) (hb : 1 < b) (n : Nat) :
    ∀ c ∈ digits_text b n, ∃ d, d < b ∧ c = Nat.digitChar d := by
  intro c hc
  unfold digits_text at hc
  by_cases h0 : n = 0
  · rw [if_pos h0] at hc
    simp only [List.mem_singleton] at hc
    exact ⟨0, by omega, hc⟩
  · rw [if_neg h0] at hc
    obtain ⟨d, hd, e⟩ := List.mem_map.mp hc
    exact ⟨d, Nat.digits_lt_base hb (List.mem_reverse.mp hd), e.symm⟩

/-- In the Done action a call of `fmt_chunk` only clears `size` and returns false. -/
theorem fmt_chunk_done (hook : FmtHook) (s : FmtState) (buf : Option (List Char)) (n : Nat)
    (h : s.action = FmtAction.FmtActionDone) :
    fmt_chunk hook s buf n = .ok { ret := false, state := { s with size := 0 }, buf := buf } := by
  unfold fmt_chunk
  rw [if_pos h]

/-- Every call of `fmt_chunk` that returns, returns false exactly when it has produced no
byte and leaves the machine in the Done action. -/
theorem fmt_chunk_ret (hook : FmtHook) (s : FmtState) (buf : Option (List Char)) (n : Nat)
    (r : ChunkResult) (h : fmt_chunk hook s buf n = .ok r) :
    r.ret = false ↔ (r.state.size = 0 ∧ r.state.action = FmtAction.FmtActionDone) := by
  unfold fmt_chunk at h
  split at h
  · rename_i hd
    cases h
    simp [hd]
  · split at h
    · cases h
    · cases h
      simp

theorem fmt_chunks_done (hook : FmtHook) :
    ∀ (calls : List (Option (List Char) × Nat)) (s : FmtState),
      s.action = FmtAction.FmtActionDone → calls ≠ [] →
      fmt_chunks hook calls s = .ok { s with size := 0 } := by
  intro calls
  induction calls with
  | nil =>
    intro s _ h
    exact absurd rfl h
  | cons c cs ih =>
    intro s hd _
    simp only [fmt_chunks]
    rw [fmt_chunk_done hook s c.1 c.2 hd]
    dsimp only
    cases cs with
    | nil => rfl
    | cons c2 cs2 =>
      rw [ih { s with size := 0 } hd (by simp)]

/-- With the default hook every pack whose string pointers are not null can be rendered. -/
theorem VaOk_default (va : List FmtArg)
    (h : ∀ a ∈ va, ∀ d, a.data = some d → a.type = FmtArgCharPtr → fmt_arg_ptr d ≠ 0) :
    VaOk fmt_custom_arg va :=
  fun a ha d hd => ⟨h a ha d hd, Or.inr fun _ _ _ => rfl⟩

/-- The text half of `fmt_format_arg` for an argument that no case of the `switch` handles
and that the hook declines. -/
theorem fmt_format_text_unknown (hook : FmtHook) (arg : FmtArg) (d : FmtStorage)
    (spec : FmtSpec) (userdata : Nat) (fo0 : FmtFormatOutput) (hnp : spec.format ≠ 'p')
    (hty : ¬isBuiltin arg.type) (hfb : arg.type ≠ FmtArgFirstBuiltin)
    (hhook : hook arg spec userdata fo0 = (false, fo0)) :
    fmt_format_text hook arg d spec userdata fo0 =
      .ok { fo0 with text := "\x7bunknown type\x7d".toList, text_size := 14 } := by
  unfold isBuiltin at hty
  simp only [not_or] at hty
  obtain ⟨t1, t2, t3, t4, t5, t6, t7, t8, t9, t10, t11, t12⟩ := hty
  unfold fmt_format_text
  rw [if_neg (by
    intro hc
    rcases hc with hc | hc
    · exact hnp hc
    · exact t12 hc)]
  simp only [FMT__CHAR_IS_SIGNED, if_true]
  rw [if_neg (by
    intro hc
    rcases hc with hc | hc | hc | hc | hc
    · exact t1 hc
    · exact t2 hc
    · exact t3 hc
    · exact t4 hc
    · exact t9 hc)]
  rw [if_neg (by
    intro hc
    rcases hc with hc | hc | hc | hc | hc
    · exact t5 hc
    · exact t6 hc
    · exact t7 hc
    · exact t8 hc
    · exact hfb hc)]
  rw [if_neg t10, if_neg t11, hhook]
  rfl

/-- The loop of `fmt_chunk` is the iteration of its body. -/
theorem fmt_chunk_loop_succ (hook : FmtHook) (k : Nat) (buf : Option Nat) (s : FmtState)
    (out : List Char) (sw : Nat) :
    fmt_chunk_loop hook (k + 1) buf s out sw =
      match fmt_chunk_iter hook buf s out sw with
      | .error e => .error e
      | .ok x => if x.1 then .ok x.2 else fmt_chunk_loop hook k buf x.2.1 x.2.2.1 x.2.2.2 := by
  obtain ⟨args, arg_count, fmt_at_init, fmt, userdata, size, next_arg_ix, action,
    format_output, text_buf⟩ := s
  cases action with
  | FmtActionParsing =>
    simp only [fmt_chunk_loop, fmt_chunk_iter]
    by_cases h0 : peek fmt = '\x00'
    · rw [if_pos h0, if_pos h0]
      rfl
    · rw [if_neg h0, if_neg h0]
      by_cases hl : peek fmt ≠ '\x7b' ∨ (peek fmt = '\x7b' ∧ peek fmt.tail = '\x7b')
      · rw [if_pos hl, if_pos hl]
        cases buf with
        | none => rfl
        | some cap =>
          dsimp only
          by_cases hr : out.length < cap
          · rw [if_pos hr, if_pos hr]
            rfl
          · rw [if_neg hr, if_neg hr]
            rfl
      · rw [if_neg hl, if_neg hl]
        cases fmt_parse_arg hook args arg_count userdata text_buf fmt next_arg_ix with
        | error e => rfl
        | ok r => rfl
  | FmtActionFormatting =>
    simp only [fmt_chunk_loop, fmt_chunk_iter]
    cases fmt_emit buf format_output out sw with
    | error e => rfl
    | ok e =>
      dsimp only
      by_cases hz : e.format_output.pad_size = 0 ∧ e.format_output.text_size = 0
      · rw [if_pos hz, if_pos hz]
        rfl
      · rw [if_neg hz, if_neg hz]
        rfl
  | FmtActionDone => rfl

/-- One iteration of the loop from a state of the machine does not fault, keeps the
invariant, and unless it leaves the loop it makes progress: it moves the cursor forward by
at least one character, or it ends the Formatting action with the cursor in place, or it
sets the Done action (on which the next iteration leaves the loop). -/
theorem fmt_chunk_iter_progress (hook : FmtHook) (buf : Option Nat) (s : FmtState)
    (out : List Char) (sw : Nat) (hok : StateOk hook s) :
    ∃ x, fmt_chunk_iter hook buf s out sw = .ok x ∧ StateOk hook x.2.1 ∧
      (x.1 = false →
        ((x.2.1.fmt <:+ s.fmt.tail ∧ x.2.1.fmt.length < s.fmt.length) ∨
          (s.action = FmtAction.FmtActionFormatting ∧
            x.2.1.action = FmtAction.FmtActionParsing ∧ x.2.1.fmt = s.fmt) ∨
          (s.action = FmtAction.FmtActionParsing ∧ peek s.fmt = '\x00' ∧
            x.2.1.action = FmtAction.FmtActionDone)) ∧
          loopMeasure x.2.1 < loopMeasure s) := by
  obtain ⟨args, arg_count, fmt_at_init, fmt, userdata, size, next_arg_ix, action,
    format_output, text_buf⟩ := s
  cases action with
  | FmtActionParsing =>
    simp only [fmt_chunk_iter]
    by_cases h0 : peek fmt = '\x00'
    · rw [if_pos h0]
      refine ⟨_, rfl, ⟨hok.1, hok.2.1, fun hc => by cases hc⟩, fun _ =>
        ⟨Or.inr (Or.inr (by simp [h0])), ?_⟩⟩
      simp only [loopMeasure]
      omega
    · rw [if_neg h0]
      have hne := peek_ne_nil h0
      by_cases hl : peek fmt ≠ '\x7b' ∨ (peek fmt = '\x7b' ∧ peek fmt.tail = '\x7b')
      · rw [if_pos hl]
        have hsuf : fmt_skip_literal fmt <:+ fmt.tail := by
          unfold fmt_skip_literal
          split
          · exact List.tail_suffix _
          · exact List.suffix_refl _
        have hlt := suffix_tail_length_lt hsuf hne
        have hok1 : StateOk hook ⟨args, arg_count, fmt_at_init, fmt_skip_literal fmt, userdata,
            size, next_arg_ix, FmtAction.FmtActionParsing, format_output, text_buf⟩ :=
          ⟨hok.1, hok.2.1, fun hc => by cases hc⟩
        cases buf with
        | none =>
          refine ⟨_, rfl, hok1, fun _ => ⟨Or.inl ⟨hsuf, hlt⟩, ?_⟩⟩
          simp only [loopMeasure]
          omega
        | some cap =>
          dsimp only
          by_cases hr : out.length < cap
          · rw [if_pos hr]
            refine ⟨_, rfl, hok1, fun _ => ⟨Or.inl ⟨hsuf, hlt⟩, ?_⟩⟩
            simp only [loopMeasure]
            omega
          · rw [if_neg hr]
            exact ⟨_, rfl, hok, fun hc => by cases hc⟩
      · rw [if_neg hl]
        have hb2 : peek fmt.tail ≠ '\x7b' := by
          intro hc
          apply hl
          by_cases hb : peek fmt = '\x7b'
          · exact Or.inr ⟨hb, hc⟩
          · exact Or.inl hb
        obtain ⟨r, hr, hsuf, hn, hfo⟩ := fmt_parse_arg_ok hook args arg_count userdata text_buf
          fmt next_arg_ix hok.1 hok.2.1 hb2
        rw [hr]
        have hlt := suffix_tail_length_lt hsuf hne
        refine ⟨_, rfl, ⟨hok.1, hn, fun _ => hfo⟩, fun _ => ⟨Or.inl ⟨hsuf, hlt⟩, ?_⟩⟩
        simp only [loopMeasure]
        omega
  | FmtActionFormatting =>
    simp only [fmt_chunk_iter]
    have hfo : FoOk format_output := hok.2.2 rfl
    cases buf with
    | none =>
      obtain ⟨e, he, _, _, z1, z2⟩ := fmt_emit_null format_output out sw hfo
      rw [he]
      dsimp only
      rw [if_pos ⟨z1, z2⟩]
      refine ⟨_, rfl, ⟨hok.1, hok.2.1, fun hc => by cases hc⟩, fun _ =>
        ⟨Or.inr (Or.inl (by simp)), ?_⟩⟩
      simp only [loopMeasure]
      omega
    | some cap =>
      obtain ⟨e, he, _, _, _, hfo1⟩ := fmt_emit_buf cap format_output out sw hfo
      rw [he]
      dsimp only
      by_cases hz : e.format_output.pad_size = 0 ∧ e.format_output.text_size = 0
      · rw [if_pos hz]
        refine ⟨_, rfl, ⟨hok.1, hok.2.1, fun hc => by cases hc⟩, fun _ =>
          ⟨Or.inr (Or.inl (by simp)), ?_⟩⟩
        simp only [loopMeasure]
        omega
      · rw [if_neg hz]
        exact ⟨_, rfl, ⟨hok.1, hok.2.1, fun _ => hfo1⟩, fun hc => by cases hc⟩
  | FmtActionDone =>
    exact ⟨_, rfl, hok, fun hc => by cases hc⟩

/-- One iteration of the loop keeps the invariant of the Parsing mode; in particular the
loop goes from Formatting to Parsing only with both sizes at zero. -/
theorem fmt_chunk_iter_clean (hook : FmtHook) (buf : Option Nat) (s : FmtState)
    (out : List Char) (sw : Nat) (x : Bool × FmtState × List Char × Nat)
    (h : fmt_chunk_iter hook buf s out sw = .ok x) :
    (ParsingClean s → ParsingClean x.2.1) ∧
      (s.action = FmtAction.FmtActionFormatting →
        x.2.1.action = FmtAction.FmtActionParsing →
        x.2.1.format_output.text_size = 0 ∧ x.2.1.format_output.pad_size = 0) := by
  obtain ⟨args, arg_count, fmt_at_init, fmt, userdata, size, next_arg_ix, action,
    format_output, text_buf⟩ := s
  cases action with
  | FmtActionParsing =>
    refine ⟨fun hc => ?_, fun hf => by cases hf⟩
    simp only [fmt_chunk_iter] at h
    split at h
    · cases h
      intro ha
      cases ha
    · split at h
      · cases buf with
        | none =>
          cases h
          exact fun _ => hc rfl
        | some cap =>
          dsimp only at h
          split at h
          · cases h
            exact fun _ => hc rfl
          · cases h
            exact hc
      · split at h
        · cases h
        · cases h
          intro ha
          cases ha
  | FmtActionFormatting =>
    simp only [fmt_chunk_iter] at h
    split at h
    · cases h
    · split at h
      · rename_i hz
        cases h
        exact ⟨fun _ _ => ⟨hz.2, hz.1⟩, fun _ _ => ⟨hz.2, hz.1⟩⟩
      · cases h
        exact ⟨fun _ ha => (by cases ha), fun _ ha => (by cases ha)⟩
  | FmtActionDone =>
    simp only [fmt_chunk_iter] at h
    cases h
    exact ⟨fun _ ha => (by cases ha), fun hf => (by cases hf)⟩

theorem fmt_chunk_loop_clean (hook : FmtHook) (buf : Option Nat) :
    ∀ (k : Nat) (s : FmtState) (out : List Char) (sw : Nat)
      (r : FmtState × List Char × Nat),
      fmt_chunk_loop hook k buf s out sw = .ok r → ParsingClean s → ParsingClean r.1 := by
  intro k
  induction k with
  | zero =>
    intro s out sw r h
    simp [fmt_chunk_loop] at h
  | succ k ih =>
    intro s out sw r h hc
    rw [fmt_chunk_loop_succ] at h
    split at h
    · cases h
    · rename_i x hx
      have hx1 := (fmt_chunk_iter_clean hook buf s out sw x hx).1 hc
      split at h
      · cases h
        exact hx1
      · exact ih _ _ _ r h hx1

/-- A call of `fmt_chunk` keeps the invariant of the Parsing mode. -/
theorem fmt_chunk_clean (hook : FmtHook) (s : FmtState) (buf : Option (List Char)) (n : Nat)
    (r : ChunkResult) (h : fmt_chunk hook s buf n = .ok r) (hc : ParsingClean s) :
    ParsingClean r.state := by
  unfold fmt_chunk at h
  split at h
  · rename_i hd
    cases h
    intro ha
    rw [hd] at ha
    cases ha
  · split at h
    · cases h
    · rename_i x hx
      cases h
      exact fmt_chunk_loop_clean hook _ _ s [] 0 x hx hc

theorem fmt_chunks_clean (hook : FmtHook) :
    ∀ (calls : List (Option (List Char) × Nat)) (s : FmtState), StateOk hook s →
      ParsingClean s → ∃ s1, fmt_chunks hook calls s = .ok s1 ∧ ParsingClean s1 := by
  intro calls
  induction calls with
  | nil =>
    intro s _ hc
    exact ⟨s, rfl, hc⟩
  | cons c cs ih =>
    intro s hok hc
    obtain ⟨r, hr, _, hok1⟩ := fmt_chunk_any hook s c.1 c.2 hok
    simp only [fmt_chunks, hr]
    exact ih r.state hok1 (fmt_chunk_clean hook s c.1 c.2 r hr hc)

theorem fmt_run_ok (hook : FmtHook) :
    ∀ (calls : List FmtCall) (s : FmtState), StateOk hook s →
      ∃ s1, fmt_run hook calls s = .ok s1 ∧ Frame s s1 ∧ StateOk hook s1 := by
  intro calls
  induction calls with
  | nil =>
    intro s hok
    exact ⟨s, rfl, Frame_refl s, hok⟩
  | cons c cs ih =>
    intro s hok
    cases c with
    | chunk buf n =>
      obtain ⟨r, hr, hf, hok1⟩ := fmt_chunk_any hook s buf n hok
      obtain ⟨s1, h1, hf1, hok2⟩ := ih r.state hok1
      refine ⟨s1, ?_, Frame_trans hf hf1, hok2⟩
      simp only [fmt_run, hr]
      exact h1
    | reset =>
      obtain ⟨s1, h1, hf1, hok2⟩ := ih (fmt_reset s) (fmt_reset_ok hook s hok)
      refine ⟨s1, ?_, Frame_trans ⟨rfl, rfl, rfl, rfl, rfl⟩ hf1, hok2⟩
      simp only [fmt_run]
      exact h1

theorem fmt_emit_seq_ok :
    ∀ (caps : List Nat) (fo : FmtFormatOutput), FoOk fo →
      ∃ r, fmt_emit_seq caps fo = .ok r ∧ r.1 = (pending fo).take caps.sum ∧
        pending r.2 = (pending fo).drop caps.sum ∧ FoOk r.2 := by
  intro caps
  induction caps with
  | nil =>
    intro fo h
    exact ⟨_, rfl, by simp, by simp, h⟩
  | cons cap caps ih =>
    intro fo h
    obtain ⟨e, he, ho, hp, _, hk⟩ := fmt_emit_buf cap fo [] 0 h
    obtain ⟨r, hr, h1, h2, h3⟩ := ih e.format_output hk
    simp only [fmt_emit_seq, he, hr]
    refine ⟨_, rfl, ?_, ?_, h3⟩
    · dsimp only
      rw [ho, h1, hp, List.sum_cons, List.take_add]
      simp
    · dsimp only
      rw [h2, hp, List.sum_cons, List.drop_drop]
      simp

/-- The value of a signed integer argument lies in the range of `int64_t`. -/
theorem fmt_arg_S64_bounds (type : Int) (d : FmtStorage)
    (hty : type = FmtArgS64 ∨ type = FmtArgS32 ∨ type = FmtArgS16 ∨ type = FmtArgS8) :
    -(2 ^ 63 : Int) ≤ fmt_arg_S64 type d ∧ fmt_arg_S64 type d < 2 ^ 63 := by
  unfold fmt_arg_S64
  rcases hty with h | h | h | h
  · rw [if_pos h]
    unfold readSigned
    norm_num
    split <;> omega
  · rw [if_neg (by rw [h]; decide), if_pos h]
    unfold readSigned
    norm_num
    split <;> omega
  · rw [if_neg (by rw [h]; decide), if_neg (by rw [h]; decide), if_pos h]
    unfold readSigned
    norm_num
    split <;> omega
  · rw [if_neg (by rw [h]; decide), if_neg (by rw [h]; decide), if_neg (by rw [h]; decide),
      if_pos h]
    unfold readSigned
    norm_num
    split <;> omega

theorem toU64_neg (v : Int) (hlo : -(2 ^ 63 : Int) ≤ v) (hneg : v < 0) :
    toU64 v = (v + 2 ^ 64).toNat ∧ (v + 2 ^ 64).toNat < 2 ^ 64 ∧
      2 ^ 63 ≤ (v + 2 ^ 64).toNat := by
  unfold toU64
  norm_num at hlo ⊢
  omega

theorem digits_text_length (b n m : Nat) (hb : 1 < b) (hlo : b ^ m ≤ n) (hhi : n < b ^ (m + 1)) :
    (digits_text b n).length = m + 1 := by
  have hn : n ≠ 0 := by
    have : 0 < b ^ m := Nat.pos_pow_of_pos m (by omega)
    omega
  unfold digits_text
  rw [if_neg hn, List.length_map, List.length_reverse, Nat.digits_len b n hb hn,
    Nat.log_eq_of_pow_le_of_lt_pow hlo hhi]

theorem Passed_refl (l : List Char) : Passed l l := ⟨[], rfl, by simp⟩

theorem Passed_trans {l l1 l2 : List Char} (h1 : Passed l l1) (h2 : Passed l1 l2) :
    Passed l l2 := by
  obtain ⟨p1, e1, n1⟩ := h1
  obtain ⟨p2, e2, n2⟩ := h2
  refine ⟨p1 ++ p2, by rw [e1, e2, List.append_assoc], ?_⟩
  intro c hc
  rcases List.mem_append.mp hc with h | h
  · exact n1 c h
  · exact n2 c h

theorem Passed_tail {l : List Char} (h : peek l ≠ '\x00') : Passed l l.tail :=
  ⟨[peek l], peek_tail_eq h, by simpa using h⟩

theorem argspec_minus_passed (v : ArgspecVars) : Passed v.fmt (argspec_minus v).fmt := by
  obtain ⟨m, hm, e, _⟩ := argspec_minus_sound v
  refine ⟨m, e, ?_⟩
  rcases hm with h | h <;> rw [h] <;> simp

theorem argspec_zero_passed (v : ArgspecVars) : Passed v.fmt (argspec_zero v).fmt := by
  obtain ⟨z, hz, e, _⟩ := argspec_zero_sound v
  refine ⟨z, e, ?_⟩
  rcases hz with h | h <;> rw [h] <;> simp

theorem argspec_width_passed (v : ArgspecVars) : Passed v.fmt (argspec_width v).fmt := by
  obtain ⟨w, hw, e, _⟩ := argspec_width_sound v
  exact ⟨w, e, fun c hc => isDigit_ne_nul (hw.2 c hc)⟩

theorem argspec_mode_passed (v : ArgspecVars) : Passed v.fmt (argspec_mode v).fmt := by
  obtain ⟨c, hc, e, _⟩ := argspec_mode_sound v
  refine ⟨c, e, ?_⟩
  rcases hc with h | h | h | h | h <;> rw [h] <;> simp

theorem argspec_format_passed (v : ArgspecVars) : Passed v.fmt (argspec_format v).fmt := by
  unfold argspec_format
  split
  · exact Passed_refl _
  · split
    · rename_i hc
      have h0 : Passed v.fmt ({ v with fmt := v.fmt.tail } : ArgspecVars).fmt :=
        Passed_tail (by rw [hc]; decide)
      exact Passed_trans h0 (Passed_trans (argspec_minus_passed _)
        (Passed_trans (argspec_zero_passed _)
          (Passed_trans (argspec_width_passed _) (argspec_mode_passed _))))
    · split
      · rename_i hc
        exact Passed_tail (by rw [hc]; decide)
      · split
        · exact Passed_refl _
        · exact Passed_refl _

theorem argspec_index_passed (v v1 : ArgspecVars) (h : argspec_index v = .ok v1) :
    Passed v.fmt v1.fmt := by
  unfold argspec_index at h
  split at h
  · cases h
    exact Passed_refl _
  · split at h
    · cases h
    · split at h
      · rename_i hd
        cases h
        exact Passed_tail (index_digit_ne_nul hd)
      · split at h
        · rename_i hc
          cases h
          exact Passed_tail (by rw [hc]; decide)
        · split at h
          · cases h
            exact Passed_refl _
          · cases h
            exact Passed_refl _

theorem argspec_custom_passed (v : ArgspecVars) : Passed v.fmt (argspec_custom v).fmt := by
  unfold argspec_custom
  split
  · exact Passed_refl _
  · split
    · rename_i hc
      obtain ⟨pl, h1, h2, _, _⟩ := argspec_scan_custom_sound v.fmt.tail v.spec.custom_len
      exact Passed_trans (Passed_tail (by rw [hc]; decide)) ⟨pl, h2, fun c hcm => (h1 c hcm).2⟩
    · split
      · rename_i hc
        exact Passed_tail (by rw [hc]; decide)
      · exact Passed_refl _

theorem argspec_close_passed (v : ArgspecVars) : Passed v.fmt (argspec_close v).fmt := by
  unfold argspec_close
  split
  · exact Passed_refl _
  · split
    · rename_i hc
      exact Passed_tail (by rw [hc]; decide)
    · exact Passed_refl _

/-- Whatever the outcome, `fmt_parse_argspec` moves the cursor from behind the opening
brace over characters of the string only: it never steps over the terminator. -/
theorem fmt_parse_argspec_passed (fmt : List Char) (p : ArgspecResult)
    (h : fmt_parse_argspec fmt = .ok p) : Passed fmt.tail p.fmt := by
  unfold fmt_parse_argspec at h
  split at h
  · cases h
  · rename_i v1 e1
    dsimp only at h
    split at h
    swap
    · cases h
    cases h
    exact Passed_trans (argspec_index_passed _ v1 e1)
      (Passed_trans (argspec_format_passed _)
        (Passed_trans (argspec_custom_passed _) (argspec_close_passed _)))

theorem isDigit_ge (c : Char) (h : c.isDigit = true) : 48 ≤ c.toNat := by
  simp only [Char.isDigit, Bool.and_eq_true, decide_eq_true_eq] at h
  simpa [Char.toNat] using h.1

theorem width_value_le (w : List Char) (hw : w.length ≤ 2 ∧ ∀ d ∈ w, d.isDigit = true) :
    width_value w ≤ 99 := by
  obtain ⟨hl, hd⟩ := hw
  unfold width_value
  match w, hl, hd with
  | [], _, _ => simp
  | [d1], _, hd =>
    have := isDigit_sub_le d1 (hd d1 (by simp))
    simp only [List.foldl_cons, List.foldl_nil]
    omega
  | [d1, d2], _, hd =>
    have := isDigit_sub_le d1 (hd d1 (by simp))
    have := isDigit_sub_le d2 (hd d2 (by simp))
    simp only [List.foldl_cons, List.foldl_nil]
    omega
  | _ :: _ :: _ :: _, hl, _ => simp at hl

theorem argspec_minus_spec (v : ArgspecVars) (m X : List Char)
    (hm : m = [] ∨ m = ['-']) (hX : peek X ≠ '-') (hf : v.fmt = m ++ X) :
    (argspec_minus v).spec =
        { v.spec with
          pad_mode := if m = ['-'] then FmtPadMode.FmtPadRight else v.spec.pad_mode } ∧
      (argspec_minus v).arg_ix = v.arg_ix := by
  unfold argspec_minus
  rcases hm with hm | hm
  · subst hm
    rw [List.nil_append] at hf
    rw [if_neg (by rw [hf]; exact hX), if_neg (by simp)]
    exact ⟨rfl, rfl⟩
  · subst hm
    rw [if_pos (by rw [hf]; rfl), if_pos rfl]
    exact ⟨rfl, rfl⟩

theorem argspec_width_spec (v : ArgspecVars) (w Y : List Char)
    (hw : w.length ≤ 2 ∧ ∀ d ∈ w, d.isDigit = true) (hY : (peek Y).isDigit = false)
    (hf : v.fmt = w ++ Y) (h0 : v.spec.min_len = 0) :
    (argspec_width v).spec = { v.spec with min_len := width_value w } ∧
      (argspec_width v).arg_ix = v.arg_ix := by
  unfold argspec_width width_value
  obtain ⟨hl, hdig⟩ := hw
  have hYn : ¬((peek Y).isDigit = true) := by
    rw [hY]
    decide
  obtain ⟨f, d, i, a, sp⟩ := v
  obtain ⟨ml, cs, cl, pm, pb, fm⟩ := sp
  dsimp only at hf h0 ⊢
  subst h0
  subst hf
  cases w with
  | nil =>
    rw [List.nil_append, if_neg hYn]
    exact ⟨rfl, rfl⟩
  | cons d1 w1 =>
    have h1 : (peek (d1 :: w1 ++ Y)).isDigit = true := hdig d1 (List.mem_cons_self _ _)
    rw [if_pos h1]
    cases w1 with
    | nil =>
      have e : (d1 :: [] ++ Y).tail = Y := rfl
      rw [e, if_neg hYn]
      refine ⟨?_, rfl⟩
      simp only [List.foldl_cons, List.foldl_nil, Nat.mul_zero, Nat.zero_add]
      rfl
    | cons d2 w2 =>
      have h2 : (peek (d1 :: d2 :: w2 ++ Y).tail).isDigit = true :=
        hdig d2 (List.mem_cons_of_mem _ (List.mem_cons_self _ _))
      have hw2 : w2 = [] := by
        simp only [List.length_cons] at hl
        exact List.eq_nil_of_length_eq_zero (by omega)
      subst hw2
      rw [if_pos h2]
      refine ⟨?_, rfl⟩
      have g2 := isDigit_ge d2 (hdig d2 (List.mem_cons_of_mem _ (List.mem_cons_self _ _)))
      simp only [List.foldl_cons, List.foldl_nil, Nat.mul_zero, Nat.zero_add]
      have e1 : peek (d1 :: d2 :: [] ++ Y) = d1 := rfl
      have e2 : peek (d1 :: d2 :: [] ++ Y).tail = d2 := rfl
      rw [e1, e2]
      have e3 : 10 * (d1.toNat - 48) + d2.toNat - 48 = 10 * (d1.toNat - 48) + (d2.toNat - 48) := by
        omega
      rw [e3]

theorem argspec_zero_width_spec (v : ArgspecVars) (z w Y : List Char)
    (hz : z = [] ∨ z = ['0']) (hw : w.length ≤ 2 ∧ ∀ d ∈ w, d.isDigit = true)
    (hY : (peek Y).isDigit = false) (hf : v.fmt = z ++ (w ++ Y)) (h0 : v.spec.min_len = 0) :
    (argspec_width (argspec_zero v)).spec =
        { v.spec with
          pad_byte := if (z ++ w).head? = some '0' then '0' else v.spec.pad_byte
          min_len := width_value w } ∧
      (argspec_width (argspec_zero v)).arg_ix = v.arg_ix := by
  have hzero_pos : peek v.fmt = '0' →
      argspec_zero v = { v with spec := { v.spec with pad_byte := '0' }, fmt := v.fmt.tail } := by
    intro h
    unfold argspec_zero
    rw [if_pos h]
  have hzero_neg : peek v.fmt ≠ '0' → argspec_zero v = v := by
    intro h
    unfold argspec_zero
    rw [if_neg h]
  rcases hz with hz | hz
  · subst hz
    rw [List.nil_append] at hf
    cases w with
    | nil =>
      rw [List.nil_append] at hf
      have hne : peek v.fmt ≠ '0' := by
        rw [hf]
        intro hc
        rw [hc] at hY
        exact absurd hY (by decide)
      rw [hzero_neg hne]
      obtain ⟨e1, e2⟩ := argspec_width_spec v [] Y ⟨by simp, by simp⟩ hY (by rw [hf]; rfl) h0
      rw [e1]
      exact ⟨by simp, e2⟩
    | cons d1 w1 =>
      by_cases hd0 : d1 = '0'
      · have hp : peek v.fmt = '0' := by
          rw [hf, hd0]
          rfl
        rw [hzero_pos hp]
        obtain ⟨e1, e2⟩ := argspec_width_spec
          { v with spec := { v.spec with pad_byte := '0' }, fmt := v.fmt.tail } w1 Y
          ⟨by have := hw.1; simp only [List.length_cons] at this; omega,
            fun d hd => hw.2 d (List.mem_cons_of_mem _ hd)⟩
          hY (by dsimp only; rw [hf]; rfl) h0
        rw [e1]
        refine ⟨?_, e2⟩
        subst hd0
        simp [width_value]
      · have hp : peek v.fmt ≠ '0' := by
          rw [hf]
          exact hd0
        rw [hzero_neg hp]
        obtain ⟨e1, e2⟩ := argspec_width_spec v (d1 :: w1) Y hw hY hf h0
        rw [e1]
        refine ⟨?_, e2⟩
        simp [hd0]
  · subst hz
    have hp : peek v.fmt = '0' := by
      rw [hf]
      rfl
    rw [hzero_pos hp]
    obtain ⟨e1, e2⟩ := argspec_width_spec
      { v with spec := { v.spec with pad_byte := '0' }, fmt := v.fmt.tail } w Y hw hY
      (by dsimp only; rw [hf]; rfl) h0
    rw [e1]
    exact ⟨by simp, e2⟩

theorem argspec_mode_spec (v : ArgspecVars) (c T : List Char)
    (hc : c = [] ∨ c = ['x'] ∨ c = ['b'] ∨ c = ['c'] ∨ c = ['p'])
    (hT : peek T = '|' ∨ peek T = '\x7d') (hf : v.fmt = c ++ T) :
    (argspec_mode v).spec = { v.spec with format := c.headD v.spec.format } ∧
      (argspec_mode v).arg_ix = v.arg_ix := by
  unfold argspec_mode
  rcases hc with hc | hc | hc | hc | hc
  · subst hc
    rw [List.nil_append] at hf
    have hn : ¬(peek v.fmt = 'x' ∨ peek v.fmt = 'b' ∨ peek v.fmt = 'c' ∨ peek v.fmt = 'p') := by
      rw [hf]
      rcases hT with h | h <;> rw [h] <;> decide
    rw [if_neg hn]
    exact ⟨rfl, rfl⟩
  all_goals
    subst hc
    rw [if_pos (by rw [hf]; simp only [List.singleton_append, peek_cons]; decide)]
    refine ⟨?_, rfl⟩
    dsimp only
    rw [hf]
    rfl

theorem spec_with_format_nil (sp : FmtSpec) (h0 : sp.min_len = 0) :
    spec_with_format sp [] [] [] [] = sp := by
  obtain ⟨ml, cs, cl, pm, pb, fm⟩ := sp
  dsimp only at h0
  subst h0
  rfl

theorem argspec_index_fields (v v1 : ArgspecVars) (ix Z : List Char) (hd : v.done = false)
    (hix : IsIndexPart '8' ix) (hZ : peek Z = ':' ∨ peek Z = '|' ∨ peek Z = '\x7d')
    (hf : v.fmt = ix ++ Z) (ha : v.arg_ix = -1) (h : argspec_index v = .ok v1) :
    v1.arg_ix = index_value ix ∧ v1.spec = v.spec := by
  refine ⟨?_, argspec_index_spec v v1 h⟩
  obtain ⟨f, d, i, a, sp⟩ := v
  dsimp only at hd hf ha
  subst hd
  subst ha
  unfold argspec_index at h
  simp only [Bool.false_eq_true, if_false] at h
  rcases hix with hix | ⟨c, hix, hc⟩
  · subst hix
    rw [List.nil_append] at hf
    subst hf
    rcases hZ with hz | hz | hz
    · rw [hz, if_neg (by decide), if_neg (by decide), if_neg (by decide), if_pos (by decide)]
        at h
      cases h
      rfl
    · rw [hz, if_neg (by decide), if_neg (by decide), if_neg (by decide), if_pos (by decide)]
        at h
      cases h
      rfl
    · rw [hz, if_neg (by decide), if_neg (by decide), if_pos (by decide)] at h
      cases h
      rfl
  · subst hix
    subst hf
    have hp : peek ([c] ++ Z) = c := rfl
    have hne : c ≠ '\x7b' := by
      intro hcc
      rw [hcc] at hc
      exact absurd hc.2 (by decide)
    rw [hp, if_neg hne, if_pos hc] at h
    cases h
    rfl

theorem argspec_format_fields (v : ArgspecVars) (Z Y m z w c : List Char) (colon : Bool)
    (hv : (v.done = false ∧ v.fmt = Z) ∨ (v.done = true ∧ Z = '\x7d' :: v.fmt))
    (hm : m = [] ∨ m = ['-']) (hz : z = [] ∨ z = ['0'])
    (hw : w.length ≤ 2 ∧ ∀ d ∈ w, d.isDigit = true)
    (hc : c = [] ∨ c = ['x'] ∨ c = ['b'] ∨ c = ['c'] ∨ c = ['p'])
    (hcolon : colon = false → m = [] ∧ z = [] ∧ w = [] ∧ c = [])
    (hY : peek Y = '|' ∨ peek Y = '\x7d')
    (hZ : Z = (if colon then ':' :: (m ++ (z ++ (w ++ c))) else []) ++ Y)
    (h0 : v.spec.min_len = 0) :
    (argspec_format v).spec = spec_with_format v.spec m z w c ∧
      (argspec_format v).arg_ix = v.arg_ix := by
  have hnil : colon = false → spec_with_format v.spec m z w c = v.spec := by
    intro hcf
    obtain ⟨e1, e2, e3, e4⟩ := hcolon hcf
    rw [e1, e2, e3, e4]
    exact spec_with_format_nil v.spec h0
  rcases hv with ⟨hd, hf⟩ | ⟨hd, hf⟩
  · cases colon with
    | false =>
      rw [hnil rfl]
      simp only [Bool.false_eq_true, if_false, List.nil_append] at hZ
      subst hZ
      unfold argspec_format
      rw [hd]
      simp only [Bool.false_eq_true, if_false]
      rcases hY with h | h
      · rw [hf, h, if_neg (by decide), if_neg (by decide), if_pos (by decide)]
        exact ⟨rfl, rfl⟩
      · rw [hf, h, if_neg (by decide), if_pos (by decide)]
        exact ⟨rfl, rfl⟩
    | true =>
      simp only [if_true] at hZ
      subst hZ
      obtain ⟨f, d, i, a, sp⟩ := v
      dsimp only at hd hf h0 ⊢
      subst hd
      subst hf
      unfold argspec_format
      simp only [Bool.false_eq_true, if_false]
      have hp : peek (':' :: (m ++ (z ++ (w ++ c))) ++ Y) = ':' := rfl
      rw [hp, if_pos rfl]
      have hheads := format_part_heads z w c Y hz hw.2 hc hY
      have et : (':' :: (m ++ (z ++ (w ++ c))) ++ Y).tail = m ++ (z ++ (w ++ (c ++ Y))) := by
        simp
      have f1 := argspec_minus_complete
        ⟨(':' :: (m ++ (z ++ (w ++ c))) ++ Y).tail, false, i, a, sp⟩ m _ hm hheads.2 et
      obtain ⟨s1, a1⟩ := argspec_minus_spec
        ⟨(':' :: (m ++ (z ++ (w ++ c))) ++ Y).tail, false, i, a, sp⟩ m _ hm hheads.2 et
      have f2 := argspec_zero_width_complete _ z w (c ++ Y) hz hw hheads.1 f1
      obtain ⟨s2, a2⟩ := argspec_zero_width_spec _ z w (c ++ Y) hz hw hheads.1 f1
        (by rw [s1]; exact h0)
      obtain ⟨s3, a3⟩ := argspec_mode_spec _ c Y hc hY f2
      refine ⟨?_, by rw [a3, a2, a1]⟩
      rw [s3, s2, s1]
      rfl
  · have e : argspec_format v = v := by
      unfold argspec_format
      rw [if_pos hd]
    rw [e]
    cases colon with
    | false => exact ⟨(hnil rfl).symm, rfl⟩
    | true =>
      simp only [if_true] at hZ
      rw [hf] at hZ
      simp at hZ

theorem argspec_custom_fields (v : ArgspecVars) (Y W payload : List Char) (bar : Bool)
    (hv : (v.done = false ∧ v.fmt = Y) ∨ (v.done = true ∧ Y = '\x7d' :: v.fmt))
    (hp : ∀ x ∈ payload, x ≠ '\x7d' ∧ x ≠ '\x00') (hW : peek W = '\x7d')
    (hY : Y = (if bar then '|' :: payload else []) ++ W) (h0 : v.spec.custom_len = 0) :
    (argspec_custom v).spec =
        (if bar then
          { v.spec with custom_start := payload ++ W, custom_len := payload.length }
        else v.spec) ∧
      (argspec_custom v).arg_ix = v.arg_ix := by
  rcases hv with ⟨hd, hf⟩ | ⟨hd, hf⟩
  · unfold argspec_custom
    rw [hd]
    simp only [Bool.false_eq_true, if_false]
    cases bar with
    | false =>
      simp only [Bool.false_eq_true, if_false, List.nil_append] at hY ⊢
      subst hY
      rw [hf, hW, if_neg (by decide), if_pos (by decide)]
      exact ⟨rfl, rfl⟩
    | true =>
      simp only [if_true] at hY ⊢
      subst hY
      have hpk : peek v.fmt = '|' := by
        rw [hf]
        rfl
      have et : v.fmt.tail = payload ++ W := by
        rw [hf]
        rfl
      rw [if_pos hpk]
      refine ⟨?_, rfl⟩
      dsimp only
      rw [et, argspec_scan_custom_complete payload W _ hp hW, h0, Nat.zero_add]
  · have e : argspec_custom v = v := by
      unfold argspec_custom
      rw [if_pos hd]
    rw [e]
    cases bar with
    | false => exact ⟨by simp, rfl⟩
    | true =>
      simp only [if_true] at hY
      rw [hf] at hY
      simp at hY

theorem argspec_close_fields (v : ArgspecVars) :
    (argspec_close v).spec = v.spec ∧ (argspec_close v).arg_ix = v.arg_ix := by
  unfold argspec_close
  split
  · exact ⟨rfl, rfl⟩
  · split
    · exact ⟨rfl, rfl⟩
    · exact ⟨rfl, rfl⟩

/-- The parse of a placeholder given by its components. -/
theorem fmt_parse_argspec_fields (ix m z w c payload rest : List Char) (colon bar : Bool)
    (hix : IsIndexPart '8' ix) (hm : m = [] ∨ m = ['-']) (hz : z = [] ∨ z = ['0'])
    (hw : w.length ≤ 2 ∧ ∀ d ∈ w, d.isDigit = true)
    (hc : c = [] ∨ c = ['x'] ∨ c = ['b'] ∨ c = ['c'] ∨ c = ['p'])
    (hp : ∀ x ∈ payload, x ≠ '\x7d' ∧ x ≠ '\x00')
    (hcolon : colon = false → m = [] ∧ z = [] ∧ w = [] ∧ c = []) :
    fmt_parse_argspec ('\x7b' :: (ix ++ ((if colon then ':' :: (m ++ (z ++ (w ++ c))) else []) ++
        ((if bar then '|' :: payload else []) ++ '\x7d' :: rest)))) =
      .ok
        { success := true, fmt := rest, arg_ix := index_value ix,
          spec :=
            if bar then
              { spec_with_format
                  { min_len := 0, custom_start := [], custom_len := 0,
                    pad_mode := FmtPadMode.FmtPadLeft, pad_byte := ' ', format := '\x00' }
                  m z w c with
                custom_start := payload ++ '\x7d' :: rest
                custom_len := payload.length }
            else
              spec_with_format
                { min_len := 0, custom_start := [], custom_len := 0,
                  pad_mode := FmtPadMode.FmtPadLeft, pad_byte := ' ', format := '\x00' }
                m z w c } := by
  have hfp : IsFormatPart (if colon then ':' :: (m ++ (z ++ (w ++ c))) else []) := by
    cases colon with
    | false => exact Or.inl rfl
    | true => exact Or.inr ⟨m, z, w, c, rfl, hm, hz, hw, hc⟩
  have hcu : IsCustomPart (if bar then '|' :: payload else []) := by
    cases bar with
    | false => exact Or.inl rfl
    | true => exact Or.inr ⟨payload, rfl, hp⟩
  have hW : peek ('\x7d' :: rest) = '\x7d' := rfl
  have hY : peek ((if bar then '|' :: payload else []) ++ '\x7d' :: rest) = '|' ∨
      peek ((if bar then '|' :: payload else []) ++ '\x7d' :: rest) = '\x7d' := by
    cases bar with
    | false => exact Or.inr rfl
    | true => exact Or.inl rfl
  have hZ : peek ((if colon then ':' :: (m ++ (z ++ (w ++ c))) else []) ++
        ((if bar then '|' :: payload else []) ++ '\x7d' :: rest)) = ':' ∨
      peek ((if colon then ':' :: (m ++ (z ++ (w ++ c))) else []) ++
        ((if bar then '|' :: payload else []) ++ '\x7d' :: rest)) = '|' ∨
      peek ((if colon then ':' :: (m ++ (z ++ (w ++ c))) else []) ++
        ((if bar then '|' :: payload else []) ++ '\x7d' :: rest)) = '\x7d' := by
    cases colon with
    | false => exact Or.inr hY
    | true => exact Or.inl rfl
  unfold fmt_parse_argspec
  obtain ⟨v1, e1, i1, c1⟩ := argspec_index_complete
    { fmt := ('\x7b' :: (ix ++ ((if colon then ':' :: (m ++ (z ++ (w ++ c))) else []) ++
        ((if bar then '|' :: payload else []) ++ '\x7d' :: rest)))).tail, done := false,
      invalid := false, arg_ix := -1,
      spec :=
        { min_len := 0, custom_start := [], custom_len := 0,
          pad_mode := FmtPadMode.FmtPadLeft, pad_byte := ' ', format := '\x00' } }
    ix _ rfl hix hZ rfl
  obtain ⟨a1, s1⟩ := argspec_index_fields _ v1 ix _ rfl hix hZ rfl rfl e1
  rw [e1]
  dsimp only
  obtain ⟨i2, c2⟩ := argspec_format_complete v1 _ _ _ c1 hfp hY rfl
  obtain ⟨s2, a2⟩ := argspec_format_fields v1 _ _ m z w c colon c1 hm hz hw hc hcolon hY rfl
    (by rw [s1])
  obtain ⟨i3, c3⟩ := argspec_custom_complete _ _ _ _ c2 hcu hW rfl
  obtain ⟨s3, a3⟩ := argspec_custom_fields _ _ _ payload bar c2 hp hW rfl
    (by rw [s2, s1]; rfl)
  obtain ⟨i4, d4, f4⟩ := argspec_close_complete _ rest c3
  obtain ⟨s4, a4⟩ := argspec_close_fields (argspec_custom (argspec_format v1))
  rw [if_pos d4, f4, i4, i3, i2, i1, a4, a3, a2, a1, s4, s3, s2, s1]
  cases bar <;> rfl

/-- Every placeholder that the parser accepts is made of such components. -/
theorem placeholder_components (s rest : List Char) (h : IsPlaceholder '8' s rest) :
    ∃ (ix m z w c payload : List Char) (colon bar : Bool),
      IsIndexPart '8' ix ∧ (m = [] ∨ m = ['-']) ∧ (z = [] ∨ z = ['0']) ∧
        (w.length ≤ 2 ∧ ∀ d ∈ w, d.isDigit = true) ∧
        (c = [] ∨ c = ['x'] ∨ c = ['b'] ∨ c = ['c'] ∨ c = ['p']) ∧
        (∀ x ∈ payload, x ≠ '\x7d' ∧ x ≠ '\x00') ∧
        (colon = false → m = [] ∧ z = [] ∧ w = [] ∧ c = []) ∧
        s = '\x7b' :: (ix ++ ((if colon then ':' :: (m ++ (z ++ (w ++ c))) else []) ++
          ((if bar then '|' :: payload else []) ++ '\x7d' :: rest))) := by
  obtain ⟨ix, fp, cu, hix, hfp, hcu, hs⟩ := h
  have hcu2 : ∃ (payload : List Char) (bar : Bool),
      (∀ x ∈ payload, x ≠ '\x7d' ∧ x ≠ '\x00') ∧ cu = (if bar then '|' :: payload else []) := by
    rcases hcu with hcu | ⟨pl, hcu, hpl⟩
    · exact ⟨[], false, by simp, hcu⟩
    · exact ⟨pl, true, hpl, hcu⟩
  obtain ⟨payload, bar, hp, ecu⟩ := hcu2
  rcases hfp with hfp | ⟨m, z, w, c, hfp, hm, hz, hw, hc⟩
  · refine ⟨ix, [], [], [], [], payload, false, bar, hix, Or.inl rfl, Or.inl rfl,
      ⟨by simp, by simp⟩, Or.inl rfl, hp, fun _ => ⟨rfl, rfl, rfl, rfl⟩, ?_⟩
    rw [hs, hfp, ecu]
    rfl
  · refine ⟨ix, m, z, w, c, payload, true, bar, hix, hm, hz, hw, hc, hp,
      fun hcf => (by cases hcf), ?_⟩
    rw [hs, hfp, ecu]
    rfl

theorem take_set_succ {α : Type} (blk : List α) (n : Nat) (v : α) (h : n < blk.length) :
    (blk.set n v).take (n + 1) = blk.take n ++ [v] := by
  induction blk generalizing n with
  | nil => simp at h
  | cons b bs ih =>
    cases n with
    | zero => simp
    | succ n =>
      simp only [List.length_cons, Nat.add_lt_add_iff_right] at h
      simp only [List.set_cons_succ, List.take_succ_cons, List.cons_append, ih n h]

theorem dyn_arr_store_holds {α : Type} (c : Nat) (a : DynArr α) (done : List α) (v : α)
    (blk : List α) (k : Nat) (hd : a.data = some blk) (hl : blk.length = a.capacity)
    (he : a.endptr = (done.length : Int)) (hlt : done.length < a.capacity)
    (ht : blk.take done.length = done) (hcap : a.capacity < 2 ^ 32)
    (hk : a.capacity = c * 2 ^ k) (hj : ∀ j, j < k → c * 2 ^ j < done.length + 1) :
    ∃ a1, dyn_arr_store a v = .ok a1 ∧ ArrHolds c a1 (done ++ [v]) ∧
      a1.capacity = a.capacity := by
  obtain ⟨d, e, cap⟩ := a
  dsimp only at hd hl he hlt hcap hk ⊢
  subst hd he
  have hin : (0 : Int) ≤ (done.length : Int) ∧ ((done.length : Int)).toNat < blk.length := by
    rw [hl]; exact ⟨Int.natCast_nonneg _, by simpa using hlt⟩
  refine ⟨{ data := some (blk.set done.length v), endptr := (done.length : Int) + 1,
            capacity := cap }, ?_, ?_, rfl⟩
  · simp only [dyn_arr_store]
    rw [if_pos hin]
    simp
  · refine ⟨blk.set done.length v, k, rfl, by simp [hl], ?_, ?_, ?_, hcap, hk, ?_⟩
    · simp
    · simp only [List.length_append, List.length_singleton]; omega
    · simp only [List.length_append, List.length_singleton]
      rw [take_set_succ blk done.length v (by omega), ht]
    · intro j hjk
      simp only [List.length_append, List.length_singleton]
      exact hj j hjk

theorem realloc_grow {α : Type} (al : Allocator α) (blk : List α) (n : Nat)
    (hr : al.realloc_fails n = false) (hn : blk.length ≤ n) :
    ∃ tmp, realloc al (some blk) n = some tmp ∧ tmp.length = n ∧
      tmp.take blk.length = blk := by
  refine ⟨blk ++ ((List.range n).drop blk.length).map al.fresh, ?_, ?_, ?_⟩
  · simp only [realloc, hr, Bool.false_eq_true, if_false, Option.getD_some]
    rw [List.take_of_length_le hn]
  · simp only [List.length_append, List.length_map, List.length_drop, List.length_range]
    omega
  · exact List.take_left' rfl

theorem DYN_ARR_APPEND_holds {α : Type} (al : Allocator α) (c N : Nat) (a : DynArr α)
    (done : List α) (v : α) (hc : 1 ≤ c) (hr : ∀ n, al.realloc_fails n = false)
    (hH : ∀ k, c * 2 ^ k < N → c * 2 ^ (k + 1) < 2 ^ 32) (hN : done.length < N)
    (h : ArrHolds c a done) :
    ∃ a1, DYN_ARR_APPEND al a v = .ok a1 ∧ ArrHolds c a1 (done ++ [v]) := by
  obtain ⟨blk, k, hd, hl, he, hle, ht, hcap, hk, hj⟩ := h
  have hneg : ¬ a.endptr < 0 := by rw [he]; exact not_lt.mpr (Int.natCast_nonneg _)
  have hnat : a.endptr.toNat = done.length := by rw [he]; simp
  by_cases hfull : a.capacity ≤ done.length
  · have hcd : a.capacity = done.length := le_antisymm hfull hle
    have hpos : 1 ≤ 2 ^ k := Nat.one_le_two_pow
    have hcpos : 1 ≤ a.capacity := by
      rw [hk]; exact Nat.mul_le_mul hc hpos
    have hdouble : a.capacity * 2 = c * 2 ^ (k + 1) := by rw [hk, pow_succ, Nat.mul_assoc]
    have hbound : a.capacity * 2 < 2 ^ 32 := by
      rw [hdouble]; exact hH k (by rw [← hk, hcd]; exact hN)
    have hmod : (a.capacity * 2) % 2 ^ 32 = a.capacity * 2 := Nat.mod_eq_of_lt hbound
    obtain ⟨tmp, htmp, htl, htt⟩ := realloc_grow al blk (a.capacity * 2) (hr _) (by omega)
    have hblk : blk = done := by
      rw [← ht, ← hcd, ← hl, List.take_length]
    obtain ⟨a1, hs, hh, _⟩ := dyn_arr_store_holds c
      { data := some tmp, endptr := a.endptr, capacity := a.capacity * 2 } done v tmp (k + 1)
      rfl htl he (by dsimp only; omega) (by rw [hblk] at htt; exact htt) hbound hdouble
      (fun j hjk => by
        rcases Nat.lt_succ_iff_lt_or_eq.mp hjk with h1 | h1
        · exact Nat.lt_succ_of_lt (hj j h1)
        · rw [h1, ← hk, hcd]; exact Nat.lt_succ_self _)
    refine ⟨a1, ?_, hh⟩
    simp only [DYN_ARR_APPEND, if_neg hneg, hnat, if_pos hfull, hmod, hd, htmp]
    exact hs
  · obtain ⟨a1, hs, hh, _⟩ := dyn_arr_store_holds c a done v blk k hd hl he (by omega) ht hcap hk
      (fun j hjk => Nat.lt_succ_of_lt (hj j hjk))
    refine ⟨a1, ?_, hh⟩
    simp only [DYN_ARR_APPEND, if_neg hneg, hnat, if_neg hfull]
    exact hs

theorem dyn_arr_appends_holds {α : Type} (al : Allocator α) (c N : Nat) (hc : 1 ≤ c)
    (hr : ∀ n, al.realloc_fails n = false)
    (hH : ∀ k, c * 2 ^ k < N → c * 2 ^ (k + 1) < 2 ^ 32) (vs : List α) :
    ∀ (a : DynArr α) (done : List α), done.length + vs.length ≤ N → ArrHolds c a done →
      ∃ a1, dyn_arr_appends al a vs = .ok a1 ∧ ArrHolds c a1 (done ++ vs) := by
  induction vs with
  | nil =>
    intro a done _ h
    exact ⟨a, rfl, by rw [List.append_nil]; exact h⟩
  | cons v vs ih =>
    intro a done hlen h
    simp only [List.length_cons] at hlen
    obtain ⟨a1, h1, hh1⟩ := DYN_ARR_APPEND_holds al c N a done v hc hr hH (by omega) h
    obtain ⟨a2, h2, hh2⟩ := ih a1 (done ++ [v])
      (by simp only [List.length_append, List.length_singleton]; omega) hh1
    refine ⟨a2, ?_, by rw [List.append_assoc] at hh2; exact hh2⟩
    simp only [dyn_arr_appends, h1]
    exact h2

theorem DYN_ARR_RESET_holds {α : Type} (al : Allocator α) (a0 : DynArr α) (c : Nat)
    (hc2 : c < 2 ^ 32) (hm : al.malloc_fails c = false) :
    ArrHolds c (DYN_ARR_RESET al a0 c) [] := by
  have hmod : c % 2 ^ 32 = c := Nat.mod_eq_of_lt hc2
  refine ⟨(List.range c).map al.fresh, 0, ?_, ?_, rfl, Nat.zero_le _, rfl, ?_, ?_, ?_⟩
  · simp [DYN_ARR_RESET, malloc, hm]
  · simp only [DYN_ARR_RESET, hmod, List.length_map, List.length_range]
  · simp only [DYN_ARR_RESET, hmod]; exact hc2
  · simp only [DYN_ARR_RESET, hmod, pow_zero, Nat.mul_one]
  · intro j hj; exact absurd hj (Nat.not_lt_zero _)

/-- The steps of `dynamic_array.h` on a state whose size is within a capacity that can be
doubled: `DYN_ARR_RESIZE` and `DYN_ARR_CLEAR` keep the size within the capacity,
`DYN_ARR_POP` on a non-empty array does, and `DYN_ARR_APPEND` on a block of `capacity`
elements, with a capacity from 1 to below `2 ^ 31` and `realloc` succeeding, stores the
value at the old size, which is below the new capacity, and keeps the size within it. -/
theorem dyn_arr_steps_keep {α : Type} (al : Allocator α) (a : DynArr α) (h0 : 0 ≤ a.endptr)
    (h1 : a.endptr ≤ (a.capacity : Int)) :
    (∀ s, 0 ≤ (DYN_ARR_RESIZE al a s).endptr ∧
        (DYN_ARR_RESIZE al a s).endptr ≤ ((DYN_ARR_RESIZE al a s).capacity : Int)) ∧
      (0 ≤ (DYN_ARR_CLEAR a).endptr ∧
        (DYN_ARR_CLEAR a).endptr ≤ ((DYN_ARR_CLEAR a).capacity : Int)) ∧
      (a.endptr ≠ 0 → ∃ a1, DYN_ARR_POP a = .ok a1 ∧ 0 ≤ a1.endptr ∧
        a1.endptr ≤ (a1.capacity : Int)) ∧
      ∀ (v : α) (blk : List α), a.data = some blk → blk.length = a.capacity →
        1 ≤ a.capacity → a.capacity < 2 ^ 31 → al.realloc_fails (a.capacity * 2) = false →
        ∃ a1, DYN_ARR_APPEND al a v = .ok a1 ∧ a1.endptr = a.endptr + 1 ∧
          a1.endptr ≤ (a1.capacity : Int) ∧ a.endptr < (a1.capacity : Int) ∧
          DYN_ARR_AT a1 a.endptr.toNat = some v := by
  obtain ⟨d, e, cap⟩ := a
  dsimp only at h0 h1
  obtain ⟨n, rfl⟩ := Int.eq_ofNat_of_zero_le h0
  have hn : n ≤ cap := by exact_mod_cast h1
  refine ⟨fun s => ?_, ⟨le_refl _, Int.natCast_nonneg _⟩, fun hne => ?_, ?_⟩
  · unfold DYN_ARR_RESIZE
    dsimp only
    split
    · exact ⟨Int.natCast_nonneg _, le_refl _⟩
    · rename_i hlt
      exact ⟨Int.natCast_nonneg _, by dsimp only; exact_mod_cast not_lt.mp hlt⟩
  · refine ⟨{ data := d, endptr := (n : Int) - 1, capacity := cap }, ?_, ?_, ?_⟩
    · simp only [DYN_ARR_POP, if_neg hne]
    · dsimp only
      have : (n : Int) ≠ 0 := hne
      omega
    · dsimp only; omega
  · intro v blk hd hl hc1 hc2 hr
    dsimp only at hd hl hc1 hc2 hr
    subst hd
    have hneg : ¬ (n : Int) < 0 := not_lt.mpr (Int.natCast_nonneg _)
    by_cases hfull : cap ≤ n
    · have hmod : (cap * 2) % 2 ^ 32 = cap * 2 := Nat.mod_eq_of_lt (by omega)
      obtain ⟨tmp, htmp, htl, _⟩ := realloc_grow al blk (cap * 2) hr (by omega)
      have hin : (0 : Int) ≤ (n : Int) ∧ n < tmp.length :=
        ⟨Int.natCast_nonneg _, by omega⟩
      refine ⟨{ data := some (tmp.set n v), endptr := (n : Int) + 1, capacity := cap * 2 },
        ?_, rfl, ?_, ?_, ?_⟩
      · simp only [DYN_ARR_APPEND, if_neg hneg, Int.toNat_ofNat, if_pos hfull, hmod, htmp,
          dyn_arr_store]
        rw [if_pos hin]
      · dsimp only; push_cast; omega
      · dsimp only; push_cast; omega
      · simp only [DYN_ARR_AT, Int.toNat_ofNat]
        exact List.getElem?_set_self (by omega)
    · have hin : (0 : Int) ≤ (n : Int) ∧ n < blk.length :=
        ⟨Int.natCast_nonneg _, by omega⟩
      refine ⟨{ data := some (blk.set n v), endptr := (n : Int) + 1, capacity := cap },
        ?_, rfl, ?_, ?_, ?_⟩
      · simp only [DYN_ARR_APPEND, if_neg hneg, Int.toNat_ofNat, if_neg hfull, dyn_arr_store]
        rw [if_pos hin]
      · dsimp only; omega
      · dsimp only; omega
      · simp only [DYN_ARR_AT, Int.toNat_ofNat]
        exact List.getElem?_set_self (by omega)

/-! # The claims -/

/-- C1 (chunked equivalence). For every format, every pack of arguments the machine can
render (`VaOk`: in particular every pack of builtin kinds) and every list of non-empty
buffers, more of them than the output has bytes: if one call of `fmt_chunk` on the freshly
initialised state, into a buffer `big`, finishes the format and produces `total`, then the
drain loop `while (fmt_chunk(..)) process(..)` over the buffers ends with `fmt_chunk`
returning false and has handed over exactly `total`; and so does one call into any other
buffer of at least `total.length` bytes. -/
theorem chunked_equivalence (hook : FmtHook) (state : FmtState) (fmt : List Char)
    (va : List FmtArg) (big total : List Char) (bufs : List (List Char))
    (hva : VaOk hook va)
    (hbig : ∃ r, fmt_chunk hook (fmt_init state fmt va) (some big) big.length = .ok r ∧
      r.state.action = FmtAction.FmtActionDone ∧ r.bytes = total)
    (hpos : ∀ b ∈ bufs, 1 ≤ b.length) (hlen : total.length < bufs.length) :
    (∃ s1, fmt_drain hook bufs (fmt_init state fmt va) [] = .ok (true, s1, total)) ∧
      ∀ big2 : List Char, total.length ≤ big2.length →
        ∃ r2, fmt_chunk hook (fmt_init state fmt va) (some big2) big2.length = .ok r2 ∧
          r2.state.action = FmtAction.FmtActionDone ∧ r2.bytes = total := by
  have hok := fmt_init_ok hook state fmt va hva
  obtain ⟨r, hr, hd, hb⟩ := hbig
  have ht : total = remaining hook (fmt_init state fmt va) := by
    rw [← hb]
    exact (fmt_chunk_done_bytes hook _ big r hok hr hd).1
  rw [ht] at hlen ⊢
  constructor
  · obtain ⟨s1, e1, _⟩ := fmt_drain_eq hook bufs _ [] hok hpos hlen
    exact ⟨s1, by rw [e1, List.nil_append]⟩
  · intro big2 h2
    exact fmt_chunk_big hook _ big2 hok h2

/-- Witness for C1: a placeholder with seven columns of zero padding behind the `0x`
prefix, drained through buffers of one to three bytes. -/
theorem chunked_equivalence_witness :
    ∃ s1, fmt_drain fmt_custom_arg
        [['.', '.'], ['.'], ['.', '.', '.'], ['.'], ['.', '.'], ['.'], ['.'], ['.'], ['.'],
          ['.'], ['.']]
        (fmt_init demo_state "a\x7b:07p\x7db\x7b\x7b".toList [FMT_ARG_CharPtr 4096 "abc"]) [] =
      .ok (true, s1, "a0x01000b\x7b".toList) :=
  (chunked_equivalence fmt_custom_arg demo_state "a\x7b:07p\x7db\x7b\x7b".toList
    [FMT_ARG_CharPtr 4096 "abc"] (List.replicate 16 '.') "a0x01000b\x7b".toList
    [['.', '.'], ['.'], ['.', '.', '.'], ['.'], ['.', '.'], ['.'], ['.'], ['.'], ['.'],
      ['.'], ['.']]
    (VaOk_of_builtin _ _ (by decide)) ⟨_, rfl, rfl, rfl⟩ (by decide) (by decide)).1

/-- C2 (the size-only pass equals the rendered length). For every format and every pack of
arguments the machine can render, the call of `fmt_chunk` with a null buffer on the freshly
initialised state returns with a `state.size` such that: the render pass of `fmt_malloc_va`
(after `fmt_reset`, into a block of that size) finishes the format and reports the same
size; `fmt_malloc_va` returns without failing its assertion, whatever the allocator does;
and every call with a buffer on the fresh state that finishes the format reports that size
too. -/
theorem size_only_eq_rendered (hook : FmtHook) (state : FmtState) (fmt : List Char)
    (va : List FmtArg) (hva : VaOk hook va) :
    ∃ r1, fmt_chunk hook (fmt_init state fmt va) none 0 = .ok r1 ∧
      (∀ mem : List Char, ∃ r2,
        fmt_chunk hook (fmt_reset r1.state) (some mem) r1.state.size = .ok r2 ∧
          r2.state.size = r1.state.size ∧ r2.bytes.length = r1.state.size ∧
          r2.state.action = FmtAction.FmtActionDone) ∧
      (∀ malloc : Nat → Option (List Char),
        ∃ mem, fmt_malloc_va hook state malloc fmt va = .ok mem) ∧
      (∀ (big : List Char) (r : ChunkResult),
        fmt_chunk hook (fmt_init state fmt va) (some big) big.length = .ok r →
          r.state.action = FmtAction.FmtActionDone → r.state.size = r1.state.size) := by
  have hok := fmt_init_ok hook state fmt va hva
  obtain ⟨r1, e1, _, z1, _, _, f1, ok1⟩ := fmt_chunk_null hook _ 0 hok
  have hrem := remaining_reset hook (fmt_init state fmt va) r1.state f1 rfl rfl rfl
  refine ⟨r1, e1, ?_, ?_, ?_⟩
  · intro mem
    obtain ⟨r2, e2, _, z2, b2, _, _, _, _, d2⟩ := fmt_chunk_buf hook (fmt_reset r1.state) mem
      r1.state.size (fmt_reset_ok hook _ ok1)
    rw [hrem, z1, List.take_length] at z2 b2
    rw [hrem, z1] at d2
    refine ⟨r2, e2, ?_, ?_, d2.2 (le_refl _)⟩
    · rw [z2, z1]
    · rw [b2, z1]
  · intro malloc
    exact ⟨_, fmt_malloc_va_eq hook state malloc fmt va hva⟩
  · intro big r hr hd
    rw [(fmt_chunk_done_bytes hook _ big r hok hr hd).2, z1]

/-- Witness for C2: the format of the allocation demo of `main`. -/
theorem size_only_eq_rendered_witness :
    builtin_va [FMT_ARG_CharPtr 4096 "some memory", FMT_ARG_S32 123] = true ∧
      ∃ r1, fmt_chunk fmt_custom_arg
          (fmt_init demo_state "\x7b\x7d \x7b\x7d".toList
            [FMT_ARG_CharPtr 4096 "some memory", FMT_ARG_S32 123]) none 0 = .ok r1 ∧
        r1.state.size = 15 ∧
        ∀ mem : List Char, ∃ r2,
          fmt_chunk fmt_custom_arg (fmt_reset r1.state) (some mem) r1.state.size = .ok r2 ∧
            r2.state.size = r1.state.size ∧ r2.bytes.length = r1.state.size ∧
            r2.state.action = FmtAction.FmtActionDone := by
  refine ⟨by decide, ?_⟩
  obtain ⟨r1, e1, h1, _⟩ := size_only_eq_rendered fmt_custom_arg demo_state
    "\x7b\x7d \x7b\x7d".toList [FMT_ARG_CharPtr 4096 "some memory", FMT_ARG_S32 123]
    (VaOk_of_builtin _ _ (by decide))
  refine ⟨r1, e1, ?_, h1⟩
  have e2 : fmt_chunk fmt_custom_arg
      (fmt_init demo_state "\x7b\x7d \x7b\x7d".toList
        [FMT_ARG_CharPtr 4096 "some memory", FMT_ARG_S32 123]) none 0 = .ok r1 := e1
  rw [show fmt_chunk fmt_custom_arg
      (fmt_init demo_state "\x7b\x7d \x7b\x7d".toList
        [FMT_ARG_CharPtr 4096 "some memory", FMT_ARG_S32 123]) none 0 = .ok _ from rfl] at e2
  cases e2
  rfl

/-- C3 (reset reproduces the output). For every format, every pack of arguments the machine
can render and every sequence of `fmt_chunk` calls on the freshly initialised state (with
any buffers and sizes, so also one that stops in the middle of a placeholder's text or
padding): the calls return, and formatting the state they leave to completion after
`fmt_reset` produces the same bytes as formatting the fresh state to completion. -/
theorem reset_reproduces (hook : FmtHook) (state : FmtState) (fmt : List Char)
    (va : List FmtArg) (calls : List (Option (List Char) × Nat)) (hva : VaOk hook va) :
    ∃ s out, fmt_chunks hook calls (fmt_init state fmt va) = .ok s ∧
      fmt_all hook (fmt_init state fmt va) = .ok out ∧
      fmt_all hook (fmt_reset s) = .ok out := by
  have hok := fmt_init_ok hook state fmt va hva
  obtain ⟨s, e, f, ok⟩ := fmt_chunks_ok hook calls _ hok
  refine ⟨s, _, e, fmt_all_eq hook _ hok, ?_⟩
  rw [fmt_all_eq hook _ (fmt_reset_ok hook s ok),
    remaining_reset hook (fmt_init state fmt va) s f rfl rfl rfl]

/-- Witness for C3: two calls that stop inside the zero padding of the first placeholder
(action Formatting, one pad byte left), then reset. -/
theorem reset_reproduces_witness :
    ∃ s, fmt_chunks fmt_custom_arg [(some ['.', '.', '.'], 3), (some ['.', '.', '.', '.'], 4)]
        (fmt_init demo_state "hello \x7b:05\x7d 0x\x7b:05x\x7d\n".toList
          [FMT_ARG_S32 123, FMT_ARG_S32 42606]) = .ok s ∧
      s.action = FmtAction.FmtActionFormatting ∧ s.format_output.pad_size = 1 ∧
      fmt_all fmt_custom_arg (fmt_reset s) = .ok "hello 00123 0x0a66e\n".toList := by
  obtain ⟨s, out, e, h1, h2⟩ := reset_reproduces fmt_custom_arg demo_state
    "hello \x7b:05\x7d 0x\x7b:05x\x7d\n".toList [FMT_ARG_S32 123, FMT_ARG_S32 42606]
    [(some ['.', '.', '.'], 3), (some ['.', '.', '.', '.'], 4)] (VaOk_of_builtin _ _ (by decide))
  have h3 : fmt_all fmt_custom_arg (fmt_init demo_state
      "hello \x7b:05\x7d 0x\x7b:05x\x7d\n".toList [FMT_ARG_S32 123, FMT_ARG_S32 42606]) =
      .ok "hello 00123 0x0a66e\n".toList := rfl
  rw [h3] at h1
  cases h1
  refine ⟨s, e, ?_, ?_, h2⟩
  · rw [show fmt_chunks fmt_custom_arg [(some ['.', '.', '.'], 3), (some ['.', '.', '.', '.'], 4)]
        (fmt_init demo_state "hello \x7b:05\x7d 0x\x7b:05x\x7d\n".toList
          [FMT_ARG_S32 123, FMT_ARG_S32 42606]) = .ok _ from rfl] at e
    cases e
    rfl
  · rw [show fmt_chunks fmt_custom_arg [(some ['.', '.', '.'], 3), (some ['.', '.', '.', '.'], 4)]
        (fmt_init demo_state "hello \x7b:05\x7d 0x\x7b:05x\x7d\n".toList
          [FMT_ARG_S32 123, FMT_ARG_S32 42606]) = .ok _ from rfl] at e
    cases e
    rfl

/-- C4 (return value of `fmt_sn`). For every format, every pack of arguments the machine
can render, every buffer (null or not) and every capacity (0 and 1 included): when the
complete output `total` is shorter than `2 ^ 31` bytes, so that its length is an `int`,
`fmt_sn_va` returns `total.length`, whatever fitted in the buffer. -/
theorem fmt_sn_va_return (hook : FmtHook) (state : FmtState) (buf : Option (List Char))
    (size : Nat) (fmt : List Char) (va : List FmtArg) (total : List Char)
    (hva : VaOk hook va) (hall : fmt_all hook (fmt_init state fmt va) = .ok total)
    (hfit : total.length < 2 ^ 31) :
    ∃ res, fmt_sn_va hook state buf size fmt va = .ok res ∧ res.1 = (total.length : Int) := by
  have hok := fmt_init_ok hook state fmt va hva
  rw [fmt_all_eq hook _ hok] at hall
  cases hall
  exact ⟨_, fmt_sn_va_eq hook state buf size fmt va hva hfit, rfl⟩

/-- Witness for C4: `abcd` into a buffer of three bytes returns 4. -/
theorem fmt_sn_va_return_witness :
    ∃ res, fmt_sn_va fmt_custom_arg demo_state (some ['.', '.', '.']) 3 "abcd".toList [] =
      .ok res ∧ res.1 = 4 :=
  fmt_sn_va_return fmt_custom_arg demo_state (some ['.', '.', '.']) 3 "abcd".toList []
    "abcd".toList (VaOk_of_builtin _ _ (by decide)) rfl (by decide)

/-- C5 (buffer contents of `fmt_sn`). For every format and every pack of arguments the
machine can render, with complete output `total` shorter than `2 ^ 31` bytes, and every
buffer `b` that holds at least `size` bytes: if `size ≥ 1`, then after `fmt_sn_va` the
buffer holds the first `k = min total.length (size - 1)` bytes of `total`, a terminator at
index `k`, and behind it what it held before; if `size = 0` the buffer is unchanged. -/
theorem fmt_sn_va_buffer (hook : FmtHook) (state : FmtState) (b : List Char) (size : Nat)
    (fmt : List Char) (va : List FmtArg) (total : List Char) (hva : VaOk hook va)
    (hall : fmt_all hook (fmt_init state fmt va) = .ok total) (hfit : total.length < 2 ^ 31)
    (hb : size ≤ b.length) :
    ∃ res, fmt_sn_va hook state (some b) size fmt va = .ok res ∧
      (1 ≤ size → res.2 = some (total.take (min total.length (size - 1)) ++
        '\x00' :: b.drop (min total.length (size - 1) + 1))) ∧
      (size = 0 → res.2 = some b) := by
  have hok := fmt_init_ok hook state fmt va hva
  rw [fmt_all_eq hook _ hok] at hall
  cases hall
  refine ⟨_, fmt_sn_va_eq hook state (some b) size fmt va hva hfit, ?_, ?_⟩
  · intro h1
    generalize remaining hook (fmt_init state fmt va) = R
    have hk : (R.take (size - 1)).length = min R.length (size - 1) := by
      rw [List.length_take, Nat.min_comm]
    obtain ⟨m1, m2, m3⟩ := min_cases R.length (size - 1)
    have ht : R.take (min R.length (size - 1)) = R.take (size - 1) := by
      rcases m3 with h | h
      · rw [h, List.take_length, List.take_of_length_le (by omega)]
      · rw [h]
    dsimp only
    rw [if_pos (by omega), Option.map_some', hk, ht]
    have hlt : min R.length (size - 1) < b.length := by omega
    rw [← hk, List.set_append_right _ _ (le_refl _), Nat.sub_self]
    congr 2
    rw [hk]
    cases hdrop : b.drop (min R.length (size - 1)) with
    | nil =>
      have := congrArg List.length hdrop
      simp only [List.length_drop, List.length_nil] at this
      omega
    | cons c cs =>
      rw [List.set_cons_zero]
      congr 1
      have h2 := congrArg List.tail hdrop
      rw [List.tail_drop, List.tail_cons] at h2
      exact h2.symm
  · intro h0
    dsimp only
    rw [if_neg (by omega)]

/-- Witness for C5: `abcd` into a buffer of three bytes leaves `ab` and a terminator. -/
theorem fmt_sn_va_buffer_witness :
    ∃ res, fmt_sn_va fmt_custom_arg demo_state (some ['.', '.', '.', '.']) 3 "abcd".toList
        [] = .ok res ∧ res.2 = some ['a', 'b', '\x00', '.'] := by
  obtain ⟨res, e, h1, _⟩ := fmt_sn_va_buffer fmt_custom_arg demo_state ['.', '.', '.', '.'] 3
    "abcd".toList [] "abcd".toList (VaOk_of_builtin _ _ (by decide)) rfl (by decide)
    (by decide)
  exact ⟨res, e, h1 (by decide)⟩

/-- C6, as amended (brace escaping). In every state of the machine that is in the Parsing
action (so at every point of a format outside a placeholder), literal text `pre` without
opening braces followed by the two characters `{{` produces `pre` followed by exactly one
`{`, and the output goes on with what follows the two braces; so `a{{b` renders as
`a{b`. -/
theorem brace_escape (hook : FmtHook) (s : FmtState) (pre rest : List Char)
    (hok : StateOk hook s) (hp : s.action = FmtAction.FmtActionParsing)
    (hpre : ∀ c ∈ pre, c ≠ '\x7b' ∧ c ≠ '\x00') :
    ∃ out, fmt_all hook { s with fmt := rest } = .ok out ∧
      fmt_all hook { s with fmt := pre ++ '\x7b' :: '\x7b' :: rest } =
        .ok (pre ++ '\x7b' :: out) := by
  have hok1 : StateOk hook { s with fmt := rest } := ⟨hok.1, hok.2.1, fun h => hok.2.2 h⟩
  have hok2 : StateOk hook { s with fmt := pre ++ '\x7b' :: '\x7b' :: rest } :=
    ⟨hok.1, hok.2.1, fun h => hok.2.2 h⟩
  refine ⟨_, fmt_all_eq hook _ hok1, ?_⟩
  have h1 := render_lit hook s.args s.arg_count s.userdata s.text_buf
    ('\x7b' :: '\x7b' :: rest) s.next_arg_ix (by rw [peek_cons]; decide)
    (Or.inr ⟨rfl, rfl⟩)
  have h2 : fmt_skip_literal ('\x7b' :: '\x7b' :: rest) = rest := rfl
  rw [h2, peek_cons] at h1
  rw [fmt_all_eq hook _ hok2,
    remaining_parsing hook _ (show ({ s with fmt := pre ++ '\x7b' :: '\x7b' :: rest } :
      FmtState).action = _ from hp),
    remaining_parsing hook _ (show ({ s with fmt := rest } : FmtState).action = _ from hp)]
  dsimp only
  rw [render_literal_text hook _ _ _ _ pre _ _ hpre, h1]

/-- Witness for C6 as amended: `a{{b` renders as `a{b`. -/
theorem brace_escape_witness :
    fmt_all fmt_custom_arg (fmt_init demo_state "a\x7b\x7bb".toList []) =
      .ok "a\x7bb".toList := by
  obtain ⟨out, h1, h2⟩ := brace_escape fmt_custom_arg
    (fmt_init demo_state "a\x7b\x7bb".toList []) ['a'] ['b']
    (fmt_init_ok _ _ _ _ (VaOk_of_builtin _ _ (by decide))) rfl (by decide)
  have h3 : fmt_all fmt_custom_arg
      { fmt_init demo_state "a\x7b\x7bb".toList [] with fmt := ['b'] } = .ok ['b'] := rfl
  rw [h3] at h1
  cases h1
  exact h2

/-- Counterexample to C6 as stated: the format `}}` renders as two closing braces, not as
one (the string that `fmt_malloc_va` returns is `}}` and its terminator). -/
theorem brace_escape_counterexample :
    fmt_malloc_va fmt_custom_arg demo_state (fun n => some (List.replicate n '.'))
        "\x7d\x7d".toList [] = .ok (some ['\x7d', '\x7d', '\x00']) ∧
      fmt_malloc_va fmt_custom_arg demo_state (fun n => some (List.replicate n '.'))
        "\x7d\x7d".toList [] ≠ .ok (some ['\x7d', '\x00']) := by
  constructor
  · rfl
  · intro h
    rw [show fmt_malloc_va fmt_custom_arg demo_state (fun n => some (List.replicate n '.'))
      "\x7d\x7d".toList [] = .ok (some ['\x7d', '\x7d', '\x00']) from rfl] at h
    cases h

/-- C7 (width and padding). In every state of the machine at a well-formed placeholder
whose resolved index is in range, when the argument is not rendered as a pointer (the mode
is not `p` and the tag is not the opaque-pointer tag) and the text half of `fmt_format_arg`
renders it as `t`: the placeholder's output is the `t.text_size` bytes of text together
with exactly `min_len - t.text_size` pad bytes (none when the text is as long as the
width), after the text when the placeholder has the `-` flag and before it otherwise, the
pad byte being `0` when the placeholder has the zero flag and a blank otherwise; the width
is at most 99; the length of the output is the larger of the width and the text length; and
the output goes on with what follows the placeholder. -/
theorem width_padding (hook : FmtHook) (s : FmtState) (p : ArgspecResult) (d : FmtStorage)
    (t : FmtFormatOutput) (hok : StateOk hook s) (h : PlaceholderAt s p)
    (hs : p.success = true)
    (hix : fmt_actual_arg_ix p.arg_ix s.next_arg_ix < s.arg_count)
    (hd : (placeholder_arg s p).data = some d)
    (hnp : p.spec.format ≠ 'p' ∧ (placeholder_arg s p).type ≠ FmtArgVoidPtr)
    (ht : fmt_format_text hook (placeholder_arg s p) d p.spec s.userdata
      (fmt_fresh_output s.text_buf p.spec) = .ok t) :
    ∃ out rest,
      out = (if has_minus_flag s.fmt then
          t.text.take t.text_size ++
            List.replicate (p.spec.min_len - t.text_size)
              (if has_zero_flag s.fmt then '0' else ' ')
        else
          List.replicate (p.spec.min_len - t.text_size)
              (if has_zero_flag s.fmt then '0' else ' ') ++
            t.text.take t.text_size) ∧
      (t.text.take t.text_size).length = t.text_size ∧
      out.length = max p.spec.min_len t.text_size ∧
      p.spec.min_len ≤ 99 ∧
      fmt_all hook (after_placeholder s p) = .ok rest ∧
      fmt_all hook s = .ok (out ++ rest) := by
  obtain ⟨fo, rest, hf, _, h1, h2⟩ := placeholder_render hook s p hok h hs hix
  obtain ⟨d1, hd1, hstr, hty⟩ := placeholder_arg_ok hook s p hok h hix
  rw [hd] at hd1
  cases hd1
  have hspec := (placeholder_spec s p h).2.1
  have hnp2 : ¬(p.spec.format = 'p' ∨ (placeholder_arg s p).type = FmtArgVoidPtr) := by
    intro hc
    rcases hc with hc | hc
    · exact hnp.1 hc
    · exact hnp.2 hc
  obtain ⟨q1, q2, q3, q4⟩ := fmt_format_text_plain hook _ d p.spec s.userdata _ t hnp2 hty ht
  obtain ⟨t1, et1, ok1⟩ := fmt_format_text_ok hook (placeholder_arg s p) d p.spec s.userdata
    (fmt_fresh_output s.text_buf p.spec) hspec hstr hty ⟨rfl, rfl⟩
  rw [ht] at et1
  cases et1
  have hlen : (t.text.take t.text_size).length = t.text_size := by
    rw [List.length_take]
    exact Nat.min_eq_left ok1.1
  unfold fmt_format_arg at hf
  simp only [hd, ht] at hf
  obtain ⟨pr, pl, _⟩ := fmt_format_pad_pending p.spec t fo q2 hf
  have q3' : t.pad_mode = p.spec.pad_mode := q3
  have q4' : t.pad_byte = p.spec.pad_byte := q4
  obtain ⟨hminus, hzero⟩ := fmt_parse_argspec_flags s.fmt p h.2.2.2
  have hbyte : (if has_zero_flag s.fmt then '0' else ' ') = p.spec.pad_byte := by
    by_cases hz : has_zero_flag s.fmt
    · rw [if_pos hz, hzero.2 hz]
    · rw [if_neg hz]
      rcases fmt_parse_argspec_pad_byte _ p h.2.2.2 with hb | hb
      · exact hb.symm
      · exact absurd (hzero.1 hb) hz
  refine ⟨_, rest, rfl, hlen, ?_, hspec.2.2, h1, ?_⟩
  · split
    · rw [List.length_append, hlen, List.length_replicate]
      omega
    · rw [List.length_append, hlen, List.length_replicate]
      omega
  · rw [h2, hbyte]
    rcases hspec.2.1 with hm | hm
    · have hn : ¬has_minus_flag s.fmt := by
        intro hc
        have := hminus.2 hc
        rw [hm] at this
        cases this
      rw [if_neg hn, pl (q3'.trans hm), q4']
    · rw [if_pos (hminus.1 hm), pr (q3'.trans hm), q4']

/-- Witness for C7: `{:05}` with 123 renders `00123` and `{:5}` with 123 renders `  123`. -/
theorem width_padding_witness :
    fmt_all fmt_custom_arg (fmt_init demo_state "\x7b:05\x7d".toList [FMT_ARG_S32 123]) =
        .ok "00123".toList ∧
      fmt_all fmt_custom_arg (fmt_init demo_state "\x7b:5\x7d".toList [FMT_ARG_S32 123]) =
        .ok "  123".toList := by
  constructor
  · obtain ⟨out, rest, ho, _, _, _, h1, h2⟩ := width_padding fmt_custom_arg
      (fmt_init demo_state "\x7b:05\x7d".toList [FMT_ARG_S32 123])
      { success := true, fmt := [], arg_ix := -1,
        spec :=
          { min_len := 5, custom_start := [], custom_len := 0,
            pad_mode := FmtPadMode.FmtPadLeft, pad_byte := '0', format := '\x00' } }
      { word := 123, str := [] }
      { text := ['1', '2', '3'], text_size := 3, pad_pos := 0, pad_size := 0,
        pad_mode := FmtPadMode.FmtPadLeft, pad_byte := '0' }
      (fmt_init_ok _ _ _ _ (VaOk_of_builtin _ _ (by decide))) ⟨rfl, rfl, by decide, rfl⟩ rfl
      (by decide) rfl ⟨by decide, by decide⟩ rfl
    have hr : fmt_all fmt_custom_arg (after_placeholder
        (fmt_init demo_state "\x7b:05\x7d".toList [FMT_ARG_S32 123])
        { success := true, fmt := [], arg_ix := -1,
          spec :=
            { min_len := 5, custom_start := [], custom_len := 0,
              pad_mode := FmtPadMode.FmtPadLeft, pad_byte := '0', format := '\x00' } }) =
        .ok [] := rfl
    rw [hr] at h1
    cases h1
    rw [h2, ho]
    rfl
  · obtain ⟨out, rest, ho, _, _, _, h1, h2⟩ := width_padding fmt_custom_arg
      (fmt_init demo_state "\x7b:5\x7d".toList [FMT_ARG_S32 123])
      { success := true, fmt := [], arg_ix := -1,
        spec :=
          { min_len := 5, custom_start := [], custom_len := 0,
            pad_mode := FmtPadMode.FmtPadLeft, pad_byte := ' ', format := '\x00' } }
      { word := 123, str := [] }
      { text := ['1', '2', '3'], text_size := 3, pad_pos := 0, pad_size := 0,
        pad_mode := FmtPadMode.FmtPadLeft, pad_byte := ' ' }
      (fmt_init_ok _ _ _ _ (VaOk_of_builtin _ _ (by decide))) ⟨rfl, rfl, by decide, rfl⟩ rfl
      (by decide) rfl ⟨by decide, by decide⟩ rfl
    have hr : fmt_all fmt_custom_arg (after_placeholder
        (fmt_init demo_state "\x7b:5\x7d".toList [FMT_ARG_S32 123])
        { success := true, fmt := [], arg_ix := -1,
          spec :=
            { min_len := 5, custom_start := [], custom_len := 0,
              pad_mode := FmtPadMode.FmtPadLeft, pad_byte := ' ', format := '\x00' } }) =
        .ok [] := rfl
    rw [hr] at h1
    cases h1
    rw [h2, ho]
    rfl

/-- C8 (pointer rendering). In every state of the machine at a well-formed placeholder
whose resolved index is in range and whose argument is rendered as a pointer (mode `p`, or
the opaque-pointer tag), with pointer value `v`, width `W = min_len` and `hex` the lowercase
base-16 digits of `v`: if `v` is not null and the zero flag was given, the output is `0x`,
then `W - (2 + hex.length)` bytes `0`, then `hex` (so its length is the larger of `W` and
`2 + hex.length`); if `v` is not null and the zero flag was not given, it is `0x` and `hex`
with blanks before them, or after them with the `-` flag; if `v` is null it is `(nil)`
padded with `W - 5` blanks, before it or after it, whether the zero flag was given or not.
In each case the output goes on with what follows the placeholder. -/
theorem pointer_rendering (hook : FmtHook) (s : FmtState) (p : ArgspecResult)
    (d : FmtStorage) (hok : StateOk hook s) (h : PlaceholderAt s p) (hs : p.success = true)
    (hix : fmt_actual_arg_ix p.arg_ix s.next_arg_ix < s.arg_count)
    (hd : (placeholder_arg s p).data = some d)
    (hptr : p.spec.format = 'p' ∨ (placeholder_arg s p).type = FmtArgVoidPtr) :
    ∃ rest, fmt_all hook (after_placeholder s p) = .ok rest ∧
      (fmt_arg_ptr d ≠ 0 → p.spec.pad_byte = '0' →
        fmt_all hook s = .ok (['0', 'x'] ++
          List.replicate (p.spec.min_len - (2 + (lower_hex (fmt_arg_ptr d)).length)) '0' ++
          lower_hex (fmt_arg_ptr d) ++ rest) ∧
        (['0', 'x'] ++
          List.replicate (p.spec.min_len - (2 + (lower_hex (fmt_arg_ptr d)).length)) '0' ++
          lower_hex (fmt_arg_ptr d)).length =
            max p.spec.min_len (2 + (lower_hex (fmt_arg_ptr d)).length)) ∧
      (fmt_arg_ptr d ≠ 0 → p.spec.pad_byte ≠ '0' →
        fmt_all hook s = .ok ((if p.spec.pad_mode = FmtPadMode.FmtPadRight then
            ['0', 'x'] ++ lower_hex (fmt_arg_ptr d) ++
              List.replicate (p.spec.min_len - (2 + (lower_hex (fmt_arg_ptr d)).length)) ' '
          else
            List.replicate (p.spec.min_len - (2 + (lower_hex (fmt_arg_ptr d)).length)) ' ' ++
              (['0', 'x'] ++ lower_hex (fmt_arg_ptr d))) ++ rest)) ∧
      (fmt_arg_ptr d = 0 →
        fmt_all hook s = .ok ((if p.spec.pad_mode = FmtPadMode.FmtPadRight then
            "(nil)".toList ++ List.replicate (p.spec.min_len - 5) ' '
          else List.replicate (p.spec.min_len - 5) ' ' ++ "(nil)".toList) ++ rest)) := by
  obtain ⟨fo, rest, hf, _, h1, h2⟩ := placeholder_render hook s p hok h hs hix
  have hspec := (placeholder_spec s p h).2.1
  have hpb := fmt_parse_argspec_pad_byte _ p h.2.2.2
  unfold fmt_format_arg at hf
  simp only [hd] at hf
  refine ⟨rest, h1, ?_, ?_, ?_⟩
  · intro hv hz
    have hx := show_U64_hex_eq (fmt_arg_ptr d) hv (fmt_arg_ptr_lt d)
    have ht : fmt_format_text hook (placeholder_arg s p) d p.spec s.userdata
        (fmt_fresh_output s.text_buf p.spec) =
        .ok { text := '0' :: 'x' :: lower_hex (fmt_arg_ptr d),
              text_size := 2 + (lower_hex (fmt_arg_ptr d)).length, pad_pos := 2,
              pad_size := 0, pad_mode := FmtPadMode.FmtPadCustomPos, pad_byte := '0' } := by
      unfold fmt_format_text
      rw [if_pos hptr, if_neg hv, if_pos (show (fmt_fresh_output s.text_buf p.spec).pad_byte
        = '0' from hz), hx]
      simp only [fmt_fresh_output, hz]
    rw [ht] at hf
    dsimp only at hf
    obtain ⟨_, _, pc⟩ := fmt_format_pad_pending p.spec _ fo rfl hf
    have hp := pc rfl
    dsimp only at hp
    constructor
    · rw [h2, hp]
      simp
    · simp only [List.length_append, List.length_cons, List.length_nil,
        List.length_replicate]
      omega
  · intro hv hz
    have hx := show_U64_hex_eq (fmt_arg_ptr d) hv (fmt_arg_ptr_lt d)
    have hb : p.spec.pad_byte = ' ' := by
      rcases hpb with hb | hb
      · exact hb
      · exact absurd hb hz
    have ht : fmt_format_text hook (placeholder_arg s p) d p.spec s.userdata
        (fmt_fresh_output s.text_buf p.spec) =
        .ok { text := '0' :: 'x' :: lower_hex (fmt_arg_ptr d),
              text_size := 2 + (lower_hex (fmt_arg_ptr d)).length, pad_pos := 0,
              pad_size := 0, pad_mode := p.spec.pad_mode, pad_byte := ' ' } := by
      unfold fmt_format_text
      rw [if_pos hptr, if_neg hv, if_neg (show ¬(fmt_fresh_output s.text_buf p.spec).pad_byte
        = '0' from hz), hx]
      simp only [fmt_fresh_output, hb]
    rw [ht] at hf
    dsimp only at hf
    obtain ⟨pr, pl, _⟩ := fmt_format_pad_pending p.spec _ fo rfl hf
    rw [h2]
    have htake : List.take (2 + (lower_hex (fmt_arg_ptr d)).length)
        ('0' :: 'x' :: lower_hex (fmt_arg_ptr d)) = ['0', 'x'] ++ lower_hex (fmt_arg_ptr d) := by
      rw [List.take_of_length_le]
      · rfl
      · simp only [List.length_cons]
        omega
    rcases hspec.2.1 with hm | hm
    · rw [if_neg (by rw [hm]; decide), pl hm]
      dsimp only
      rw [htake]
    · rw [if_pos hm, pr hm]
      dsimp only
      rw [htake]
  · intro hv
    have ht : fmt_format_text hook (placeholder_arg s p) d p.spec s.userdata
        (fmt_fresh_output s.text_buf p.spec) =
        .ok { text := "(nil)".toList, text_size := 5, pad_pos := 0, pad_size := 0,
              pad_mode := p.spec.pad_mode, pad_byte := ' ' } := by
      unfold fmt_format_text
      rw [if_pos hptr, if_pos hv]
      rcases hpb with hb | hb
      · simp only [fmt_fresh_output, hb]
        rfl
      · simp only [fmt_fresh_output, hb]
        rfl
    rw [ht] at hf
    dsimp only at hf
    obtain ⟨pr, pl, _⟩ := fmt_format_pad_pending p.spec _ fo rfl hf
    rw [h2]
    rcases hspec.2.1 with hm | hm
    · rw [if_neg (by rw [hm]; decide), pl hm]
      rfl
    · rw [if_pos hm, pr hm]
      rfl

/-- Witness for C8: `{:016p}` with the pointer `0x1000` renders `0x` and fourteen digits,
the zeros behind the prefix; `{:08p}` with a null pointer renders `(nil)` behind three
blanks. -/
theorem pointer_rendering_witness :
    fmt_all fmt_custom_arg (fmt_init demo_state "\x7b:016p\x7d".toList
        [FMT_ARG_CharPtr 4096 "test"]) = .ok "0x00000000001000".toList ∧
      fmt_all fmt_custom_arg (fmt_init demo_state "\x7b:08p\x7d".toList
        [FMT_ARG_VoidPtr 0]) = .ok "   (nil)".toList := by
  constructor
  · obtain ⟨rest, h1, h2, _, _⟩ := pointer_rendering fmt_custom_arg
      (fmt_init demo_state "\x7b:016p\x7d".toList [FMT_ARG_CharPtr 4096 "test"])
      { success := true, fmt := [], arg_ix := -1,
        spec :=
          { min_len := 16, custom_start := [], custom_len := 0,
            pad_mode := FmtPadMode.FmtPadLeft, pad_byte := '0', format := 'p' } }
      { word := 4096, str := "test".toList }
      (fmt_init_ok _ _ _ _ (VaOk_of_builtin _ _ (by decide))) ⟨rfl, rfl, by decide, rfl⟩ rfl
      (by decide) rfl (Or.inl rfl)
    have hr : fmt_all fmt_custom_arg (after_placeholder
        (fmt_init demo_state "\x7b:016p\x7d".toList [FMT_ARG_CharPtr 4096 "test"])
        { success := true, fmt := [], arg_ix := -1,
          spec :=
            { min_len := 16, custom_start := [], custom_len := 0,
              pad_mode := FmtPadMode.FmtPadLeft, pad_byte := '0', format := 'p' } }) =
        .ok [] := rfl
    rw [hr] at h1
    cases h1
    have hv : fmt_arg_ptr { word := 4096, str := "test".toList } = 4096 := rfl
    have hx : lower_hex 4096 = ['1', '0', '0', '0'] := by
      have := show_U64_hex_eq 4096 (by decide) (by norm_num)
      rw [show show_U64_hex 4096 = (['1', '0', '0', '0'], 4) from rfl] at this
      exact (congrArg Prod.fst this).symm
    rw [hv, hx] at h2
    rw [(h2 (by decide) rfl).1]
    rfl
  · obtain ⟨rest, h1, _, _, h2⟩ := pointer_rendering fmt_custom_arg
      (fmt_init demo_state "\x7b:08p\x7d".toList [FMT_ARG_VoidPtr 0])
      { success := true, fmt := [], arg_ix := -1,
        spec :=
          { min_len := 8, custom_start := [], custom_len := 0,
            pad_mode := FmtPadMode.FmtPadLeft, pad_byte := '0', format := 'p' } }
      { word := 0, str := [] }
      (fmt_init_ok _ _ _ _ (VaOk_of_builtin _ _ (by decide))) ⟨rfl, rfl, by decide, rfl⟩ rfl
      (by decide) rfl (Or.inl rfl)
    have hr : fmt_all fmt_custom_arg (after_placeholder
        (fmt_init demo_state "\x7b:08p\x7d".toList [FMT_ARG_VoidPtr 0])
        { success := true, fmt := [], arg_ix := -1,
          spec :=
            { min_len := 8, custom_start := [], custom_len := 0,
              pad_mode := FmtPadMode.FmtPadLeft, pad_byte := '0', format := 'p' } }) =
        .ok [] := rfl
    rw [hr] at h1
    cases h1
    rw [h2 rfl]
    rfl

/-- C9 (out-of-range index). In every state of the machine at a well-formed placeholder
whose resolved index (explicit or auto-assigned) is not below the number of captured
arguments, the placeholder contributes exactly the text `{invalid arg index}`, and the
output goes on with the rendering of what follows the placeholder. -/
theorem invalid_arg_index (hook : FmtHook) (s : FmtState) (p : ArgspecResult)
    (hok : StateOk hook s) (h : PlaceholderAt s p) (hs : p.success = true)
    (hix : s.arg_count ≤ fmt_actual_arg_ix p.arg_ix s.next_arg_ix) :
    ∃ rest, fmt_all hook (after_placeholder s p) = .ok rest ∧
      fmt_all hook s = .ok ("\x7binvalid arg index\x7d".toList ++ rest) := by
  obtain ⟨r, er, _, h1, h2⟩ := placeholder_step hook s p hok h
  refine ⟨_, h1, ?_⟩
  rw [h2]
  unfold fmt_parse_arg at er
  simp only [h.2.2.2, hs, if_true] at er
  rw [if_neg (by omega)] at er
  cases er
  rfl

/-- Witness for C9: `{5}` with two arguments, followed by text and a placeholder. -/
theorem invalid_arg_index_witness :
    fmt_all fmt_custom_arg (fmt_init demo_state "\x7b5\x7dx\x7b\x7d".toList
        [FMT_ARG_CharPtr 4096 "A", FMT_ARG_CharPtr 4100 "B"]) =
      .ok "\x7binvalid arg index\x7dxA".toList := by
  obtain ⟨rest, h1, h2⟩ := invalid_arg_index fmt_custom_arg
    (fmt_init demo_state "\x7b5\x7dx\x7b\x7d".toList
      [FMT_ARG_CharPtr 4096 "A", FMT_ARG_CharPtr 4100 "B"])
    { success := true, fmt := "x\x7b\x7d".toList, arg_ix := 5,
      spec :=
        { min_len := 0, custom_start := [], custom_len := 0,
          pad_mode := FmtPadMode.FmtPadLeft, pad_byte := ' ', format := '\x00' } }
    (fmt_init_ok _ _ _ _ (VaOk_of_builtin _ _ (by decide))) ⟨rfl, rfl, by decide, rfl⟩ rfl
    (by decide)
  have h3 : fmt_all fmt_custom_arg (after_placeholder
      (fmt_init demo_state "\x7b5\x7dx\x7b\x7d".toList
        [FMT_ARG_CharPtr 4096 "A", FMT_ARG_CharPtr 4100 "B"])
      { success := true, fmt := "x\x7b\x7d".toList, arg_ix := 5,
        spec :=
          { min_len := 0, custom_start := [], custom_len := 0,
            pad_mode := FmtPadMode.FmtPadLeft, pad_byte := ' ', format := '\x00' } }) =
      .ok "xA".toList := rfl
  rw [h3] at h1
  cases h1
  exact h2

/-- C10 (positional arguments). Take any state of the machine in the Parsing action, such
as the one `fmt_init` leaves, where the auto-argument counter is 0, and the `j`-th
placeholder the scanner meets from there, well formed and with its resolved index in
range. The resolved index is the explicit index `i` if the placeholder has one, and
otherwise the counter at the start plus the number of well-formed index-less placeholders
before it: so from `fmt_init` the `k`-th index-less placeholder resolves to `k`. The
output of the whole is the output up to the placeholder, then the rendering of the
argument at the resolved index, then the output of what follows, which is scanned with the
counter unchanged behind an explicit index and moved on by one otherwise. Nothing
restricts how often an argument is referenced. -/
theorem positional_arguments (hook : FmtHook) (s : FmtState) (k j : Nat) (cur : List Char)
    (next : Int) (p : ArgspecResult)
    (hok : StateOk hook s) (hp : s.action = FmtAction.FmtActionParsing)
    (hw : (fmt_walk k s.fmt s.next_arg_ix)[j]? = some (cur, next, p))
    (hs : p.success = true)
    (hix : (if p.arg_ix = -1 then
        s.next_arg_ix + auto_rank (fmt_walk k s.fmt s.next_arg_ix) j
      else p.arg_ix) < s.arg_count) :
    next = s.next_arg_ix + auto_rank (fmt_walk k s.fmt s.next_arg_ix) j ∧
    (∃ pre fo rest,
      fmt_format_arg hook
          (s.args.getD
            (if p.arg_ix = -1 then
                s.next_arg_ix + auto_rank (fmt_walk k s.fmt s.next_arg_ix) j
              else p.arg_ix).toNat FMT_ARG_END)
          p.spec s.userdata (fmt_fresh_output s.text_buf p.spec) = .ok fo ∧
        fmt_all hook
          { s with fmt := p.fmt, next_arg_ix := if p.arg_ix = -1 then next + 1 else next } =
          .ok rest ∧
        fmt_all hook { s with fmt := cur, next_arg_ix := next } = .ok (pending fo ++ rest) ∧
        fmt_all hook s = .ok (pre ++ (pending fo ++ rest))) ∧
    ∀ (state : FmtState) (fmt : List Char) (va : List FmtArg), VaOk hook va →
      StateOk hook (fmt_init state fmt va) ∧
        (fmt_init state fmt va).action = FmtAction.FmtActionParsing ∧
        (fmt_init state fmt va).fmt = fmt ∧ (fmt_init state fmt va).next_arg_ix = 0 := by
  obtain ⟨a1, a2, a3, pre, a4⟩ := fmt_walk_inv hook k s hok hp j (cur, next, p) hw
  dsimp only at a1 a2 a3 a4
  have hix2 : fmt_actual_arg_ix p.arg_ix
      ({ s with fmt := cur, next_arg_ix := next } : FmtState).next_arg_ix <
      ({ s with fmt := cur, next_arg_ix := next } : FmtState).arg_count := by
    dsimp only
    unfold fmt_actual_arg_ix
    rw [a3]
    exact hix
  obtain ⟨fo, rest, h1, _, h2, h3⟩ := placeholder_render hook _ p a1 a2 hs hix2
  refine ⟨a3, ⟨pre, fo, rest, ?_, ?_, h3, ?_⟩, fun state fmt va hva =>
    ⟨fmt_init_ok hook state fmt va hva, rfl, rfl, rfl⟩⟩
  · rw [← h1]
    unfold placeholder_arg fmt_actual_arg_ix
    dsimp only
    rw [a3]
  · rw [← h2]
    unfold after_placeholder fmt_bump_arg_ix
    rw [if_pos hs]
  · have h4 := h3
    rw [fmt_all_eq hook _ a1] at h4
    rw [fmt_all_eq hook s hok, a4, Except.ok.inj h4]

/-- Witness for C10: `{1}{0}{1}` with the arguments `A` and `B` renders `BAB`. -/
theorem positional_arguments_witness :
    fmt_all fmt_custom_arg (fmt_init demo_state "\x7b1\x7d\x7b0\x7d\x7b1\x7d".toList
        [FMT_ARG_CharPtr 4096 "A", FMT_ARG_CharPtr 4100 "B"]) = .ok "BAB".toList := by
  obtain ⟨_, ⟨pre, fo, rest, h1, h2, h3, _⟩, _⟩ := positional_arguments fmt_custom_arg
    (fmt_init demo_state "\x7b1\x7d\x7b0\x7d\x7b1\x7d".toList
      [FMT_ARG_CharPtr 4096 "A", FMT_ARG_CharPtr 4100 "B"])
    4 0 "\x7b1\x7d\x7b0\x7d\x7b1\x7d".toList 0
    { success := true, fmt := "\x7b0\x7d\x7b1\x7d".toList, arg_ix := 1,
      spec :=
        { min_len := 0, custom_start := [], custom_len := 0,
          pad_mode := FmtPadMode.FmtPadLeft, pad_byte := ' ', format := '\x00' } }
    (fmt_init_ok _ _ _ _ (VaOk_of_builtin _ _ (by decide))) rfl rfl rfl (by decide)
  have e1 : fmt_format_arg fmt_custom_arg (FMT_ARG_CharPtr 4100 "B")
      { min_len := 0, custom_start := [], custom_len := 0,
        pad_mode := FmtPadMode.FmtPadLeft, pad_byte := ' ', format := '\x00' } 0
      (fmt_fresh_output []
        { min_len := 0, custom_start := [], custom_len := 0,
          pad_mode := FmtPadMode.FmtPadLeft, pad_byte := ' ', format := '\x00' }) =
      .ok
        { text := ['B'], text_size := 1, pad_pos := 0, pad_size := 0,
          pad_mode := FmtPadMode.FmtPadLeft, pad_byte := ' ' } := rfl
  have e2 : fmt_all fmt_custom_arg
      { fmt_init demo_state "\x7b1\x7d\x7b0\x7d\x7b1\x7d".toList
          [FMT_ARG_CharPtr 4096 "A", FMT_ARG_CharPtr 4100 "B"] with
        fmt := "\x7b0\x7d\x7b1\x7d".toList
        next_arg_ix := 0 } =
      .ok "AB".toList := rfl
  have e4 := h2.symm.trans e2
  cases e4
  have e3 := h1.symm.trans e1
  cases e3
  exact h3

/-- C11 (malformed placeholder diagnostic). Take any state of the machine in the Parsing
action, such as the one `fmt_init` leaves, and any placeholder the scanner meets from there
that `fmt_parse_argspec` rejects. The call is not aborted: the output of the whole is the
output up to the placeholder, then exactly the 13 bytes `{invalid fmt}` with no padding,
then the output of the format from where the parser stopped, scanned with the same
auto-argument counter. -/
theorem invalid_fmt_diagnostic (hook : FmtHook) (s : FmtState) (k j : Nat) (cur : List Char)
    (next : Int) (p : ArgspecResult)
    (hok : StateOk hook s) (hp : s.action = FmtAction.FmtActionParsing)
    (hw : (fmt_walk k s.fmt s.next_arg_ix)[j]? = some (cur, next, p))
    (hs : p.success = false) :
    ∃ pre rest,
      fmt_all hook { s with fmt := p.fmt, next_arg_ix := next } = .ok rest ∧
        fmt_all hook { s with fmt := cur, next_arg_ix := next } =
          .ok ("\x7binvalid fmt\x7d".toList ++ rest) ∧
        fmt_all hook s = .ok (pre ++ ("\x7binvalid fmt\x7d".toList ++ rest)) ∧
        "\x7binvalid fmt\x7d".toList.length = 13 := by
  obtain ⟨a1, a2, _, pre, a4⟩ := fmt_walk_inv hook k s hok hp j (cur, next, p) hw
  dsimp only at a1 a2 a4
  obtain ⟨r, er, _, h1, h2⟩ := placeholder_step hook _ p a1 a2
  have e1 : after_placeholder { s with fmt := cur, next_arg_ix := next } p =
      { s with fmt := p.fmt, next_arg_ix := next } := by
    unfold after_placeholder
    rw [hs]
    rfl
  rw [e1] at h1 h2
  unfold fmt_parse_arg at er
  simp only [a2.2.2.2, hs] at er
  cases er
  have h3 : fmt_all hook { s with fmt := cur, next_arg_ix := next } =
      .ok ("\x7binvalid fmt\x7d".toList ++
        remaining hook { s with fmt := p.fmt, next_arg_ix := next }) := h2
  refine ⟨pre, _, h1, h3, ?_, rfl⟩
  rw [fmt_all_eq hook s hok, a4]
  rw [fmt_all_eq hook _ a1] at h3
  rw [Except.ok.inj h3]

/-- Witness for C11: the rejected placeholder of `{!}b` yields the diagnostic, and the
output goes on from the `!`. -/
theorem invalid_fmt_diagnostic_witness :
    fmt_all fmt_custom_arg (fmt_init demo_state "\x7b!\x7db".toList []) =
      .ok "\x7binvalid fmt\x7d!\x7db".toList := by
  obtain ⟨pre, rest, h1, h2, _, _⟩ := invalid_fmt_diagnostic fmt_custom_arg
    (fmt_init demo_state "\x7b!\x7db".toList []) 3 0 "\x7b!\x7db".toList 0
    { success := false, fmt := "!\x7db".toList, arg_ix := -1,
      spec :=
        { min_len := 0, custom_start := [], custom_len := 0,
          pad_mode := FmtPadMode.FmtPadLeft, pad_byte := ' ', format := '\x00' } }
    (fmt_init_ok _ _ _ _ (VaOk_of_builtin _ _ (by decide))) rfl rfl rfl
  have e1 : fmt_all fmt_custom_arg
      { fmt_init demo_state "\x7b!\x7db".toList [] with
        fmt := "!\x7db".toList
        next_arg_ix := 0 } = .ok "!\x7db".toList := rfl
  have e2 := h1.symm.trans e1
  cases e2
  exact h2

/-- C12 (resumption after a malformed placeholder). In every state of the machine at a
placeholder that `fmt_parse_argspec` rejects, parsing resumes at the character where the
parser stopped, which lies inside the placeholder and is never its closing brace. So when
literal text `mid` and a closing brace follow there, the output after the diagnostic
`{invalid fmt}` is `mid` (which is not empty) and the closing brace, as literal text, and
only then the rendering of the format text behind that brace. -/
theorem malformed_resumption (hook : FmtHook) (s : FmtState) (p : ArgspecResult)
    (mid rest : List Char) (hok : StateOk hook s) (h : PlaceholderAt s p)
    (hs : p.success = false) (hmid : ∀ c ∈ mid, c ≠ '\x7b' ∧ c ≠ '\x00')
    (hf : p.fmt = mid ++ '\x7d' :: rest) :
    mid ≠ [] ∧ p.fmt <:+ s.fmt.tail ∧
      ∃ out, fmt_all hook { s with fmt := rest } = .ok out ∧
        fmt_all hook s =
          .ok ("\x7binvalid fmt\x7d".toList ++ (mid ++ '\x7d' :: out)) := by
  have hne : mid ≠ [] := by
    intro hm
    have := fmt_parse_argspec_failed s.fmt p h.2.2.2 hs
    rw [hf, hm] at this
    exact this rfl
  obtain ⟨r, er, _, _, h2⟩ := placeholder_step hook s p hok h
  have e1 : after_placeholder s p = { s with fmt := mid ++ '\x7d' :: rest } := by
    unfold after_placeholder
    rw [hs, hf]
    rfl
  rw [e1] at h2
  unfold fmt_parse_arg at er
  simp only [h.2.2.2, hs] at er
  cases er
  have hok1 : StateOk hook { s with fmt := rest } :=
    ⟨hok.1, hok.2.1, fun hc => hok.2.2 hc⟩
  have hp : ({ s with fmt := rest } : FmtState).action = FmtAction.FmtActionParsing := h.1
  have hp2 : ({ s with fmt := mid ++ '\x7d' :: rest } : FmtState).action =
      FmtAction.FmtActionParsing := h.1
  refine ⟨hne, (placeholder_spec s p h).1, _, fmt_all_eq hook _ hok1, ?_⟩
  rw [h2, remaining_parsing hook _ hp2, remaining_parsing hook _ hp]
  dsimp only
  have b1 : peek ('\x7d' :: rest) ≠ '\x00' := by
    rw [peek_cons]
    decide
  have b2 : peek ('\x7d' :: rest) ≠ '\x7b' := by
    rw [peek_cons]
    decide
  rw [render_literal_text hook _ _ _ _ mid _ _ hmid,
    render_lit hook _ _ _ _ ('\x7d' :: rest) _ b1 (Or.inl b2)]
  rfl

/-- Witness for C12: behind the diagnostic of `{5 blah }x` come ` blah ` and the closing
brace, then `x`. -/
theorem malformed_resumption_witness :
    fmt_all fmt_custom_arg (fmt_init demo_state "\x7b5 blah \x7dx".toList []) =
      .ok "\x7binvalid fmt\x7d blah \x7dx".toList := by
  obtain ⟨_, _, out, h1, h2⟩ := malformed_resumption fmt_custom_arg
    (fmt_init demo_state "\x7b5 blah \x7dx".toList [])
    { success := false, fmt := " blah \x7dx".toList, arg_ix := 5,
      spec :=
        { min_len := 0, custom_start := [], custom_len := 0,
          pad_mode := FmtPadMode.FmtPadLeft, pad_byte := ' ', format := '\x00' } }
    " blah ".toList "x".toList
    (fmt_init_ok _ _ _ _ (VaOk_of_builtin _ _ (by decide))) ⟨rfl, rfl, by decide, rfl⟩ rfl
    (by decide) rfl
  have e1 : fmt_all fmt_custom_arg
      { fmt_init demo_state "\x7b5 blah \x7dx".toList [] with fmt := "x".toList } =
      .ok "x".toList := rfl
  have e2 := h1.symm.trans e1
  cases e2
  exact h2

/-- Counterexample to C12 as stated: the malformed placeholder of `{!}x` is followed by a
closing brace, and the output behind the diagnostic is `!`, the brace and `x`, not the
rendering `x` of the format text behind the brace. -/
theorem malformed_resumption_counterexample :
    fmt_all fmt_custom_arg (fmt_init demo_state "\x7b!\x7dx".toList []) =
        .ok "\x7binvalid fmt\x7d!\x7dx".toList ∧
      fmt_all fmt_custom_arg (fmt_init demo_state "\x7b!\x7dx".toList []) ≠
        .ok "\x7binvalid fmt\x7dx".toList := by
  constructor
  · rfl
  · intro h
    rw [show fmt_all fmt_custom_arg (fmt_init demo_state "\x7b!\x7dx".toList []) =
      .ok "\x7binvalid fmt\x7d!\x7dx".toList from rfl] at h
    cases h

/-- C13 (placeholder grammar). For every string that starts with an opening brace not
followed by a second one, `fmt_parse_argspec` returns, and it reports success if and only
if the string begins with a placeholder of the grammar
`{` index? (`:` `-`? `0`? width? mode?)? (`|` payload)? `}` in which the index is one
digit from `0` to `8`, the width one or two decimal digits and the mode one of `x`, `b`,
`c`, `p`; on success the cursor is left immediately behind the closing brace of that
placeholder, which is the only way the string can be read by the grammar. -/
theorem placeholder_grammar (t : List Char) (h : peek t ≠ '\x7b') :
    ∃ p, fmt_parse_argspec ('\x7b' :: t) = .ok p ∧
      (p.success = true ↔ ∃ rest, IsPlaceholder '8' ('\x7b' :: t) rest) ∧
      (p.success = true → IsPlaceholder '8' ('\x7b' :: t) p.fmt) ∧
      ∀ rest, IsPlaceholder '8' ('\x7b' :: t) rest → p.fmt = rest := by
  obtain ⟨p, hp, _⟩ := fmt_parse_argspec_ok ('\x7b' :: t) h
  refine ⟨p, hp, ⟨fun hs => ⟨p.fmt, fmt_parse_argspec_sound t p hp hs⟩, ?_⟩,
    fmt_parse_argspec_sound t p hp, ?_⟩
  · rintro ⟨rest, hr⟩
    obtain ⟨p1, e1, s1, _⟩ := fmt_parse_argspec_complete _ rest hr
    rw [hp] at e1
    cases e1
    exact s1
  · intro rest hr
    obtain ⟨p1, e1, _, f1⟩ := fmt_parse_argspec_complete _ rest hr
    rw [hp] at e1
    cases e1
    exact f1

/-- Witness for C13: `{1:-08x|ab}` is accepted and the cursor is left at `z`. -/
theorem placeholder_grammar_witness :
    IsPlaceholder '8' "\x7b1:-08x|ab\x7dz".toList "z".toList := by
  obtain ⟨p, hp, _, h2, _⟩ := placeholder_grammar "1:-08x|ab\x7dz".toList (by decide)
  have e : fmt_parse_argspec ('\x7b' :: "1:-08x|ab\x7dz".toList) =
      .ok { success := true, fmt := "z".toList, arg_ix := 1,
            spec :=
              { min_len := 8, custom_start := "ab\x7dz".toList, custom_len := 2,
                pad_mode := FmtPadMode.FmtPadRight, pad_byte := '0', format := 'x' } } := rfl
  rw [e] at hp
  cases hp
  exact h2 rfl

/-- Counterexample to C13 as stated: `{9}` is a placeholder of the grammar with a decimal
digit as index, and `fmt_parse_argspec` rejects it (the first `switch` has the cases `0`
to `8` only), leaving the cursor at the `9`. -/
theorem placeholder_grammar_counterexample :
    IsPlaceholder '9' "\x7b9\x7d".toList [] ∧
      fmt_parse_argspec "\x7b9\x7d".toList =
        .ok { success := false, fmt := "9\x7d".toList, arg_ix := -1,
              spec :=
                { min_len := 0, custom_start := [], custom_len := 0,
                  pad_mode := FmtPadMode.FmtPadLeft, pad_byte := ' ', format := '\x00' } } := by
  refine ⟨⟨['9'], [], [], Or.inr ⟨'9', rfl, by decide, by decide⟩, Or.inl rfl, Or.inl rfl,
    rfl⟩, rfl⟩

/-- C14 (decimal rendering). For every 64-bit signed value `n`, `INT64_MIN` included,
`show_S64_dec` writes the canonical decimal text of `n`, which is what `toString` prints: a
minus sign followed by the digits of the absolute value when `n` is negative, with no
leading zero; for every 64-bit unsigned value `u`, `show_U64_dec` writes the canonical
decimal digits of `u`; both return the number of bytes written, and both render zero as
the single digit `0`. -/
theorem decimal_rendering (n : Int) (u : Nat) (hn : -2 ^ 63 ≤ n ∧ n < 2 ^ 63)
    (hu : u < 2 ^ 64) :
    show_S64_dec n = (int_text n, (int_text n).length) ∧
      show_U64_dec u = (digits_text 10 u, (digits_text 10 u).length) ∧
      String.mk (int_text n) = toString n ∧ String.mk (digits_text 10 u) = toString u ∧
      (n < 0 → int_text n = '-' :: digits_text 10 n.natAbs) ∧
      (0 ≤ n → int_text n = digits_text 10 n.toNat) ∧
      (n ≠ 0 → (digits_text 10 n.natAbs).head? ≠ some '0') ∧
      (u ≠ 0 → (digits_text 10 u).head? ≠ some '0') ∧
      (n = 0 → show_S64_dec n = (['0'], 1)) ∧ (u = 0 → show_U64_dec u = (['0'], 1)) := by
  refine ⟨show_S64_dec_eq n hn.1 hn.2, show_U64_dec_eq u hu, int_text_toString n,
    digits_text_toString u, ?_, ?_, ?_, ?_, ?_, ?_⟩
  · intro h
    unfold int_text
    rw [if_pos h]
  · intro h
    unfold int_text
    rw [if_neg (by omega)]
  · intro h
    exact (digits_text_head 10 n.natAbs (by omega)).1
  · intro h
    exact (digits_text_head 10 u h).1
  · intro h
    rw [h]
    rfl
  · intro h
    rw [h]
    rfl

/-- Witness for C14: `INT64_MIN` and the largest 64-bit unsigned value. -/
theorem decimal_rendering_witness :
    show_S64_dec (-9223372036854775808) = ("-9223372036854775808".toList, 20) ∧
      show_U64_dec 18446744073709551615 = ("18446744073709551615".toList, 20) := by
  obtain ⟨h1, h2, h3, h4, _⟩ := decimal_rendering (-9223372036854775808) 18446744073709551615
    ⟨by norm_num, by norm_num⟩ (by norm_num)
  have e1 : int_text (-9223372036854775808) = "-9223372036854775808".toList :=
    (congrArg String.data h3).trans (by decide)
  have e2 : digits_text 10 18446744073709551615 = "18446744073709551615".toList :=
    (congrArg String.data h4).trans (by decide)
  rw [h1, h2, e1, e2]
  exact ⟨rfl, rfl⟩

/-- C15 (hex and binary rendering). For every 64-bit unsigned value `n`, `show_U64_hex`
writes exactly the base-16 digits of `n` in lowercase and `show_U64_bin` exactly its base-2
digits, most significant digit first, with no leading zero and no prefix (the texts are
those of `Nat.toDigits`); both return the digit count, and both render zero as the single
digit `0`. -/
theorem hex_bin_rendering (n : Nat) (hn : n < 2 ^ 64) :
    show_U64_hex n = (digits_text 16 n, (digits_text 16 n).length) ∧
      show_U64_bin n = (digits_text 2 n, (digits_text 2 n).length) ∧
      digits_text 16 n = Nat.toDigits 16 n ∧ digits_text 2 n = Nat.toDigits 2 n ∧
      (∀ c ∈ digits_text 16 n, c ∈ "0123456789abcdef".toList) ∧
      (∀ c ∈ digits_text 2 n, c = '0' ∨ c = '1') ∧
      (n ≠ 0 → (digits_text 16 n).head? ≠ some '0' ∧ (digits_text 2 n).head? ≠ some '0') ∧
      (n = 0 → show_U64_hex n = (['0'], 1) ∧ show_U64_bin n = (['0'], 1)) := by
  refine ⟨show_U64_hex_text n hn, show_U64_bin_eq n hn,
    digits_text_eq_toDigits 16 (by norm_num) n, digits_text_eq_toDigits 2 (by norm_num) n,
    ?_, ?_, ?_, ?_⟩
  · intro c hc
    obtain ⟨d, hd, e⟩ := digits_text_mem 16 (by norm_num) n c hc
    rw [e]
    interval_cases d <;> decide
  · intro c hc
    obtain ⟨d, hd, e⟩ := digits_text_mem 2 (by norm_num) n c hc
    rw [e]
    interval_cases d
    · exact Or.inl rfl
    · exact Or.inr rfl
  · intro h
    exact ⟨(digits_text_head 16 n h).1, (digits_text_head 2 n h).1⟩
  · intro h
    rw [h]
    exact ⟨rfl, rfl⟩

/-- Witness for C15: the value `0xa66e` of the demo, in hex and in binary. -/
theorem hex_bin_rendering_witness :
    show_U64_hex 0xa66e = ("a66e".toList, 4) ∧
      show_U64_bin 0xa66e = ("1010011001101110".toList, 16) := by
  obtain ⟨h1, h2, h3, h4, _⟩ := hex_bin_rendering 0xa66e (by norm_num)
  have e1 : digits_text 16 0xa66e = "a66e".toList := h3.trans (by decide)
  have e2 : digits_text 2 0xa66e = "1010011001101110".toList := h4.trans (by decide)
  rw [h1, h2, e1, e2]
  exact ⟨rfl, rfl⟩

/-- C16 (completion signal). A call of `fmt_chunk` returns false if and only if it has
produced zero bytes and the machine is in the Done action when it returns. Once the
machine is Done, every further call returns false, sets `size` to 0 and changes no other
field of the state (nor the buffer), however many calls follow. -/
theorem completion_signal (hook : FmtHook) (s : FmtState) (buf : Option (List Char))
    (n : Nat) (hok : StateOk hook s) :
    ∃ r, fmt_chunk hook s buf n = .ok r ∧
      (r.ret = false ↔ (r.state.size = 0 ∧ r.state.action = FmtAction.FmtActionDone)) ∧
      (r.state.action = FmtAction.FmtActionDone →
        (∀ (buf2 : Option (List Char)) (n2 : Nat),
          fmt_chunk hook r.state buf2 n2 =
            .ok { ret := false, state := { r.state with size := 0 }, buf := buf2 }) ∧
        ∀ calls : List (Option (List Char) × Nat), calls ≠ [] →
          fmt_chunks hook calls r.state = .ok { r.state with size := 0 }) := by
  obtain ⟨r, hr, _⟩ := fmt_chunk_any hook s buf n hok
  exact ⟨r, hr, fmt_chunk_ret hook s buf n r hr, fun hd =>
    ⟨fun buf2 n2 => fmt_chunk_done hook r.state buf2 n2 hd,
      fun calls hc => fmt_chunks_done hook calls r.state hd hc⟩⟩

/-- Witness for C16: `ab` into a buffer of four bytes; the first call returns true with two
bytes and leaves the machine Done, the second returns false with `size` 0. -/
theorem completion_signal_witness :
    ∃ r, fmt_chunk fmt_custom_arg (fmt_init demo_state "ab".toList [])
        (some "....".toList) 4 = .ok r ∧ r.ret = true ∧ r.state.size = 2 ∧
      fmt_chunk fmt_custom_arg r.state (some "....".toList) 4 =
        .ok { ret := false, state := { r.state with size := 0 }, buf := some "....".toList } := by
  obtain ⟨r, hr, _, h2⟩ := completion_signal fmt_custom_arg
    (fmt_init demo_state "ab".toList []) (some "....".toList) 4
    (fmt_init_ok _ _ _ _ (VaOk_of_builtin _ _ (by decide)))
  have e : fmt_chunk fmt_custom_arg (fmt_init demo_state "ab".toList [])
      (some "....".toList) 4 =
      .ok { ret := true,
            state := { fmt_init demo_state "ab".toList [] with
              fmt := [], size := 2, action := FmtAction.FmtActionDone },
            buf := some "ab..".toList } := rfl
  rw [e] at hr
  cases hr
  exact ⟨_, e, rfl, rfl, (h2 rfl).1 _ _⟩

/-- C17 (bounded write without terminator). For every state of the machine and every
buffer `b` of capacity `N`, `fmt_chunk` sets `size` to at most `N`, stores the next `size`
bytes of the output at the indices below `size`, and leaves every byte of the buffer at an
index from `size` on as it was: no terminator is written. -/
theorem bounded_write (hook : FmtHook) (s : FmtState) (b : List Char) (N : Nat)
    (hok : StateOk hook s) (hN : N ≤ b.length) :
    ∃ r b1, fmt_chunk hook s (some b) N = .ok r ∧ r.buf = some b1 ∧
      r.state.size ≤ N ∧ b1.length = b.length ∧
      b1.take r.state.size = (remaining hook s).take N ∧
      b1.drop r.state.size = b.drop r.state.size ∧
      ∀ i, r.state.size ≤ i → b1[i]? = b[i]? := by
  obtain ⟨r, hr, hb, hsz, _⟩ := fmt_chunk_buf hook s b N hok
  have hle : ((remaining hook s).take N).length ≤ N := by
    rw [List.length_take]
    exact Nat.min_le_left _ _
  refine ⟨r, _, hr, hb, ?_, ?_, ?_, ?_, ?_⟩
  · rw [hsz]
    exact hle
  · rw [List.length_append, List.length_drop]
    omega
  · rw [hsz, List.take_left']
    rfl
  · rw [hsz, List.drop_left']
    rfl
  · intro i hi
    rw [hsz] at hi
    rw [List.getElem?_append_right hi, List.getElem?_drop]
    congr 1
    omega

/-- Witness for C17: `abcdef` into a buffer of six bytes with capacity four. -/
theorem bounded_write_witness :
    ∃ r, fmt_chunk fmt_custom_arg (fmt_init demo_state "abcdef".toList [])
        (some "......".toList) 4 = .ok r ∧ r.buf = some "abcd..".toList ∧
      r.state.size = 4 := by
  obtain ⟨r, b1, hr, _, _⟩ := bounded_write fmt_custom_arg
    (fmt_init demo_state "abcdef".toList []) "......".toList 4
    (fmt_init_ok _ _ _ _ (VaOk_of_builtin _ _ (by decide))) (by decide)
  have e : fmt_chunk fmt_custom_arg (fmt_init demo_state "abcdef".toList [])
      (some "......".toList) 4 =
      .ok { ret := true,
            state := { fmt_init demo_state "abcdef".toList [] with
              fmt := "ef".toList, size := 4 },
            buf := some "abcd..".toList } := rfl
  rw [e] at hr
  cases hr
  exact ⟨_, e, rfl, rfl⟩

/-- C18 (unknown type). In every state of the machine at a well-formed placeholder whose
resolved index is in range, when the argument is not handled as a builtin kind (the mode is
not `p`, and the tag, for instance `FmtArgUnknown`, is none of the tags the `switch` has a
case for) and the hook returns false without changing the output descriptor, the rendered
text is exactly `{unknown type}`; it is padded to the width like any other text, and the
output goes on with the rendering of what follows the placeholder. -/
theorem unknown_type (hook : FmtHook) (s : FmtState) (p : ArgspecResult) (d : FmtStorage)
    (hok : StateOk hook s) (h : PlaceholderAt s p) (hs : p.success = true)
    (hix : fmt_actual_arg_ix p.arg_ix s.next_arg_ix < s.arg_count)
    (hd : (placeholder_arg s p).data = some d)
    (hnp : p.spec.format ≠ 'p')
    (hty : ¬isBuiltin (placeholder_arg s p).type ∧
      (placeholder_arg s p).type ≠ FmtArgFirstBuiltin)
    (hhook : ∀ fo, hook (placeholder_arg s p) p.spec s.userdata fo = (false, fo)) :
    ∃ t rest,
      fmt_format_text hook (placeholder_arg s p) d p.spec s.userdata
        (fmt_fresh_output s.text_buf p.spec) = .ok t ∧
      t.text.take t.text_size = "\x7bunknown type\x7d".toList ∧
      fmt_all hook (after_placeholder s p) = .ok rest ∧
      fmt_all hook s =
        .ok ((if p.spec.pad_mode = FmtPadMode.FmtPadRight then
            "\x7bunknown type\x7d".toList ++ List.replicate (p.spec.min_len - 14) p.spec.pad_byte
          else
            List.replicate (p.spec.min_len - 14) p.spec.pad_byte ++
              "\x7bunknown type\x7d".toList) ++ rest) ∧
      (p.spec.min_len = 0 →
        fmt_all hook s = .ok ("\x7bunknown type\x7d".toList ++ rest)) := by
  obtain ⟨fo, rest, hf, _, h1, h2⟩ := placeholder_render hook s p hok h hs hix
  have hspec := (placeholder_spec s p h).2.1
  have ht := fmt_format_text_unknown hook (placeholder_arg s p) d p.spec s.userdata
    (fmt_fresh_output s.text_buf p.spec) hnp hty.1 hty.2 (hhook _)
  unfold fmt_format_arg at hf
  simp only [hd, ht] at hf
  obtain ⟨pr, pl, _⟩ := fmt_format_pad_pending p.spec _ fo rfl hf
  have hout : fmt_all hook s =
      .ok ((if p.spec.pad_mode = FmtPadMode.FmtPadRight then
          "\x7bunknown type\x7d".toList ++ List.replicate (p.spec.min_len - 14) p.spec.pad_byte
        else
          List.replicate (p.spec.min_len - 14) p.spec.pad_byte ++
            "\x7bunknown type\x7d".toList) ++ rest) := by
    rw [h2]
    rcases hspec.2.1 with hm | hm
    · rw [if_neg (by rw [hm]; decide), pl hm]
      rfl
    · rw [if_pos hm, pr hm]
      rfl
  refine ⟨_, rest, ht, rfl, h1, hout, ?_⟩
  intro hw
  rw [hout, hw]
  split <;> rfl

/-- Witness for C18: an argument with the tag `FmtArgUnknown` and the default hook, as in
the demo (`unknown type {}`). -/
theorem unknown_type_witness :
    fmt_all fmt_custom_arg (fmt_init demo_state "\x7b\x7d!".toList
        [{ data := some { word := 4096, str := [] }, type := FmtArgUnknown }]) =
      .ok "\x7bunknown type\x7d!".toList := by
  obtain ⟨t, rest, _, _, h1, _, h3⟩ := unknown_type fmt_custom_arg
    (fmt_init demo_state "\x7b\x7d!".toList
      [{ data := some { word := 4096, str := [] }, type := FmtArgUnknown }])
    { success := true, fmt := "!".toList, arg_ix := -1,
      spec :=
        { min_len := 0, custom_start := [], custom_len := 0,
          pad_mode := FmtPadMode.FmtPadLeft, pad_byte := ' ', format := '\x00' } }
    { word := 4096, str := [] }
    (fmt_init_ok _ _ _ _ (VaOk_default _ (by
      intro a ha d hd hc
      simp only [List.mem_singleton] at ha
      rw [ha] at hc
      exact absurd hc (by decide))))
    ⟨rfl, rfl, by decide, rfl⟩ rfl (by decide) rfl (by decide)
    ⟨by unfold isBuiltin; decide, by decide⟩
    (fun _ => rfl)
  have e1 : fmt_all fmt_custom_arg (after_placeholder
      (fmt_init demo_state "\x7b\x7d!".toList
        [{ data := some { word := 4096, str := [] }, type := FmtArgUnknown }])
      { success := true, fmt := "!".toList, arg_ix := -1,
        spec :=
          { min_len := 0, custom_start := [], custom_len := 0,
            pad_mode := FmtPadMode.FmtPadLeft, pad_byte := ' ', format := '\x00' } }) =
      .ok "!".toList := rfl
  have e2 := h1.symm.trans e1
  cases e2
  exact h3 rfl

/-- C19 (termination of a chunk call). From every state of the machine, whatever the
format string holds (malformed placeholders, bad indices, unknown types) and for every
buffer and capacity (size-only mode and capacity 0 included), a call of `fmt_chunk`
returns: its loop ends within `2 * |fmt| + 3` iterations, without a fault, in a state of
the machine. The loop is the iteration of its body, and each iteration, unless it leaves
the loop, moves the format cursor forward by at least one character, or finishes draining
the current placeholder (back to Parsing, cursor in place), or finds the terminator and
sets the Done action, on which the next iteration leaves the loop; each time the measure
`loopMeasure` of the state decreases. -/
theorem chunk_terminates (hook : FmtHook) (s : FmtState) (buf : Option (List Char)) (n : Nat)
    (hok : StateOk hook s) :
    (∃ r, fmt_chunk hook s buf n = .ok r ∧ StateOk hook r.state) ∧
      loopMeasure s ≤ fmt_chunk_budget s ∧
      (∀ (cap : Option Nat) (out : List Char) (sw : Nat),
        ∃ x, fmt_chunk_iter hook cap s out sw = .ok x ∧ StateOk hook x.2.1 ∧
          (x.1 = false →
            ((x.2.1.fmt <:+ s.fmt.tail ∧ x.2.1.fmt.length < s.fmt.length) ∨
              (s.action = FmtAction.FmtActionFormatting ∧
                x.2.1.action = FmtAction.FmtActionParsing ∧ x.2.1.fmt = s.fmt) ∨
              (s.action = FmtAction.FmtActionParsing ∧ peek s.fmt = '\x00' ∧
                x.2.1.action = FmtAction.FmtActionDone)) ∧
              loopMeasure x.2.1 < loopMeasure s)) ∧
      ∀ (k : Nat) (cap : Option Nat) (s1 : FmtState) (out : List Char) (sw : Nat),
        fmt_chunk_loop hook (k + 1) cap s1 out sw =
          match fmt_chunk_iter hook cap s1 out sw with
          | .error e => .error e
          | .ok x =>
            if x.1 then .ok x.2 else fmt_chunk_loop hook k cap x.2.1 x.2.2.1 x.2.2.2 := by
  obtain ⟨r, hr, _, hok1⟩ := fmt_chunk_any hook s buf n hok
  exact ⟨⟨r, hr, hok1⟩, loopMeasure_le_budget s,
    fun cap out sw => fmt_chunk_iter_progress hook cap s out sw hok,
    fun k cap s1 out sw => fmt_chunk_loop_succ hook k cap s1 out sw⟩

/-- Witness for C19: a format with a malformed placeholder, a bad index and an argument of
unknown type, with a buffer of capacity 0. -/
theorem chunk_terminates_witness :
    ∃ r, fmt_chunk fmt_custom_arg (fmt_init demo_state "\x7b!\x7d\x7b7\x7d\x7b\x7d".toList
        [{ data := some { word := 4096, str := [] }, type := FmtArgUnknown }])
      (some []) 0 = .ok r :=
  (chunk_terminates fmt_custom_arg
    (fmt_init demo_state "\x7b!\x7d\x7b7\x7d\x7b\x7d".toList
      [{ data := some { word := 4096, str := [] }, type := FmtArgUnknown }])
    (some []) 0
    (fmt_init_ok _ _ _ _ (VaOk_default _ (by
      intro a ha d hd hc
      simp only [List.mem_singleton] at ha
      rw [ha] at hc
      exact absurd hc (by decide))))).1.imp fun _ h => h.1

/-- C20 (Parsing-mode invariant). `fmt_chunk` keeps the invariant: from a state of the
machine in which `text_size = 0` and `pad_size = 0` hold whenever the mode is Parsing, every
sequence of `fmt_chunk` calls returns and ends in such a state, and an iteration of the
loop goes from Formatting to Parsing only with both at zero. `fmt_init` and `fmt_reset` do
not establish it: they set the Parsing mode and leave `format_output` as they find it. -/
theorem parsing_invariant (hook : FmtHook) (s : FmtState)
    (calls : List (Option (List Char) × Nat)) (hok : StateOk hook s) (hc : ParsingClean s) :
    (∃ s1, fmt_chunks hook calls s = .ok s1 ∧ ParsingClean s1) ∧
      (∀ (cap : Option Nat) (out : List Char) (sw : Nat)
        (x : Bool × FmtState × List Char × Nat),
        fmt_chunk_iter hook cap s out sw = .ok x →
        s.action = FmtAction.FmtActionFormatting →
        x.2.1.action = FmtAction.FmtActionParsing →
        x.2.1.format_output.text_size = 0 ∧ x.2.1.format_output.pad_size = 0) ∧
      (∀ (state : FmtState) (fmt : List Char) (va : List FmtArg),
        (fmt_init state fmt va).action = FmtAction.FmtActionParsing ∧
          (fmt_init state fmt va).format_output = state.format_output) ∧
      (fmt_reset s).action = FmtAction.FmtActionParsing ∧
      (fmt_reset s).format_output = s.format_output :=
  ⟨fmt_chunks_clean hook calls s hok hc,
    fun cap out sw x hx => (fmt_chunk_iter_clean hook cap s out sw x hx).2,
    fun _ _ _ => ⟨rfl, rfl⟩, rfl, rfl⟩

/-- Witness for C20: `{}!` with the argument `hello`, drained into buffers of two and of
three bytes; the second call stops in the Parsing mode, before the `!`, with both sizes at
zero. -/
theorem parsing_invariant_witness :
    ∃ s1, fmt_chunks fmt_custom_arg [(some "..".toList, 2), (some "...".toList, 3)]
        (fmt_init zero_state "\x7b\x7d!".toList [FMT_ARG_CharPtr 4096 "hello"]) = .ok s1 ∧
      s1.action = FmtAction.FmtActionParsing ∧ s1.format_output.text_size = 0 ∧
      s1.format_output.pad_size = 0 := by
  obtain ⟨⟨s1, h1, h2⟩, _⟩ := parsing_invariant fmt_custom_arg
    (fmt_init zero_state "\x7b\x7d!".toList [FMT_ARG_CharPtr 4096 "hello"])
    [(some "..".toList, 2), (some "...".toList, 3)]
    (fmt_init_ok _ _ _ _ (VaOk_of_builtin _ _ (by decide))) (fun _ => ⟨rfl, rfl⟩)
  have e : (fmt_chunks fmt_custom_arg [(some "..".toList, 2), (some "...".toList, 3)]
      (fmt_init zero_state "\x7b\x7d!".toList [FMT_ARG_CharPtr 4096 "hello"])).toOption.map
      (fun s => s.action) = some FmtAction.FmtActionParsing := by decide
  rw [h1] at e
  have ha : s1.action = FmtAction.FmtActionParsing := by
    simpa [Except.toOption] using e
  exact ⟨s1, h1, ha, (h2 ha).1, (h2 ha).2⟩

/-- Counterexample to C20 as stated: from `fmt_init` on zeroed memory, with the format `{}`
and the argument `hello`, a call of `fmt_chunk` with a buffer of two bytes stops in the
middle of the placeholder, and `fmt_reset` then sets the Parsing mode while `text_size` is
still 3. -/
theorem parsing_invariant_counterexample :
    ∃ s, fmt_run fmt_custom_arg [FmtCall.chunk (some "..".toList) 2, FmtCall.reset]
        (fmt_init zero_state "\x7b\x7d".toList [FMT_ARG_CharPtr 4096 "hello"]) = .ok s ∧
      s.action = FmtAction.FmtActionParsing ∧ s.format_output.text_size = 3 :=
  ⟨_, rfl, rfl, rfl⟩

/-- C21 (pad-position invariant). For every pack of arguments the machine can render (in
particular arguments of the builtin kinds with the default hook), in every state reached
from `fmt_init` through calls of `fmt_chunk` with any buffers and capacities (and calls of
`fmt_reset`), `pad_pos <= text_size` holds whenever the machine is in the Formatting mode,
and none of the calls fails an assertion. The invariant is established by `fmt_format_arg`
from the fresh descriptor of a placeholder, and kept by every drain into a buffer. -/
theorem pad_pos_invariant (hook : FmtHook) (state : FmtState) (fmt : List Char)
    (va : List FmtArg) (calls : List FmtCall) (hva : VaOk hook va) :
    (∃ s1, fmt_run hook calls (fmt_init state fmt va) = .ok s1 ∧
      (s1.action = FmtAction.FmtActionFormatting →
        s1.format_output.pad_pos ≤ s1.format_output.text_size)) ∧
      (∀ (arg : FmtArg) (spec : FmtSpec) (userdata : Nat) (text_buf : List Char),
        SpecOk spec → ArgOk hook arg →
        ∃ fo, fmt_format_arg hook arg spec userdata (fmt_fresh_output text_buf spec) = .ok fo ∧
          fo.pad_pos ≤ fo.text_size) ∧
      ∀ (fo : FmtFormatOutput) (cap : Nat) (out : List Char) (sw : Nat), FoOk fo →
        ∃ e, fmt_emit (some cap) fo out sw = .ok e ∧
          e.format_output.pad_pos ≤ e.format_output.text_size := by
  refine ⟨?_, ?_, ?_⟩
  · obtain ⟨s1, h1, _, hok⟩ := fmt_run_ok hook calls _ (fmt_init_ok hook state fmt va hva)
    exact ⟨s1, h1, fun ha => (hok.2.2 ha).1⟩
  · intro arg spec userdata text_buf hspec harg
    obtain ⟨fo, hfo, hok⟩ := fmt_format_arg_ok hook arg spec userdata
      (fmt_fresh_output text_buf spec) hspec harg hspec.2.1 ⟨rfl, rfl⟩
    exact ⟨fo, hfo, hok.1⟩
  · intro fo cap out sw hfo
    obtain ⟨e, he, _, _, _, hok⟩ := fmt_emit_buf cap fo out sw hfo
    exact ⟨e, he, hok.1⟩

/-- Witness for C21: a zero-padded pointer (`pad_pos = 2`) drained into buffers of one and
of three bytes, with a reset in between. -/
theorem pad_pos_invariant_witness :
    ∃ s1, fmt_run fmt_custom_arg
        [FmtCall.chunk (some ".".toList) 1, FmtCall.reset, FmtCall.chunk (some "...".toList) 3]
        (fmt_init demo_state "\x7b:08p\x7d".toList [FMT_ARG_VoidPtr 4096]) = .ok s1 ∧
      (s1.action = FmtAction.FmtActionFormatting →
        s1.format_output.pad_pos ≤ s1.format_output.text_size) :=
  (pad_pos_invariant fmt_custom_arg demo_state "\x7b:08p\x7d".toList
    [FMT_ARG_VoidPtr 4096]
    [FmtCall.chunk (some ".".toList) 1, FmtCall.reset, FmtCall.chunk (some "...".toList) 3]
    (VaOk_of_builtin _ _ (by decide))).1

/-- C22 (parsed FormatSpec fields). Take a placeholder given by its components: an index
`ix`, behind a colon the flag `m` (`-` or nothing), the digits `z` and `w` (an optional
`0` and at most two width digits) and the mode character `c`, and behind a bar the payload.
`fmt_parse_argspec` accepts it, leaves the cursor behind the closing brace, and returns the
components: the argument index is the index digit, or -1 without one; the pad mode is right
if and only if the `-` flag is there, and left otherwise; the pad byte is `0` if and only if
the zero flag is there, that is if the digits behind the optional `-` begin with `0`, and a
blank otherwise; `min_len` is the decimal value of the width digits, 0 without them and
never above 99; `format` is the mode character, or 0; and `custom_start`, `custom_len`
denote exactly the payload between the bar and the closing brace, with length 0 without a
bar. Every placeholder that the parser accepts is made of such components. -/
theorem parsed_spec_fields (ix m z w c payload rest : List Char) (colon bar : Bool)
    (hix : IsIndexPart '8' ix) (hm : m = [] ∨ m = ['-']) (hz : z = [] ∨ z = ['0'])
    (hw : w.length ≤ 2 ∧ ∀ d ∈ w, d.isDigit = true)
    (hc : c = [] ∨ c = ['x'] ∨ c = ['b'] ∨ c = ['c'] ∨ c = ['p'])
    (hp : ∀ x ∈ payload, x ≠ '\x7d' ∧ x ≠ '\x00')
    (hcolon : colon = false → m = [] ∧ z = [] ∧ w = [] ∧ c = [])
    (hbar : bar = false → payload = []) :
    (∃ p, fmt_parse_argspec ('\x7b' :: (ix ++
          ((if colon then ':' :: (m ++ (z ++ (w ++ c))) else []) ++
            ((if bar then '|' :: payload else []) ++ '\x7d' :: rest)))) = .ok p ∧
        p.success = true ∧ p.fmt = rest ∧
        p.arg_ix = index_value ix ∧
        (p.spec.pad_mode = FmtPadMode.FmtPadRight ↔ m = ['-']) ∧
        (p.spec.pad_mode = FmtPadMode.FmtPadLeft ↔ m = []) ∧
        (p.spec.pad_byte = '0' ↔ (z ++ w).head? = some '0') ∧
        (p.spec.pad_byte = ' ' ↔ (z ++ w).head? ≠ some '0') ∧
        p.spec.min_len = width_value w ∧ p.spec.min_len ≤ 99 ∧
        p.spec.format = c.headD '\x00' ∧
        p.spec.custom_len = payload.length ∧
        p.spec.custom_start.take p.spec.custom_len = payload ∧
        (bar = true → p.spec.custom_start = payload ++ '\x7d' :: rest) ∧
        (bar = false → p.spec.custom_start = [])) ∧
      ∀ (t : List Char) (q : ArgspecResult), fmt_parse_argspec ('\x7b' :: t) = .ok q →
        q.success = true →
        ∃ (ix1 m1 z1 w1 c1 payload1 : List Char) (colon1 bar1 : Bool),
          IsIndexPart '8' ix1 ∧ (m1 = [] ∨ m1 = ['-']) ∧ (z1 = [] ∨ z1 = ['0']) ∧
            (w1.length ≤ 2 ∧ ∀ d ∈ w1, d.isDigit = true) ∧
            (c1 = [] ∨ c1 = ['x'] ∨ c1 = ['b'] ∨ c1 = ['c'] ∨ c1 = ['p']) ∧
            (∀ x ∈ payload1, x ≠ '\x7d' ∧ x ≠ '\x00') ∧
            (colon1 = false → m1 = [] ∧ z1 = [] ∧ w1 = [] ∧ c1 = []) ∧
            '\x7b' :: t =
              '\x7b' :: (ix1 ++ ((if colon1 then ':' :: (m1 ++ (z1 ++ (w1 ++ c1))) else []) ++
                ((if bar1 then '|' :: payload1 else []) ++ '\x7d' :: q.fmt))) := by
  refine ⟨⟨_, fmt_parse_argspec_fields ix m z w c payload rest colon bar hix hm hz hw hc hp
    hcolon, rfl, rfl, rfl, ?_⟩,
    fun t q hq hs => placeholder_components _ _ (fmt_parse_argspec_sound t q hq hs)⟩
  have hwl := width_value_le w hw
  have h1 : (if m = ['-'] then FmtPadMode.FmtPadRight else FmtPadMode.FmtPadLeft) =
      FmtPadMode.FmtPadRight ↔ m = ['-'] := by
    rcases hm with h | h <;> simp [h]
  have h2 : (if m = ['-'] then FmtPadMode.FmtPadRight else FmtPadMode.FmtPadLeft) =
      FmtPadMode.FmtPadLeft ↔ m = [] := by
    rcases hm with h | h <;> simp [h]
  have h3 : (if (z ++ w).head? = some '0' then '0' else ' ') = '0' ↔
      (z ++ w).head? = some '0' := by
    by_cases h : (z ++ w).head? = some '0'
    · rw [if_pos h]; exact ⟨fun _ => h, fun _ => rfl⟩
    · rw [if_neg h]; exact ⟨fun e => absurd e (by decide), fun e => absurd e h⟩
  have h4 : (if (z ++ w).head? = some '0' then '0' else ' ') = ' ' ↔
      (z ++ w).head? ≠ some '0' := by
    by_cases h : (z ++ w).head? = some '0'
    · rw [if_pos h]; exact ⟨fun e => absurd e (by decide), fun e => absurd h e⟩
    · rw [if_neg h]; exact ⟨fun _ => h, fun _ => rfl⟩
  cases bar with
  | true =>
    exact ⟨h1, h2, h3, h4, rfl, hwl, rfl, rfl, List.take_left' rfl, fun _ => rfl,
      fun h => (by cases h)⟩
  | false =>
    have hpl := hbar rfl
    subst hpl
    exact ⟨h1, h2, h3, h4, rfl, hwl, rfl, rfl, rfl, fun h => (by cases h), fun _ => rfl⟩

/-- Witness for C22: `{1:08}` gives the index 1, the pad byte `0` and the width 8. -/
theorem parsed_spec_fields_witness :
    ∃ p, fmt_parse_argspec "\x7b1:08\x7d".toList = .ok p ∧ p.success = true ∧
      p.arg_ix = 1 ∧ p.spec.pad_byte = '0' ∧ p.spec.min_len = 8 := by
  obtain ⟨⟨p, hp, hs, _, ha, _, _, hb, _, hmin, _⟩, _⟩ := parsed_spec_fields
    ['1'] [] ['0'] ['8'] [] [] [] true false
    (Or.inr ⟨'1', rfl, by decide, by decide⟩) (Or.inl rfl) (Or.inr rfl)
    ⟨by decide, by decide⟩ (Or.inl rfl) (by simp) (fun h => by cases h) (fun _ => rfl)
  exact ⟨p, hp, hs, ha.trans (by decide), hb.2 (by decide), hmin.trans (by decide)⟩

/-- C23 (dynamic array append). After `DYN_ARR_RESET(a, c)` with a capacity `c` from 1 to
below `2 ^ 32`, appending the values `vs` one by one with `DYN_ARR_APPEND`, with the
allocations succeeding and every doubled capacity below `2 ^ 32` (a capacity `c * 2 ^ k`
is doubled when more than that many values are appended), ends without a fault,
`DYN_ARR_SIZE(a)` is the number of values and `DYN_ARR_AT(a, i)` is the `i`-th value for
every `i` below it, however often the capacity was doubled; `DYN_ARR_CLEAR` then makes
`DYN_ARR_SIZE(a)` zero. -/
theorem dyn_arr_append {α : Type} (al : Allocator α) (a0 : DynArr α) (c : Nat) (vs : List α)
    (hc : 1 ≤ c) (hc2 : c < 2 ^ 32) (hm : al.malloc_fails c = false)
    (hr : ∀ n, al.realloc_fails n = false)
    (hH : ∀ k, c * 2 ^ k < vs.length → c * 2 ^ (k + 1) < 2 ^ 32) :
    ∃ a, dyn_arr_appends al (DYN_ARR_RESET al a0 c) vs = .ok a ∧
      DYN_ARR_SIZE a = vs.length ∧
      (∀ i, i < vs.length → DYN_ARR_AT a i = vs[i]?) ∧
      DYN_ARR_SIZE (DYN_ARR_CLEAR a) = 0 := by
  obtain ⟨a, ha, hh⟩ := dyn_arr_appends_holds al c vs.length hc hr hH vs
    (DYN_ARR_RESET al a0 c) [] (by simp) (DYN_ARR_RESET_holds al a0 c hc2 hm)
  rw [List.nil_append] at hh
  obtain ⟨blk, k, hd, hl, he, hle, ht, hcap, _, _⟩ := hh
  refine ⟨a, ha, ?_, fun i hi => ?_, rfl⟩
  · unfold DYN_ARR_SIZE
    rw [he]
    have hlt : vs.length < 2 ^ 32 := lt_of_le_of_lt hle hcap
    have : ((vs.length : Int)) % ((2 ^ 32 : Nat) : Int) = (vs.length : Int) :=
      Int.emod_eq_of_lt (Int.natCast_nonneg _) (by exact_mod_cast hlt)
    rw [this, Int.toNat_ofNat]
  · simp only [DYN_ARR_AT, hd]
    rw [← ht, List.getElem?_take_of_lt hi]

/-- Witness for C23: three values appended to an array of capacity 1, which is doubled
twice on the way. -/
theorem dyn_arr_append_witness :
    ∃ a, dyn_arr_appends
        { malloc_fails := fun _ => false, realloc_fails := fun _ => false,
          fresh := fun _ => 0 }
        (DYN_ARR_RESET
          { malloc_fails := fun _ => false, realloc_fails := fun _ => false,
            fresh := fun _ => 0 }
          { data := none, endptr := 0, capacity := 0 } 1) [10, 20, 30] = .ok a ∧
      DYN_ARR_SIZE a = 3 ∧
      (∀ i, i < 3 → DYN_ARR_AT a i = [10, 20, 30][i]?) ∧
      DYN_ARR_SIZE (DYN_ARR_CLEAR a) = 0 :=
  dyn_arr_append
    { malloc_fails := fun _ => false, realloc_fails := fun _ => false, fresh := fun _ => 0 }
    { data := none, endptr := 0, capacity := 0 } 1 [10, 20, 30] (by decide) (by norm_num)
    rfl (fun _ => rfl)
    (fun k hk => by
      have hk2 : k < 2 := by
        by_contra hge
        have h4 : 2 ^ 2 ≤ 2 ^ k := Nat.pow_le_pow_right (by decide) (not_lt.mp hge)
        simp only [List.length_cons, List.length_nil] at hk
        omega
      interval_cases k <;> norm_num)

/-- C24 (progress per chunk). From every state of the machine, a call of `fmt_chunk` with a
buffer of capacity at least 1 that returns true has written at least one byte. In general
a call returns true with `size = 0` only for a buffer (not the null pointer) of capacity 0.
So a drain loop over windows of at least one byte ends, with the whole output handed over,
after at most as many calls as the output has bytes, plus one. -/
theorem chunk_progress (hook : FmtHook) (s : FmtState) (b : List Char) (N : Nat)
    (hok : StateOk hook s) (hN : 1 ≤ N) :
    (∃ r, fmt_chunk hook s (some b) N = .ok r ∧ (r.ret = true → 1 ≤ r.state.size)) ∧
      (∀ (buf : Option (List Char)) (n : Nat),
        ∃ r, fmt_chunk hook s buf n = .ok r ∧
          (r.ret = true → r.state.size = 0 → buf ≠ none ∧ n = 0)) ∧
      ∀ bufs : List (List Char), (∀ w ∈ bufs, 1 ≤ w.length) →
        bufs.length = (remaining hook s).length + 1 →
        ∃ s1, fmt_drain hook bufs s [] = .ok (true, s1, remaining hook s) := by
  have key : ∀ (w : List Char) (n : Nat),
      ∃ r, fmt_chunk hook s (some w) n = .ok r ∧ (r.ret = true → r.state.size = 0 → n = 0) := by
    intro w n
    obtain ⟨r, hr, _, hsz, _, _, hret, _⟩ := fmt_chunk_buf hook s w n hok
    refine ⟨r, hr, fun ht h0 => ?_⟩
    rw [hret] at ht
    have hne : remaining hook s ≠ [] := by simpa using ht
    have hpos : 0 < (remaining hook s).length := List.length_pos.mpr hne
    rw [hsz, List.length_take] at h0
    omega
  refine ⟨?_, ?_, ?_⟩
  · obtain ⟨r, hr, h1⟩ := key b N
    refine ⟨r, hr, fun ht => ?_⟩
    by_contra hc
    have := h1 ht (by omega)
    omega
  · intro buf n
    cases buf with
    | none =>
      obtain ⟨r, hr, _, hsz, _, hret, _⟩ := fmt_chunk_null hook s n hok
      refine ⟨r, hr, fun ht h0 => ?_⟩
      rw [hret] at ht
      have hne : remaining hook s ≠ [] := by simpa using ht
      have hpos : 0 < (remaining hook s).length := List.length_pos.mpr hne
      omega
    | some w =>
      obtain ⟨r, hr, h1⟩ := key w n
      exact ⟨r, hr, fun ht h0 => ⟨by simp, h1 ht h0⟩⟩
  · intro bufs hpos hlen
    obtain ⟨s1, h1, _⟩ := fmt_drain_eq hook bufs s [] hok hpos (by omega)
    exact ⟨s1, by simpa using h1⟩

/-- Witness for C24: `abc` into a window of two bytes; the first call returns true with two
bytes. -/
theorem chunk_progress_witness :
    ∃ r, fmt_chunk fmt_custom_arg (fmt_init demo_state "abc".toList []) (some "..".toList) 2 =
        .ok r ∧ r.ret = true ∧ 1 ≤ r.state.size := by
  obtain ⟨⟨r, hr, h1⟩, _⟩ := chunk_progress fmt_custom_arg
    (fmt_init demo_state "abc".toList []) "..".toList 2
    (fmt_init_ok _ _ _ _ (VaOk_of_builtin _ _ (by decide))) (by decide)
  have e : (fmt_chunk fmt_custom_arg (fmt_init demo_state "abc".toList [])
      (some "..".toList) 2).toOption.map (fun x => x.ret) = some true := by decide
  rw [hr] at e
  have ht : r.ret = true := by simpa [Except.toOption] using e
  exact ⟨r, hr, ht, h1 ht⟩

/-- C25 (parser cursor bounds). Take a format string with its terminator written out, the
text `t` followed by NUL, behind an opening brace that is not followed by a second one.
`fmt_parse_argspec` returns, on success and on failure alike, with the cursor behind the
opening brace and at or before the terminator: the cursor is `rest` followed by the
terminator, for a split `t = pre ++ rest` in which `pre`, the characters passed, holds no
terminator. Placeholders cut off by the end of the string, such as `{`, `{0`, `{:`, `{:0`
and `{|abc`, are reported as invalid with the cursor at the terminator. -/
theorem parser_cursor_bounds (t : List Char) (h : peek t ≠ '\x7b') :
    (∃ p pre rest, fmt_parse_argspec ('\x7b' :: (t ++ ['\x00'])) = .ok p ∧
      t = pre ++ rest ∧ p.fmt = rest ++ ['\x00'] ∧ ∀ c ∈ pre, c ≠ '\x00') ∧
      ∀ cut ∈ ["", "0", ":", ":0", "|abc"],
        (fmt_parse_argspec ('\x7b' :: (cut.toList ++ ['\x00']))).toOption.map
          (fun p => (p.success, p.fmt)) = some (false, ['\x00']) := by
  refine ⟨?_, by decide⟩
  have h1 : peek ('\x7b' :: (t ++ ['\x00'])).tail ≠ '\x7b' := by
    cases t with
    | nil => decide
    | cons c cs => exact h
  obtain ⟨p, hp, _⟩ := fmt_parse_argspec_ok _ h1
  obtain ⟨pre, e, hpre⟩ := fmt_parse_argspec_passed _ p hp
  simp only [List.tail_cons] at e
  rcases List.eq_nil_or_concat p.fmt with hn | ⟨L, b, hL⟩
  · exfalso
    rw [hn, List.append_nil] at e
    exact hpre '\x00' (by rw [← e]; simp) rfl
  · rw [List.concat_eq_append] at hL
    rw [hL, ← List.append_assoc] at e
    have e2 := List.append_inj' e rfl
    refine ⟨p, pre, L, hp, e2.1, ?_, hpre⟩
    rw [hL]
    have e3 := e2.2
    simp only [List.cons.injEq, and_true] at e3
    rw [← e3]

/-- Witness for C25: the placeholder of `{0:5` is cut off by the end of the string; the
cursor is left at the terminator. -/
theorem parser_cursor_bounds_witness :
    ∃ p pre rest, fmt_parse_argspec ('\x7b' :: ("0:5".toList ++ ['\x00'])) = .ok p ∧
      "0:5".toList = pre ++ rest ∧ p.fmt = rest ++ ['\x00'] ∧ ∀ c ∈ pre, c ≠ '\x00' :=
  (parser_cursor_bounds "0:5".toList (by decide)).1

/-- C26 (drain assertions). For every output descriptor with `pad_pos <= text_size`, a
padding amount that is not negative, and a text pointer that designates `text_size` bytes,
and for every sequence of buffer capacities, the Formatting branch fails no assertion:
in each run, when the padding block writes, the text before `pad_pos` has been emitted
(`pad_pos = 0`), and when the block behind it writes, the padding has been emitted
(`pad_size = 0`). The bytes stored over the sequence are the first bytes of the text before
the padding position, then the padding, then the text behind it. -/
theorem drain_assertions (fo : FmtFormatOutput) (caps : List Nat)
    (h1 : fo.pad_pos ≤ fo.text_size) (h2 : 0 ≤ fo.pad_size) (h3 : fo.pad_size < 2 ^ 31)
    (h4 : fo.text_size ≤ fo.text.length) :
    (∃ r, fmt_emit_seq caps fo = .ok r ∧
      r.1 = (fo.text.take fo.pad_pos ++
        (List.replicate fo.pad_size.toNat fo.pad_byte ++
          (fo.text.drop fo.pad_pos).take (fo.text_size - fo.pad_pos))).take caps.sum ∧
      pending r.2 = (pending fo).drop caps.sum ∧
      r.2.pad_pos ≤ r.2.text_size ∧ 0 ≤ r.2.pad_size) ∧
      ∀ cap : Nat,
        ((emit_pre
            { format_output := fo, out := [], remaining := cap, size_written := 0 }).remaining
              > 0 →
          (emit_pre
            { format_output := fo, out := [], remaining := cap, size_written := 0
              }).format_output.pad_pos = 0) ∧
        ∃ e2, emit_pad (emit_pre
            { format_output := fo, out := [], remaining := cap, size_written := 0 }) = .ok e2 ∧
          (e2.remaining > 0 → e2.format_output.pad_size = 0) ∧
          ∃ e3, emit_post e2 = .ok e3 ∧ fmt_emit (some cap) fo [] 0 = .ok e3 := by
  have hfo : FoOk fo := ⟨h1, h4, h2, lt_trans h3 (by norm_num)⟩
  refine ⟨?_, ?_⟩
  · obtain ⟨r, hr, e1, e2, hk⟩ := fmt_emit_seq_ok caps fo hfo
    exact ⟨r, hr, e1, e2, hk.1, hk.2.2.1⟩
  · intro cap
    obtain ⟨s1, p1⟩ := emit_pre_step
      { format_output := fo, out := [], remaining := cap, size_written := 0 } hfo
    obtain ⟨e2, q2, s2, p2⟩ := emit_pad_step _ s1.choose_spec.2.2.2.2.2.2 p1
    obtain ⟨e3, q3, _, _⟩ := emit_post_step _ s2.choose_spec.2.2.2.2.2.2 p2
    refine ⟨p1, e2, q2, fun hr => (p2 hr).2, e3, q3, ?_⟩
    unfold fmt_emit
    dsimp only
    rw [if_pos h1]
    simp only [List.length_nil, Nat.sub_zero, q2, q3]

/-- Witness for C26: a descriptor with text `0x1f`, padding position 2 and three bytes of
padding, drained through buffers of 1, 3 and 9 bytes. -/
theorem drain_assertions_witness :
    ∃ r, fmt_emit_seq [1, 3, 9]
        { text := "0x1f".toList, text_size := 4, pad_pos := 2, pad_size := 3,
          pad_mode := FmtPadMode.FmtPadCustomPos, pad_byte := '0' } = .ok r ∧
      r.1 = "0x0001f".toList := by
  obtain ⟨⟨r, hr, h1, _⟩, _⟩ := drain_assertions
    { text := "0x1f".toList, text_size := 4, pad_pos := 2, pad_size := 3,
      pad_mode := FmtPadMode.FmtPadCustomPos, pad_byte := '0' } [1, 3, 9]
    (by decide) (by decide) (by decide) (by decide)
  exact ⟨r, hr, h1.trans (by decide)⟩

/-- C27 (negative values in hex and binary). For every signed integer argument of 8, 16,
32 or 64 bits whose value `v` is negative, the modes `x` and `b` render the 64-bit
two's-complement value `v + 2^64`, that is the value sign-extended to 64 bits, in base 16
and in base 2, without a minus sign; the top bit of that value is set, so the binary text
has 64 digits and the hex text 16. -/
theorem negative_hex_bin (hook : FmtHook) (arg : FmtArg) (d : FmtStorage) (spec : FmtSpec)
    (userdata : Nat) (fo0 : FmtFormatOutput)
    (hty : arg.type = FmtArgS64 ∨ arg.type = FmtArgS32 ∨ arg.type = FmtArgS16 ∨
      arg.type = FmtArgS8)
    (hneg : fmt_arg_S64 arg.type d < 0) :
    (spec.format = 'x' →
      fmt_format_text hook arg d spec userdata fo0 =
        .ok { fo0 with
          text := digits_text 16 (fmt_arg_S64 arg.type d + 2 ^ 64).toNat
          text_size := (digits_text 16 (fmt_arg_S64 arg.type d + 2 ^ 64).toNat).length }) ∧
      (spec.format = 'b' →
        fmt_format_text hook arg d spec userdata fo0 =
          .ok { fo0 with
            text := digits_text 2 (fmt_arg_S64 arg.type d + 2 ^ 64).toNat
            text_size := (digits_text 2 (fmt_arg_S64 arg.type d + 2 ^ 64).toNat).length }) ∧
      '-' ∉ digits_text 16 (fmt_arg_S64 arg.type d + 2 ^ 64).toNat ∧
      '-' ∉ digits_text 2 (fmt_arg_S64 arg.type d + 2 ^ 64).toNat ∧
      2 ^ 63 ≤ (fmt_arg_S64 arg.type d + 2 ^ 64).toNat ∧
      (fmt_arg_S64 arg.type d + 2 ^ 64).toNat < 2 ^ 64 ∧
      (digits_text 16 (fmt_arg_S64 arg.type d + 2 ^ 64).toNat).length = 16 ∧
      (digits_text 2 (fmt_arg_S64 arg.type d + 2 ^ 64).toNat).length = 64 := by
  obtain ⟨hlo, _⟩ := fmt_arg_S64_bounds arg.type d hty
  obtain ⟨eu, hlt, hge⟩ := toU64_neg _ hlo hneg
  have hnv : arg.type ≠ FmtArgVoidPtr := by
    rcases hty with h | h | h | h <;> rw [h] <;> decide
  have hs : arg.type = FmtArgS64 ∨ arg.type = FmtArgS32 ∨ arg.type = FmtArgS16 ∨
      arg.type = FmtArgS8 ∨
      arg.type = (if FMT__CHAR_IS_SIGNED then FmtArgChar else FmtArgFirstBuiltin) := by
    rcases hty with h | h | h | h
    · exact Or.inl h
    · exact Or.inr (Or.inl h)
    · exact Or.inr (Or.inr (Or.inl h))
    · exact Or.inr (Or.inr (Or.inr (Or.inl h)))
  refine ⟨fun hx => ?_, fun hb => ?_, ?_, ?_, hge, hlt,
    digits_text_length 16 _ 15 (by norm_num) (le_trans (by norm_num) hge)
      (lt_of_lt_of_le hlt (by norm_num)),
    digits_text_length 2 _ 63 (by norm_num) hge hlt⟩
  · unfold fmt_format_text
    rw [if_neg (by
      intro hc
      rcases hc with hc | hc
      · rw [hx] at hc
        exact absurd hc (by decide)
      · exact hnv hc), if_pos hs]
    unfold fmt_format_int
    rw [hx, if_neg (by decide), if_pos rfl, eu, show_U64_hex_text _ hlt]
  · unfold fmt_format_text
    rw [if_neg (by
      intro hc
      rcases hc with hc | hc
      · rw [hb] at hc
        exact absurd hc (by decide)
      · exact hnv hc), if_pos hs]
    unfold fmt_format_int
    rw [hb, if_neg (by decide), if_neg (by decide), if_pos rfl, eu, show_U64_bin_eq _ hlt]
  · intro hm
    obtain ⟨k, hk, e⟩ := digits_text_mem 16 (by norm_num) _ _ hm
    interval_cases k <;> exact absurd e (by decide)
  · intro hm
    obtain ⟨k, hk, e⟩ := digits_text_mem 2 (by norm_num) _ _ hm
    interval_cases k <;> exact absurd e (by decide)

/-- Witness for C27: an 8-bit `-1` renders as sixteen `f` in hex and as sixty-four `1` in
binary. -/
theorem negative_hex_bin_witness :
    fmt_format_text fmt_custom_arg
        { data := some { word := 255, str := [] }, type := FmtArgS8 }
        { word := 255, str := [] }
        { min_len := 0, custom_start := [], custom_len := 0,
          pad_mode := FmtPadMode.FmtPadLeft, pad_byte := ' ', format := 'x' } 0
        (fmt_fresh_output []
          { min_len := 0, custom_start := [], custom_len := 0,
            pad_mode := FmtPadMode.FmtPadLeft, pad_byte := ' ', format := 'x' }) =
      .ok { text := List.replicate 16 'f', text_size := 16, pad_pos := 0, pad_size := 0,
            pad_mode := FmtPadMode.FmtPadLeft, pad_byte := ' ' } ∧
      fmt_format_text fmt_custom_arg
        { data := some { word := 255, str := [] }, type := FmtArgS8 }
        { word := 255, str := [] }
        { min_len := 0, custom_start := [], custom_len := 0,
          pad_mode := FmtPadMode.FmtPadLeft, pad_byte := ' ', format := 'b' } 0
        (fmt_fresh_output []
          { min_len := 0, custom_start := [], custom_len := 0,
            pad_mode := FmtPadMode.FmtPadLeft, pad_byte := ' ', format := 'b' }) =
      .ok { text := List.replicate 64 '1', text_size := 64, pad_pos := 0, pad_size := 0,
            pad_mode := FmtPadMode.FmtPadLeft, pad_byte := ' ' } := by
  have hv : fmt_arg_S64 FmtArgS8 { word := 255, str := [] } = -1 := by decide
  have e16 : digits_text 16 ((-1 : Int) + 2 ^ 64).toNat = List.replicate 16 'f' :=
    (digits_text_eq_toDigits 16 (by norm_num) _).trans (by decide)
  have e2 : digits_text 2 ((-1 : Int) + 2 ^ 64).toNat = List.replicate 64 '1' :=
    (digits_text_eq_toDigits 2 (by norm_num) _).trans (by decide)
  constructor
  · have h := (negative_hex_bin fmt_custom_arg
      { data := some { word := 255, str := [] }, type := FmtArgS8 } { word := 255, str := [] }
      { min_len := 0, custom_start := [], custom_len := 0,
        pad_mode := FmtPadMode.FmtPadLeft, pad_byte := ' ', format := 'x' } 0
      (fmt_fresh_output []
        { min_len := 0, custom_start := [], custom_len := 0,
          pad_mode := FmtPadMode.FmtPadLeft, pad_byte := ' ', format := 'x' })
      (Or.inr (Or.inr (Or.inr rfl))) (by decide)).1 rfl
    rw [h]
    dsimp only
    rw [hv, e16]
    rfl
  · have h := (negative_hex_bin fmt_custom_arg
      { data := some { word := 255, str := [] }, type := FmtArgS8 } { word := 255, str := [] }
      { min_len := 0, custom_start := [], custom_len := 0,
        pad_mode := FmtPadMode.FmtPadLeft, pad_byte := ' ', format := 'b' } 0
      (fmt_fresh_output []
        { min_len := 0, custom_start := [], custom_len := 0,
          pad_mode := FmtPadMode.FmtPadLeft, pad_byte := ' ', format := 'b' })
      (Or.inr (Or.inr (Or.inr rfl))) (by decide)).2.1 rfl
    rw [h]
    dsimp only
    rw [hv, e2]
    rfl

/-- C28 (dynamic array capacity invariant), at the capacity 0. `DYN_ARR_RESET(a, 0)` gives
an array with size 0 and capacity 0, so the size is within the capacity. `DYN_ARR_APPEND`
on it doubles the capacity 0 to 0 and asks `realloc` for no elements: either `realloc`
returns NULL and `assert(tmp != NULL)` fails, or the value is stored at index 0 of a block
of no elements, outside the block and not below the capacity 0. The same happens at the
capacity `2 ^ 31`, whose double is 0 in 32 bits. -/
theorem dyn_arr_capacity {α : Type} (al : Allocator α) (a0 : DynArr α) (v : α) :
    DYN_ARR_SIZE (DYN_ARR_RESET al a0 0) = 0 ∧ (DYN_ARR_RESET al a0 0).capacity = 0 ∧
      DYN_ARR_APPEND al (DYN_ARR_RESET al a0 0) v =
        .error (if al.realloc_fails 0 then MemFault.assertion else MemFault.outOfBounds) ∧
      ∀ blk : List α,
        DYN_ARR_APPEND al { data := some blk, endptr := ((2 ^ 31 : Nat) : Int), capacity := 2 ^ 31 } v =
          .error (if al.realloc_fails 0 then MemFault.assertion else MemFault.outOfBounds) := by
  refine ⟨rfl, rfl, ?_, fun blk => ?_⟩
  · cases hr : al.realloc_fails 0 <;>
      simp [DYN_ARR_APPEND, DYN_ARR_RESET, realloc, dyn_arr_store, hr]
  · have hmod : (2 ^ 31 * 2) % 2 ^ 32 = 0 := by norm_num
    have hneg : ¬ ((2 ^ 31 : Nat) : Int) < 0 := not_lt.mpr (Int.natCast_nonneg _)
    have hout : ¬ ((0 : Int) ≤ ((2 ^ 31 : Nat) : Int) ∧
        (((2 ^ 31 : Nat) : Int)).toNat < ([] : List α).length) :=
      fun h => Nat.not_lt_zero _ h.2
    unfold DYN_ARR_APPEND
    dsimp only
    rw [if_neg hneg, Int.toNat_ofNat, if_pos (le_refl _), hmod]
    cases hr : al.realloc_fails 0
    · simp only [realloc, hr, Bool.false_eq_true, if_false, Option.getD_some, List.take_zero,
        List.range_zero, List.drop_nil, List.map_nil, List.append_nil, dyn_arr_store]
      rw [if_neg hout]
    · simp only [realloc, hr, if_true]

end Fmt
